import Mathlib

/-!
Verification of the bidirectional graph-search module
(`networkx/algorithms/bidirectional_path_search.py`).

The module offers three operations — `bidirectional_has_path`,
`bidirectional_all_shortest_paths`, `bidirectional_all_simple_paths` — each
dispatching to a simple-graph or a multigraph engine.  The graph collaborator
itself is external to the module; it is modelled here as an explicit node list
plus edge list with `directed` and `multi` flags, exposing exactly the
interface the module consumes (`contains`, `successors`, `predecessors`,
`neighbors`, incident-edge enumeration — the latter direction-agnostic, per
the documented multigraph ambiguity of the specification).

Python sets and dicts are modelled as insertion-ordered duplicate-free lists,
generators as the full list of their yields (with a possible terminal
exception), and the `while` loops as fuel-bounded recursion on an explicit
round function, with a fuel that provably exceeds the number of rounds any
run can take.
-/

namespace BidirSearch

abbrev Node := Nat
abbrev Path := List Node

/-- The graph collaborator: node list, edge list, directedness, multigraph
flag.  Edges are stored as ordered pairs; an undirected graph interprets each
pair symmetrically. -/
structure Graph where
  nodes : List Node
  edges : List (Node × Node)
  directed : Bool
  multi : Bool
deriving Repr, DecidableEq

/-- Membership test `node in G`. -/
def Graph.contains (G : Graph) (v : Node) : Bool := decide (v ∈ G.nodes)

/-- Directed successors `G.successors(v)`: each distinct successor once,
in edge order (adjacency-dict semantics). -/
def Graph.succ (G : Graph) (v : Node) : List Node :=
  ((G.edges.filter (fun e => e.1 == v)).map Prod.snd).dedup

/-- Directed predecessors `G.predecessors(v)`. -/
def Graph.pred (G : Graph) (v : Node) : List Node :=
  ((G.edges.filter (fun e => e.2 == v)).map Prod.fst).dedup

/-- Incident-edge enumeration for multigraphs: `[v for u, v in G.edges(n)]`.
Each incident edge contributes its other endpoint, once per (parallel) edge,
direction-agnostic (per the documented multigraph ambiguity in the spec,
which consumes the graph only through this interface). -/
def Graph.incident (G : Graph) (v : Node) : List Node :=
  G.edges.filterMap (fun e =>
    if e.1 == v then some e.2 else if e.2 == v then some e.1 else none)

/-- Undirected adjacency `G[v]`: distinct neighbors, insertion order. -/
def Graph.nbrs (G : Graph) (v : Node) : List Node := (G.incident v).dedup

/-- The neighbor-resolver lambda of the simple-graph engines:
`neighbors = lambda modus, node: iter(G[node])`, replaced for directed
graphs by `G.predecessors(node) if modus else G.successors(node)`. -/
def Graph.neighbors (G : Graph) (modus : Bool) (v : Node) : List Node :=
  if G.directed then (if modus then G.pred v else G.succ v) else G.nbrs v

/-- Error kinds of the module: `NetworkXError` for a missing endpoint and
`NetworkXNoPath` for a proven absence of any path. -/
inductive Err where
  | nodeNotFound : Err
  | noPath : Err
deriving Repr, DecidableEq

/-- Append-if-absent: Python `set.add` on an insertion-ordered set. -/
def addSet (l : List Node) (x : Node) : List Node := if x ∈ l then l else l ++ [x]

/-- Python `set.update`: add each element of `xs` in order. -/
def unionS (l : List Node) (xs : List Node) : List Node := xs.foldl addSet l

/-- All nodes a search from `s` to `t` can ever touch: the two endpoints and
every edge endpoint, without duplicates. -/
def uniL (G : Graph) (s t : Node) : List Node :=
  (s :: t :: (G.edges.map Prod.fst ++ G.edges.map Prod.snd)).dedup

/-- Fuel bound for the `while` loops: no run of either while-loop engine can
take more rounds than this (each round either ends the loop or lengthens a
side's duplicate-free frontier data, which is drawn from `s`, `t` and the
edge endpoints). -/
def fuelN (G : Graph) (s t : Node) : Nat :=
  2 * (uniL G s t).length + 3

/-! ## Reachability engine (`_bidirectional_has_path` and its multi variant) -/

/-- State of the reachability loop: the two leaf sets and the two cumulative
seen sets (`leaves` and `nodes` in the source). -/
structure HPState where
  l0 : List Node
  l1 : List Node
  n0 : List Node
  n1 : List Node
deriving Repr, DecidableEq

/-- One round's candidate neighbors: every neighbor (in scan order) of a leaf
of the expanding side that is not in that side's seen set. -/
def hpCands (nbr : Bool → Node → List Node) (m : Bool)
    (leavesS nodesS : List Node) : List Node :=
  leavesS.flatMap (fun u => (nbr m u).filter (fun v => decide (v ∉ nodesS)))

/-- One round of the reachability loop: pick the side with strictly fewer
leaves (source side on ties), expand it, and either report a meeting
(`none`, the engine returns `True`) or deliver the updated state. -/
def hpRound (nbr : Bool → Node → List Node) (st : HPState) : Option HPState :=
  let m := decide (st.l1.length < st.l0.length)
  let ls := if m then st.l1 else st.l0
  let lt := if m then st.l0 else st.l1
  let ns := if m then st.n1 else st.n0
  let cands := hpCands nbr m ls ns
  if cands.any (fun v => decide (v ∈ lt)) then none
  else
    let temp := cands.dedup
    if m then some ⟨st.l0, temp, st.n0, ns ++ temp⟩
    else some ⟨temp, st.l1, ns ++ temp, st.n1⟩

/-- The while loop of `_bidirectional_has_path`, parameterized by the
neighbor resolver (the simple and multi variants differ only there). -/
def hpLoop (nbr : Bool → Node → List Node) : Nat → HPState → Bool
  | 0, _ => false
  | fuel+1, st =>
    if st.l0.isEmpty || st.l1.isEmpty then false
    else
      match hpRound nbr st with
      | none => true
      | some st' => hpLoop nbr fuel st'

/-- Round-indexed states of the reachability loop (`none` once the loop has
stopped, by meeting or by an exhausted side). -/
def hpIter (nbr : Bool → Node → List Node) (st : HPState) : Nat → Option HPState
  | 0 => some st
  | k+1 =>
    match hpIter nbr st k with
    | none => none
    | some st' =>
      if st'.l0.isEmpty || st'.l1.isEmpty then none else hpRound nbr st'

/-- Initial state of the bidirectional loops: each side's frontier and seen
set hold just its anchor. -/
def hpInit (s t : Node) : HPState := ⟨[s], [t], [s], [t]⟩

/-- Engine `_bidirectional_has_path` (simple graphs). -/
def _bidirectional_has_path (G : Graph) (s t : Node) : Bool :=
  hpLoop G.neighbors (fuelN G s t) (hpInit s t)

/-- Engine `_bidirectional_has_path_multi` (multigraphs): identical loop,
neighbors resolved by incident-edge enumeration. -/
def _bidirectional_has_path_multi (G : Graph) (s t : Node) : Bool :=
  hpLoop (fun _ v => G.incident v) (fuelN G s t) (hpInit s t)

/-- Public operation `bidirectional_has_path`: endpoint validation, then
dispatch on the multigraph flag. -/
def bidirectional_has_path (G : Graph) (s t : Node) : Except Err Bool :=
  if s ∉ G.nodes then .error .nodeNotFound
  else if t ∉ G.nodes then .error .nodeNotFound
  else .ok (if G.multi then _bidirectional_has_path_multi G s t
            else _bidirectional_has_path G s t)

/-! ## All-shortest-paths engine -/

/-- Last element of a path (paths handled by the engines are nonempty). -/
def lastD (p : Path) : Node := p.getLastD 0

/-- Frontier extension shared by the shortest-path engines: for every partial
path and every neighbor of its endpoint not already on it, the extended
path, in scan order.  (`temp_tree` collects exactly these.) -/
def extendAll (nbr : Bool → Node → List Node) (m : Bool)
    (treeS : List Path) : List Path :=
  treeS.flatMap (fun p =>
    (nbr m (lastD p)).filterMap (fun v =>
      if v ∈ p then none else some (p ++ [v])))

/-- Stitching: expanding-side partial path `ps`, opposite-side partial path
`pt` (ending at the meeting node); the yield reads source → target. -/
def stitch (m : Bool) (ps pt : Path) : Path :=
  if m then pt ++ ps.reverse else ps ++ pt.reverse

/-- Meeting yields of one shortest-path round: for each partial path `ps`,
each candidate neighbor `v ∉ ps` passing the `gate` (the opposite seen-set
test, vacuous in the multi variant), and each opposite path ending at `v`
and node-disjoint from `ps`, the stitched full path. -/
def ssYields (nbr : Bool → Node → List Node) (m : Bool) (gate : Node → Bool)
    (treeS treeT : List Path) : List Path :=
  treeS.flatMap (fun ps =>
    (nbr m (lastD ps)).flatMap (fun v =>
      if v ∈ ps then []
      else if gate v then
        (treeT.filter (fun pt =>
          lastD pt == v && pt.all (fun x => decide (x ∉ ps)))).map (stitch m ps)
      else []))

/-- State of the simple-graph shortest-path loop: the two path sets, the two
seen-node sets, the `found` flag, and the yields produced so far. -/
structure SSState where
  t0 : List Path
  t1 : List Path
  n0 : List Node
  n1 : List Node
  found : Bool
  acc : List Path
deriving Repr, DecidableEq

/-- One round of `_bidirectional_all_shortest_paths`: expand the strictly
smaller tree (source side on ties); yield all meetings; replace that tree by
the set of extensions; add every admitted endpoint to that side's seen set. -/
def ssRound (nbr : Bool → Node → List Node) (st : SSState) : SSState :=
  let m := decide (st.t1.length < st.t0.length)
  let ts := if m then st.t1 else st.t0
  let tt := if m then st.t0 else st.t1
  let nt := if m then st.n0 else st.n1
  let ns := if m then st.n1 else st.n0
  let ys := ssYields nbr m (fun v => decide (v ∈ nt)) ts tt
  let ext := extendAll nbr m ts
  let temp := ext.dedup
  let ns' := unionS ns (ext.map lastD)
  let found' := st.found || !ys.isEmpty
  if m then ⟨st.t0, temp, st.n0, ns', found', st.acc ++ ys⟩
  else ⟨temp, st.t1, ns', st.n1, found', st.acc ++ ys⟩

/-- The while loop of `_bidirectional_all_shortest_paths`. -/
def ssLoop (nbr : Bool → Node → List Node) : Nat → SSState → SSState
  | 0, st => st
  | fuel+1, st =>
    if st.found || st.t0.isEmpty || st.t1.isEmpty then st
    else ssLoop nbr fuel (ssRound nbr st)

/-- Initial state of the shortest-path loops. -/
def ssInit (s t : Node) : SSState := ⟨[[s]], [[t]], [s], [t], false, []⟩

/-- Engine `_bidirectional_all_shortest_paths` (simple graphs): yields and
whether a meeting was ever found (the generator raises `NetworkXNoPath`
when `found` is still unset after the loop). -/
def _bidirectional_all_shortest_paths (G : Graph) (s t : Node) :
    List Path × Bool :=
  let st := ssLoop G.neighbors (fuelN G s t) (ssInit s t)
  (st.acc, st.found)

/-- State of the multigraph shortest-path loop: trees are Python lists
(duplicates retained, `temp_tree.append`), and there are no seen sets. -/
structure SMState where
  t0 : List Path
  t1 : List Path
  found : Bool
  acc : List Path
deriving Repr, DecidableEq

/-- One round of `_bidirectional_all_shortest_paths_multi`: as `ssRound` but
list-based and with no seen-set gate on the meeting test. -/
def smRound (nbr : Bool → Node → List Node) (st : SMState) : SMState :=
  let m := decide (st.t1.length < st.t0.length)
  let ts := if m then st.t1 else st.t0
  let tt := if m then st.t0 else st.t1
  let ys := ssYields nbr m (fun _ => true) ts tt
  let temp := extendAll nbr m ts
  let found' := st.found || !ys.isEmpty
  if m then ⟨st.t0, temp, found', st.acc ++ ys⟩
  else ⟨temp, st.t1, found', st.acc ++ ys⟩

/-- The while loop of `_bidirectional_all_shortest_paths_multi`. -/
def smLoop (nbr : Bool → Node → List Node) : Nat → SMState → SMState
  | 0, st => st
  | fuel+1, st =>
    if st.found || st.t0.isEmpty || st.t1.isEmpty then st
    else smLoop nbr fuel (smRound nbr st)

/-- Engine `_bidirectional_all_shortest_paths_multi`. -/
def _bidirectional_all_shortest_paths_multi (G : Graph) (s t : Node) :
    List Path × Bool :=
  let st := smLoop (fun _ v => G.incident v) (fuelN G s t)
    ⟨[[s]], [[t]], false, []⟩
  (st.acc, st.found)

/-- Public operation `bidirectional_all_shortest_paths`: endpoint validation,
dispatch, and the consumption trace of the returned generator — the list of
yields followed by `NetworkXNoPath` exactly when no meeting was found. -/
def bidirectional_all_shortest_paths (G : Graph) (s t : Node) :
    Except Err (List Path × Option Err) :=
  if s ∉ G.nodes then .error .nodeNotFound
  else if t ∉ G.nodes then .error .nodeNotFound
  else
    let r := if G.multi then _bidirectional_all_shortest_paths_multi G s t
             else _bidirectional_all_shortest_paths G s t
    .ok (r.1, if r.2 then none else some .noPath)

/-! ## All-simple-paths engine -/

/-- Frontier of the simple-paths engines: a dict from leaf node to the set of
partial paths reaching it — an insertion-ordered association list with
duplicate-free buckets. -/
abbrev Buckets := List (Node × List Path)

/-- Dict lookup `tree_target[s]`. -/
def lookupB (t : Buckets) (k : Node) : Option (List Path) :=
  (t.find? (fun e => e.1 == k)).map Prod.snd

/-- Dict-of-sets insertion: `temp_tree[s].add(path)` with creation of a fresh
singleton bucket on a missing key. -/
def bucketAdd : Buckets → Node → Path → Buckets
  | [], k, p => [(k, [p])]
  | (k', ps) :: rest, k, p =>
    if k' == k then (k', if p ∈ ps then ps else ps ++ [p]) :: rest
    else (k', ps) :: bucketAdd rest k p

/-- Round generation of the simple-paths engines: for each leaf bucket, each
neighbor `v` of the leaf, each partial path `p` in the bucket with `v ∉ p`,
the pair (new leaf, extended path), in scan order. -/
def spEntries (nbr : Bool → Node → List Node) (m : Bool)
    (treeS : Buckets) : List (Node × Path) :=
  treeS.flatMap (fun e =>
    (nbr m e.1).flatMap (fun v =>
      e.2.filterMap (fun p =>
        if v ∈ p then none else some (v, p ++ [v]))))

/-- New frontier dict of one round: all round entries bucketed. -/
def spTemp (nbr : Bool → Node → List Node) (m : Bool) (treeS : Buckets) :
    Buckets :=
  (spEntries nbr m treeS).foldl (fun t e => bucketAdd t e.1 e.2) []

/-- Meeting yields of one simple-paths round, in scan order: for each leaf,
neighbor `v`, partial path `p` with `v ∉ p`, and each opposite-side path in
the bucket of `v` that is node-disjoint from `p`, the stitched path. -/
def spYields (nbr : Bool → Node → List Node) (m : Bool)
    (treeS treeT : Buckets) : List Path :=
  treeS.flatMap (fun e =>
    (nbr m e.1).flatMap (fun v =>
      e.2.flatMap (fun p =>
        if v ∈ p then []
        else
          match lookupB treeT v with
          | none => []
          | some pts =>
            (pts.filter (fun pt => pt.all (fun x => decide (x ∉ p)))).map
              (stitch m p))))

/-- State of the simple-paths loop: the two frontier dicts and the yields
produced so far. -/
structure SPState where
  t0 : Buckets
  t1 : Buckets
  acc : List Path
deriving Repr, DecidableEq

/-- One round of the simple-paths engines: expand the side with strictly
fewer dict keys (source side on ties), yield every meeting as discovered,
and replace that side's dict wholesale. -/
def spRound (nbr : Bool → Node → List Node) (st : SPState) : SPState :=
  let m := decide (st.t1.length < st.t0.length)
  let ts := if m then st.t1 else st.t0
  let tt := if m then st.t0 else st.t1
  let ys := spYields nbr m ts tt
  let temp := spTemp nbr m ts
  if m then ⟨st.t0, temp, st.acc ++ ys⟩
  else ⟨temp, st.t1, st.acc ++ ys⟩

/-- The `for _ in range(cutoff)` loop shared by the two simple-paths engines
(they differ only in the neighbor resolver). -/
def spLoop (nbr : Bool → Node → List Node) : Nat → SPState → SPState
  | 0, st => st
  | c+1, st => spLoop nbr c (spRound nbr st)

/-- Initial state of the simple-paths loops. -/
def spInit (s t : Node) : SPState := ⟨[(s, [[s]])], [(t, [[t]])], []⟩

/-- Engine `_bidirectional_all_simple_paths` (simple graphs): empty output
when `cutoff < 1`, otherwise exactly `cutoff` rounds. -/
def _bidirectional_all_simple_paths (G : Graph) (s t : Node) (cutoff : Int) :
    List Path :=
  if cutoff < 1 then []
  else (spLoop G.neighbors cutoff.toNat (spInit s t)).acc

/-- Engine `_bidirectional_all_simple_paths_multi`. -/
def _bidirectional_all_simple_paths_multi (G : Graph) (s t : Node)
    (cutoff : Int) : List Path :=
  if cutoff < 1 then []
  else (spLoop (fun _ v => G.incident v) cutoff.toNat (spInit s t)).acc

/-- Public operation `bidirectional_all_simple_paths`: endpoint validation,
the `len(G) - 1` default cutoff, and dispatch. -/
def bidirectional_all_simple_paths (G : Graph) (s t : Node)
    (cutoff : Option Int := none) : Except Err (List Path) :=
  if s ∉ G.nodes then .error .nodeNotFound
  else if t ∉ G.nodes then .error .nodeNotFound
  else
    let c := cutoff.getD ((G.nodes.length : Int) - 1)
    .ok (if G.multi then _bidirectional_all_simple_paths_multi G s t c
         else _bidirectional_all_simple_paths G s t c)

/-! ## Reference notions (from the specification) -/

/-- Single traversal step of the reference semantics: a directed graph steps
along an edge, an undirected one along an edge in either orientation. -/
def Graph.stepB (G : Graph) (u v : Node) : Bool :=
  if G.directed then decide ((u, v) ∈ G.edges)
  else decide ((u, v) ∈ G.edges) || decide ((v, u) ∈ G.edges)

/-- Consecutive elements of the list are related by `A`. -/
def IsChain (A : Node → Node → Bool) : Path → Prop :=
  List.Chain' (fun u v => A u v = true)

/-- Reference path from `s` to `t`: a nonempty node sequence starting at
`s`, ending at `t`, each consecutive pair a step.  (Node-distinctness is
not required here; minimum-length paths are automatically distinct.) -/
def IsPathTo (A : Node → Node → Bool) (s t : Node) (p : Path) : Prop :=
  p.head? = some s ∧ p.getLast? = some t ∧ IsChain A p

/-- Reference reachability: some path exists. -/
def Reachable (A : Node → Node → Bool) (s t : Node) : Prop :=
  ∃ p, IsPathTo A s t p

/-- Reference simple path: a path with no repeated node. -/
def IsSimplePathTo (A : Node → Node → Bool) (s t : Node) (p : Path) : Prop :=
  IsPathTo A s t p ∧ p.Nodup

/-- The flipped step relation, used by the target-side frontier. -/
def flipB (A : Node → Node → Bool) : Node → Node → Bool := fun u v => A v u

/-- Well-formed graph: distinct nodes, edges between present nodes. -/
def Graph.WF (G : Graph) : Prop :=
  G.nodes.Nodup ∧ ∀ e ∈ G.edges, e.1 ∈ G.nodes ∧ e.2 ∈ G.nodes

/-- Walks of a given edge count under a step relation. -/
def WalkN (A : Node → Node → Bool) : Nat → Node → Node → Prop
  | 0, u, v => u = v
  | n+1, u, v => ∃ w, A u w = true ∧ WalkN A n w v

/-! ## Basic helper lemmas -/

lemma getLast?_eq_lastD {p : Path} (h : p ≠ []) : p.getLast? = some (lastD p) := by
  cases hp : p.getLast? with
  | none => exact absurd (List.getLast?_eq_none_iff.mp hp) h
  | some x => simp [lastD, List.getLastD_eq_getLast?, hp]

lemma lastD_eq_of_getLast? {p : Path} {x : Node} (h : p.getLast? = some x) :
    lastD p = x := by
  simp [lastD, List.getLastD_eq_getLast?, h]

lemma lastD_append_singleton (p : Path) (v : Node) : lastD (p ++ [v]) = v := by
  simp [lastD, List.getLastD_eq_getLast?, List.getLast?_concat]

lemma mem_addSet {l : List Node} {x y : Node} :
    y ∈ addSet l x ↔ y ∈ l ∨ y = x := by
  unfold addSet
  split <;> rename_i h
  · constructor
    · exact fun hy => Or.inl hy
    · rintro (hy | rfl) <;> assumption
  · simp [or_comm]

lemma mem_unionS {l xs : List Node} {y : Node} :
    y ∈ unionS l xs ↔ y ∈ l ∨ y ∈ xs := by
  induction xs generalizing l with
  | nil => simp [unionS]
  | cons x xs ih =>
    show y ∈ unionS (addSet l x) xs ↔ _
    rw [ih, mem_addSet]
    simp [or_assoc, or_comm, or_left_comm]

lemma mem_incident {G : Graph} {u v : Node} :
    v ∈ G.incident u ↔ ((u, v) ∈ G.edges ∨ (v, u) ∈ G.edges) := by
  unfold Graph.incident
  rw [List.mem_filterMap]
  constructor
  · rintro ⟨⟨a, b⟩, hab, hf⟩
    by_cases h1 : a = u
    · simp [h1] at hf
      subst hf h1
      exact Or.inl hab
    · simp [h1] at hf
      by_cases h2 : b = u
      · simp [h2] at hf
        subst h2
        rcases hf with ⟨_, rfl⟩
        exact Or.inr hab
      · simp [h2] at hf
  · rintro (h | h)
    · exact ⟨(u, v), h, by simp⟩
    · refine ⟨(v, u), h, ?_⟩
      by_cases hvu : v = u
      · subst hvu
        simp
      · simp [hvu]

lemma mem_succ {G : Graph} {u v : Node} :
    v ∈ G.succ u ↔ (u, v) ∈ G.edges := by
  unfold Graph.succ
  rw [List.mem_dedup, List.mem_map]
  constructor
  · rintro ⟨⟨a, b⟩, hab, rfl⟩
    rw [List.mem_filter] at hab
    have : a = u := by simpa using hab.2
    subst this
    exact hab.1
  · intro h
    exact ⟨(u, v), by simp [List.mem_filter, h], rfl⟩

lemma mem_pred {G : Graph} {u v : Node} :
    v ∈ G.pred u ↔ (v, u) ∈ G.edges := by
  unfold Graph.pred
  rw [List.mem_dedup, List.mem_map]
  constructor
  · rintro ⟨⟨a, b⟩, hab, rfl⟩
    rw [List.mem_filter] at hab
    have : b = u := by simpa using hab.2
    subst this
    exact hab.1
  · intro h
    exact ⟨(v, u), by simp [List.mem_filter, h], rfl⟩

lemma mem_nbrs {G : Graph} {u v : Node} :
    v ∈ G.nbrs u ↔ ((u, v) ∈ G.edges ∨ (v, u) ∈ G.edges) := by
  unfold Graph.nbrs
  rw [List.mem_dedup]
  exact mem_incident

/-- The simple-graph neighbor resolver realizes the reference step relation:
forward in modus 0. -/
lemma mem_neighbors_false {G : Graph} {u v : Node} :
    v ∈ G.neighbors false u ↔ G.stepB u v = true := by
  unfold Graph.neighbors Graph.stepB
  cases hd : G.directed <;> simp [mem_nbrs, mem_succ, hd]

/-- The simple-graph neighbor resolver realizes the reference step relation:
backward in modus 1. -/
lemma mem_neighbors_true {G : Graph} {u v : Node} :
    v ∈ G.neighbors true u ↔ G.stepB v u = true := by
  unfold Graph.neighbors Graph.stepB
  cases hd : G.directed <;>
    simp [mem_nbrs, mem_pred, hd, or_comm]

/-- The symmetric step relation that the multigraph engines actually
traverse (incident edges, direction-agnostic). -/
def symB (G : Graph) : Node → Node → Bool := fun u v =>
  decide ((u, v) ∈ G.edges) || decide ((v, u) ∈ G.edges)

lemma mem_incident_symB {G : Graph} {u v : Node} :
    v ∈ G.incident u ↔ symB G u v = true := by
  simp [mem_incident, symB]

lemma symB_comm (G : Graph) (u v : Node) : symB G u v = symB G v u := by
  simp [symB, Bool.or_comm]

lemma stepB_eq_symB {G : Graph} (hd : G.directed = false) :
    G.stepB = symB G := by
  funext u v
  simp [Graph.stepB, symB, hd]

lemma neighbors_nodup (G : Graph) (m : Bool) (u : Node) :
    (G.neighbors m u).Nodup := by
  unfold Graph.neighbors Graph.succ Graph.pred Graph.nbrs
  split
  · split <;> exact List.nodup_dedup _
  · exact List.nodup_dedup _

/-! ## Walks and paths -/

lemma walkN_trans {A : Node → Node → Bool} :
    ∀ {m n : Nat} {u v w : Node},
      WalkN A m u v → WalkN A n v w → WalkN A (m + n) u w := by
  intro m
  induction m with
  | zero =>
    intro n u v w h1 h2
    cases h1
    simpa using h2
  | succ k ih =>
    rintro n u v w ⟨x, hx, hw⟩ h2
    have harith : k + 1 + n = (k + n) + 1 := by omega
    rw [harith]
    exact ⟨x, hx, ih hw h2⟩

lemma walkN_snoc {A : Node → Node → Bool} :
    ∀ {n : Nat} {u v : Node},
      WalkN A (n + 1) u v ↔ ∃ w, WalkN A n u w ∧ A w v = true := by
  intro n
  induction n with
  | zero =>
    intro u v
    constructor
    · rintro ⟨w, hw, rfl⟩
      exact ⟨u, rfl, hw⟩
    · rintro ⟨w, rfl, hw⟩
      exact ⟨v, hw, rfl⟩
  | succ k ih =>
    intro u v
    constructor
    · rintro ⟨w, hw, hrest⟩
      obtain ⟨x, hx1, hx2⟩ := ih.mp hrest
      exact ⟨x, ⟨w, hw, hx1⟩, hx2⟩
    · rintro ⟨w, ⟨x, hx, hxw⟩, hwv⟩
      exact ⟨x, hx, ih.mpr ⟨w, hxw, hwv⟩⟩

lemma walkN_flip {A : Node → Node → Bool} :
    ∀ {n : Nat} {u v : Node}, WalkN (flipB A) n u v ↔ WalkN A n v u := by
  intro n
  induction n with
  | zero => intro u v; exact ⟨fun h => h.symm, fun h => h.symm⟩
  | succ k ih =>
    intro u v
    constructor
    · rintro ⟨w, hw, hrest⟩
      have := ih.mp hrest
      exact walkN_snoc.mpr ⟨w, this, hw⟩
    · intro h
      obtain ⟨w, hw, hstep⟩ := walkN_snoc.mp h
      exact ⟨w, hstep, ih.mpr hw⟩

lemma lastD_cons_of_ne_nil {x : Node} {rest : Path} (h : rest ≠ []) :
    lastD (x :: rest) = lastD rest := by
  cases rest with
  | nil => exact absurd rfl h
  | cons y l => simp [lastD]

/-- A chain path induces a walk from its head to each position. -/
lemma walkN_to_get {A : Node → Node → Bool} :
    ∀ (p : Path), IsChain A p → ∀ i (hi : i < p.length),
      WalkN A i (p.headD 0) (p.get ⟨i, hi⟩) := by
  intro p
  induction p with
  | nil => intro _ i hi; simp at hi
  | cons x rest ih =>
    intro hc i hi
    cases i with
    | zero => rfl
    | succ j =>
      have hj : j < rest.length := by simpa using hi
      have hrest : rest ≠ [] := by
        intro h
        rw [h] at hj
        simp at hj
      have hc' : IsChain A rest := (List.chain'_cons'.mp hc).2
      have hstep : A x (rest.headD 0) = true := by
        refine (List.chain'_cons'.mp hc).1 (rest.headD 0) ?_
        cases rest with
        | nil => exact absurd rfl hrest
        | cons y l => simp
      have := ih hc' j hj
      exact ⟨rest.headD 0, hstep, by simpa using this⟩

/-- A chain path induces a walk from each position to its last element. -/
lemma walkN_from_get {A : Node → Node → Bool} :
    ∀ (p : Path), IsChain A p → ∀ i (hi : i < p.length),
      WalkN A (p.length - 1 - i) (p.get ⟨i, hi⟩) (lastD p) := by
  intro p
  induction p with
  | nil => intro _ i hi; simp at hi
  | cons x rest ih =>
    intro hc i hi
    cases i with
    | zero =>
      cases rest with
      | nil => rfl
      | cons y l =>
        have hc' : IsChain A (y :: l) := (List.chain'_cons.mp hc).2
        have hstep : A x y = true := (List.chain'_cons.mp hc).1
        have := ih hc' 0 (by simp)
        rw [lastD_cons_of_ne_nil (by simp)]
        refine ⟨y, hstep, ?_⟩
        simpa using this
    | succ j =>
      have hj : j < rest.length := by simpa using hi
      have hrest : rest ≠ [] := by
        intro h
        rw [h] at hj
        simp at hj
      have hc' : IsChain A rest := (List.chain'_cons'.mp hc).2
      have := ih hc' j hj
      rw [lastD_cons_of_ne_nil hrest]
      have harith : (x :: rest).length - 1 - (j + 1) = rest.length - 1 - j := by
        simp
        omega
      rw [harith]
      simpa using this

lemma headD_of_head? {p : Path} {x : Node} (h : p.head? = some x) : p.headD 0 = x := by
  simp [List.headD_eq_head?_getD, h]

/-- Paths and walks measure the same thing: a path of `n + 1` nodes is a walk
of `n` edges. -/
lemma isPathTo_iff_walkN {A : Node → Node → Bool} {s t : Node} {n : Nat} :
    (∃ p, IsPathTo A s t p ∧ p.length = n + 1) ↔ WalkN A n s t := by
  constructor
  · rintro ⟨p, ⟨hh, hl, hc⟩, hlen⟩
    have hne : p ≠ [] := by
      intro h
      rw [h] at hlen
      simp at hlen
    have hget := walkN_to_get p hc n (by omega)
    rw [headD_of_head? hh] at hget
    have hlast : lastD p = t := lastD_eq_of_getLast? hl
    have hgl : p.get ⟨n, by omega⟩ = t := by
      rw [← hlast]
      have h2 := List.getLast?_eq_getLast p hne
      have h4 : lastD p = p.getLast hne := lastD_eq_of_getLast? h2
      rw [h4, List.getLast_eq_getElem]
      have h5 : p.length - 1 = n := by omega
      simp [List.get_eq_getElem, h5]
    rwa [hgl] at hget
  · intro hw
    induction n generalizing s with
    | zero =>
      have hw' : s = t := hw
      subst hw'
      exact ⟨[s], ⟨rfl, rfl, List.chain'_singleton s⟩, rfl⟩
    | succ k ih =>
      obtain ⟨w, hstep, hrest⟩ := hw
      obtain ⟨p, ⟨hh, hl, hc⟩, hlen⟩ := ih hrest
      refine ⟨s :: p, ⟨rfl, ?_, ?_⟩, by simp [hlen]⟩
      · have hne : p ≠ [] := by
          intro h
          rw [h] at hlen
          simp at hlen
        cases p with
        | nil => exact absurd rfl hne
        | cons a l => simpa using hl
      · refine List.chain'_cons'.mpr ⟨?_, hc⟩
        intro y hy
        rw [hh] at hy
        cases hy
        exact hstep

lemma reachable_iff_exists_walkN {A : Node → Node → Bool} {s t : Node} :
    Reachable A s t ↔ ∃ n, WalkN A n s t := by
  constructor
  · rintro ⟨p, hp⟩
    have hne : p ≠ [] := by
      intro h
      rw [h] at hp
      exact absurd hp.1 (by simp)
    refine ⟨p.length - 1, isPathTo_iff_walkN.mp ⟨p, hp, ?_⟩⟩
    cases p with
    | nil => exact absurd rfl hne
    | cons a l => simp
  · rintro ⟨n, hw⟩
    obtain ⟨p, hp, _⟩ := isPathTo_iff_walkN.mpr hw
    exact ⟨p, hp⟩

lemma not_nodup_decomp {p : Path} (h : ¬ p.Nodup) :
    ∃ (x : Node) (l₁ l₂ l₃ : Path), p = l₁ ++ x :: l₂ ++ x :: l₃ := by
  induction p with
  | nil => exact absurd List.nodup_nil h
  | cons a rest ih =>
    by_cases ha : a ∈ rest
    · obtain ⟨l₂, l₃, rfl⟩ := List.append_of_mem ha
      exact ⟨a, [], l₂, l₃, rfl⟩
    · have : ¬ rest.Nodup := by
        intro hn
        exact h (List.nodup_cons.mpr ⟨ha, hn⟩)
      obtain ⟨x, l₁, l₂, l₃, rfl⟩ := ih this
      exact ⟨x, a :: l₁, l₂, l₃, rfl⟩

lemma chain_shortcut {A : Node → Node → Bool} {x : Node} {l₁ l₂ l₃ : Path}
    (h : IsChain A (l₁ ++ x :: l₂ ++ x :: l₃)) : IsChain A (l₁ ++ x :: l₃) := by
  unfold IsChain at h ⊢
  have h1 : (l₁ ++ (x :: l₂ ++ x :: l₃)).Chain' (fun u v => A u v = true) := by
    simpa using h
  rw [List.chain'_append] at h1
  obtain ⟨hc1, hc2, hlink⟩ := h1
  have h2 : ((x :: l₂) ++ (x :: l₃)).Chain' (fun u v => A u v = true) := by
    simpa using hc2
  rw [List.chain'_append] at h2
  rw [List.chain'_append]
  refine ⟨hc1, h2.2.1, ?_⟩
  intro y hy z hz
  simp at hz
  subst hz
  exact hlink y hy x (by simp)

lemma isPathTo_shortcut {A : Node → Node → Bool} {s t x : Node} {l₁ l₂ l₃ : Path}
    (h : IsPathTo A s t (l₁ ++ x :: l₂ ++ x :: l₃)) :
    IsPathTo A s t (l₁ ++ x :: l₃) := by
  obtain ⟨hh, hl, hc⟩ := h
  refine ⟨?_, ?_, chain_shortcut hc⟩
  · cases l₁ with
    | nil =>
      simp at hh ⊢
      exact hh
    | cons a l => simpa using hh
  · have e1 : l₁ ++ x :: l₂ ++ x :: l₃ = (l₁ ++ x :: l₂) ++ x :: l₃ := by simp
    rw [e1, List.getLast?_append_cons] at hl
    rwa [List.getLast?_append_cons]

/-- Any path contains a duplicate-free path between the same endpoints, no
longer than it. -/
lemma exists_nodup_path {A : Node → Node → Bool} {s t : Node}
    (p : Path) (hp : IsPathTo A s t p) :
    ∃ q, IsPathTo A s t q ∧ q.Nodup ∧ q.length ≤ p.length := by
  by_cases hd : p.Nodup
  · exact ⟨p, hp, hd, le_refl _⟩
  · obtain ⟨x, l₁, l₂, l₃, hdecomp⟩ := not_nodup_decomp hd
    have hshort : IsPathTo A s t (l₁ ++ x :: l₃) :=
      isPathTo_shortcut (hdecomp ▸ hp)
    obtain ⟨q, hq, hqd, hql⟩ := exists_nodup_path (l₁ ++ x :: l₃) hshort
    refine ⟨q, hq, hqd, ?_⟩
    rw [hdecomp]
    simp at hql ⊢
    omega
termination_by p.length
decreasing_by
  rw [hdecomp]
  simp
  omega

/-- Every node of a chain is its head or the target of a step. -/
lemma chain_mem_support {A : Node → Node → Bool} :
    ∀ (p : Path), IsChain A p → ∀ x ∈ p,
      p.head? = some x ∨ ∃ u, A u x = true := by
  intro p
  induction p with
  | nil => intro _ x hx; simp at hx
  | cons a rest ih =>
    intro hc x hx
    rcases List.mem_cons.mp hx with rfl | hx'
    · exact Or.inl rfl
    · cases rest with
      | nil => simp at hx'
      | cons y rest' =>
        have hc' : IsChain A (y :: rest') := (List.chain'_cons.mp hc).2
        rcases ih hc' x hx' with hy | hex
        · have : y = x := by injection hy
          subst this
          exact Or.inr ⟨a, (List.chain'_cons.mp hc).1⟩
        · exact Or.inr hex

lemma nodup_subset_length {l u : List Node} (hn : l.Nodup)
    (hsub : ∀ x ∈ l, x ∈ u) : l.length ≤ u.length := by
  have h1 : l.toFinset.card = l.length := List.toFinset_card_of_nodup hn
  have h2 : l.toFinset ⊆ u.toFinset := by
    intro x hx
    rw [List.mem_toFinset] at hx ⊢
    exact hsub x hx
  have h3 : u.toFinset.card ≤ u.length := u.toFinset_card_le
  have := Finset.card_le_card h2
  omega

lemma exists_minWalk {A : Node → Node → Bool} {s t : Node}
    (h : ∃ n, WalkN A n s t) :
    ∃ d, WalkN A d s t ∧ ∀ m, WalkN A m s t → d ≤ m := by
  classical
  exact ⟨Nat.find h, Nat.find_spec h, fun m hm => Nat.find_min' h hm⟩

/-! ## Membership characterizations of the engine building blocks -/

lemma mem_extendAll {nbr : Bool → Node → List Node} {m : Bool}
    {l : List Path} {p' : Path} :
    p' ∈ extendAll nbr m l ↔
      ∃ p ∈ l, ∃ v ∈ nbr m (lastD p), v ∉ p ∧ p' = p ++ [v] := by
  unfold extendAll
  rw [List.mem_flatMap]
  constructor
  · rintro ⟨p, hp, hmem⟩
    rw [List.mem_filterMap] at hmem
    obtain ⟨v, hv, hcond⟩ := hmem
    by_cases hvp : v ∈ p
    · simp [hvp] at hcond
    · simp only [hvp, if_false, Option.some.injEq] at hcond
      exact ⟨p, hp, v, hv, hvp, hcond.symm⟩
  · rintro ⟨p, hp, v, hv, hvp, rfl⟩
    exact ⟨p, hp, List.mem_filterMap.mpr ⟨v, hv, by simp [hvp]⟩⟩

lemma mem_ssYields {nbr : Bool → Node → List Node} {m : Bool}
    {gate : Node → Bool} {ts tt : List Path} {q : Path} :
    q ∈ ssYields nbr m gate ts tt ↔
      ∃ ps ∈ ts, ∃ v ∈ nbr m (lastD ps), v ∉ ps ∧ gate v = true ∧
        ∃ pt ∈ tt, lastD pt = v ∧ (∀ x ∈ pt, x ∉ ps) ∧ q = stitch m ps pt := by
  unfold ssYields
  rw [List.mem_flatMap]
  constructor
  · rintro ⟨ps, hps, hmem⟩
    rw [List.mem_flatMap] at hmem
    obtain ⟨v, hv, hq⟩ := hmem
    by_cases hvp : v ∈ ps
    · simp [hvp] at hq
    · simp only [hvp, if_false] at hq
      by_cases hg : gate v = true
      · simp only [hg, if_true] at hq
        rw [List.mem_map] at hq
        obtain ⟨pt, hpt, rfl⟩ := hq
        rw [List.mem_filter] at hpt
        obtain ⟨hpt, hcond⟩ := hpt
        rw [Bool.and_eq_true] at hcond
        refine ⟨ps, hps, v, hv, hvp, hg, pt, hpt, ?_, ?_, rfl⟩
        · exact beq_iff_eq.mp hcond.1
        · intro x hx
          have := List.all_eq_true.mp hcond.2 x hx
          exact of_decide_eq_true this
      · rw [Bool.not_eq_true] at hg
        simp [hg, hvp] at hq
  · rintro ⟨ps, hps, v, hv, hvp, hg, pt, hpt, hlast, hdisj, rfl⟩
    refine ⟨ps, hps, ?_⟩
    rw [List.mem_flatMap]
    refine ⟨v, hv, ?_⟩
    simp only [hvp, if_false, hg, if_true]
    rw [List.mem_map]
    refine ⟨pt, ?_, rfl⟩
    rw [List.mem_filter]
    refine ⟨hpt, ?_⟩
    rw [Bool.and_eq_true]
    exact ⟨beq_iff_eq.mpr hlast, List.all_eq_true.mpr
      fun x hx => decide_eq_true (hdisj x hx)⟩

lemma lookupB_some {t : Buckets} {k : Node} {pts : List Path}
    (h : lookupB t k = some pts) : (k, pts) ∈ t := by
  unfold lookupB at h
  cases hf : t.find? (fun e => e.1 == k) with
  | none => rw [hf] at h; simp at h
  | some e =>
    rw [hf] at h
    simp at h
    have hmem := List.mem_of_find?_eq_some hf
    have hkey := List.find?_some hf
    have : e.1 = k := by simpa using hkey
    have : e = (k, pts) := by
      cases e
      simp_all
    rwa [this] at hmem

lemma lookupB_none {t : Buckets} {k : Node}
    (h : lookupB t k = none) : ∀ e ∈ t, e.1 ≠ k := by
  unfold lookupB at h
  cases hf : t.find? (fun e => e.1 == k) with
  | none =>
    intro e he hek
    have := List.find?_eq_none.mp hf e he
    simp [hek] at this
  | some e => rw [hf] at h; simp at h

lemma mem_spEntries {nbr : Bool → Node → List Node} {m : Bool} {ts : Buckets}
    {v : Node} {q : Path} :
    (v, q) ∈ spEntries nbr m ts ↔
      ∃ e ∈ ts, ∃ p ∈ e.2, v ∈ nbr m e.1 ∧ v ∉ p ∧ q = p ++ [v] := by
  unfold spEntries
  rw [List.mem_flatMap]
  constructor
  · rintro ⟨e, he, hmem⟩
    rw [List.mem_flatMap] at hmem
    obtain ⟨w, hw, hq⟩ := hmem
    rw [List.mem_filterMap] at hq
    obtain ⟨p, hp, hcond⟩ := hq
    by_cases hvp : w ∈ p
    · simp [hvp] at hcond
    · simp only [hvp, if_false, Option.some.injEq, Prod.mk.injEq] at hcond
      obtain ⟨rfl, rfl⟩ := hcond
      exact ⟨e, he, p, hp, hw, hvp, rfl⟩
  · rintro ⟨e, he, p, hp, hv, hvp, rfl⟩
    refine ⟨e, he, ?_⟩
    rw [List.mem_flatMap]
    exact ⟨v, hv, List.mem_filterMap.mpr ⟨p, hp, by simp [hvp]⟩⟩

lemma mem_spYields {nbr : Bool → Node → List Node} {m : Bool}
    {ts tt : Buckets} {q : Path} :
    q ∈ spYields nbr m ts tt ↔
      ∃ e ∈ ts, ∃ v ∈ nbr m e.1, ∃ p ∈ e.2, v ∉ p ∧
        ∃ pts, lookupB tt v = some pts ∧
          ∃ pt ∈ pts, (∀ x ∈ pt, x ∉ p) ∧ q = stitch m p pt := by
  unfold spYields
  rw [List.mem_flatMap]
  constructor
  · rintro ⟨e, he, hmem⟩
    rw [List.mem_flatMap] at hmem
    obtain ⟨v, hv, hq⟩ := hmem
    rw [List.mem_flatMap] at hq
    obtain ⟨p, hp, hq⟩ := hq
    by_cases hvp : v ∈ p
    · simp [hvp] at hq
    · simp only [hvp, if_false] at hq
      cases hl : lookupB tt v with
      | none => rw [hl] at hq; simp at hq
      | some pts =>
        rw [hl] at hq
        simp only at hq
        rw [List.mem_map] at hq
        obtain ⟨pt, hpt, rfl⟩ := hq
        rw [List.mem_filter] at hpt
        refine ⟨e, he, v, hv, p, hp, hvp, pts, hl, pt, hpt.1, ?_, rfl⟩
        intro x hx
        exact of_decide_eq_true (List.all_eq_true.mp hpt.2 x hx)
  · rintro ⟨e, he, v, hv, p, hp, hvp, pts, hl, pt, hpt, hdisj, rfl⟩
    refine ⟨e, he, ?_⟩
    rw [List.mem_flatMap]
    refine ⟨v, hv, ?_⟩
    rw [List.mem_flatMap]
    refine ⟨p, hp, ?_⟩
    simp only [hvp, if_false, hl]
    rw [List.mem_map]
    refine ⟨pt, ?_, rfl⟩
    rw [List.mem_filter]
    exact ⟨hpt, List.all_eq_true.mpr fun x hx => decide_eq_true (hdisj x hx)⟩

lemma bucketAdd_paths :
    ∀ {t : Buckets} {k : Node} {p q : Path} {e' : Node × List Path},
      e' ∈ bucketAdd t k p → q ∈ e'.2 → (∃ e ∈ t, q ∈ e.2) ∨ q = p := by
  intro t
  induction t with
  | nil =>
    intro k p q e' he' hq
    simp [bucketAdd] at he'
    subst he'
    simp at hq
    exact Or.inr hq
  | cons hd rest ih =>
    intro k p q e' he' hq
    obtain ⟨k', ps⟩ := hd
    unfold bucketAdd at he'
    by_cases hk : (k' == k) = true
    · simp only [hk, if_true] at he'
      rcases List.mem_cons.mp he' with rfl | hmem
      · by_cases hps : p ∈ ps
        · simp only [hps, if_true] at hq
          exact Or.inl ⟨(k', ps), List.mem_cons_self _ _, hq⟩
        · simp only [hps, if_false] at hq
          rcases List.mem_append.mp hq with h | h
          · exact Or.inl ⟨(k', ps), List.mem_cons_self _ _, h⟩
          · simp at h
            exact Or.inr h
      · exact Or.inl ⟨e', List.mem_cons_of_mem _ hmem, hq⟩
    · simp only [hk, if_false] at he'
      rcases List.mem_cons.mp he' with rfl | hmem
      · exact Or.inl ⟨(k', ps), List.mem_cons_self _ _, hq⟩
      · rcases ih hmem hq with ⟨e, he, hqe⟩ | h
        · exact Or.inl ⟨e, List.mem_cons_of_mem _ he, hqe⟩
        · exact Or.inr h

lemma foldl_bucketAdd_paths {es : List (Node × Path)} {t : Buckets}
    {q : Path} {e' : Node × List Path}
    (he' : e' ∈ es.foldl (fun t e => bucketAdd t e.1 e.2) t) (hq : q ∈ e'.2) :
    (∃ e ∈ t, q ∈ e.2) ∨ (∃ k, (k, q) ∈ es) := by
  induction es generalizing t with
  | nil => exact Or.inl ⟨e', he', hq⟩
  | cons hd rest ih =>
    simp only [List.foldl_cons] at he'
    rcases ih he' with h | ⟨k, hk⟩
    · obtain ⟨e, he, hqe⟩ := h
      rcases bucketAdd_paths he hqe with h' | rfl
      · exact Or.inl h'
      · exact Or.inr ⟨hd.1, by simp⟩
    · exact Or.inr ⟨k, List.mem_cons_of_mem _ hk⟩

/-! ## Claim C7: eager NodeNotFound validation -/

/-- Claim C7: each of the three public operations fails with `NodeNotFound`
exactly when the source or the target is absent from the graph, for every
graph (any size, directedness or multigraph kind); the validation is the
first thing the operation does, before any engine state is built, so no
element of the lazy result is ever produced first (in the model: the error
is a function of the membership tests alone). -/
theorem nodeNotFound_eager :
    ∀ (G : Graph) (s t : Node) (c : Option Int),
      (bidirectional_has_path G s t = .error .nodeNotFound ↔
        (s ∉ G.nodes ∨ t ∉ G.nodes)) ∧
      (bidirectional_all_shortest_paths G s t = .error .nodeNotFound ↔
        (s ∉ G.nodes ∨ t ∉ G.nodes)) ∧
      (bidirectional_all_simple_paths G s t c = .error .nodeNotFound ↔
        (s ∉ G.nodes ∨ t ∉ G.nodes)) := by
  intro G s t c
  refine ⟨?_, ?_, ?_⟩ <;>
    by_cases hs : s ∈ G.nodes <;> by_cases ht : t ∈ G.nodes <;>
      simp [bidirectional_has_path, bidirectional_all_shortest_paths,
            bidirectional_all_simple_paths, hs, ht]

/-! ## Claim C10: source equal to target -/

/-- All paths of a shortest-path frontier contain a given node. -/
def TreeContain (x : Node) (l : List Path) : Prop := ∀ p ∈ l, x ∈ p

/-- All paths of a simple-paths frontier dict contain a given node. -/
def BContain (x : Node) (tb : Buckets) : Prop := ∀ e ∈ tb, ∀ p ∈ e.2, x ∈ p

lemma ssYields_eq_nil_of_contain {nbr : Bool → Node → List Node} {m : Bool}
    {gate : Node → Bool} {ts tt : List Path} (x : Node)
    (hS : TreeContain x ts) (hT : TreeContain x tt) :
    ssYields nbr m gate ts tt = [] := by
  rw [List.eq_nil_iff_forall_not_mem]
  intro q hq
  rw [mem_ssYields] at hq
  obtain ⟨ps, hps, v, _, _, _, pt, hpt, _, hdisj, rfl⟩ := hq
  exact hdisj x (hT pt hpt) (hS ps hps)

lemma extendAll_contain {nbr : Bool → Node → List Node} {m : Bool}
    {l : List Path} {x : Node} (h : TreeContain x l) :
    TreeContain x (extendAll nbr m l) := by
  intro p hp
  rw [mem_extendAll] at hp
  obtain ⟨q, hq, v, _, _, rfl⟩ := hp
  exact List.mem_append_left _ (h q hq)

/-- Closed form of a shortest-path round expanding the target side. -/
lemma ssRound_eq_pos {nbr : Bool → Node → List Node} {st : SSState}
    (hc : st.t1.length < st.t0.length) :
    ssRound nbr st =
      ⟨st.t0, (extendAll nbr true st.t1).dedup, st.n0,
        unionS st.n1 ((extendAll nbr true st.t1).map lastD),
        st.found ||
          !(ssYields nbr true (fun v => decide (v ∈ st.n0)) st.t1 st.t0).isEmpty,
        st.acc ++ ssYields nbr true (fun v => decide (v ∈ st.n0)) st.t1 st.t0⟩ := by
  unfold ssRound
  simp [hc]

/-- Closed form of a shortest-path round expanding the source side. -/
lemma ssRound_eq_neg {nbr : Bool → Node → List Node} {st : SSState}
    (hc : ¬ st.t1.length < st.t0.length) :
    ssRound nbr st =
      ⟨(extendAll nbr false st.t0).dedup, st.t1,
        unionS st.n0 ((extendAll nbr false st.t0).map lastD), st.n1,
        st.found ||
          !(ssYields nbr false (fun v => decide (v ∈ st.n1)) st.t0 st.t1).isEmpty,
        st.acc ++ ssYields nbr false (fun v => decide (v ∈ st.n1)) st.t0 st.t1⟩ := by
  unfold ssRound
  simp [hc]

/-- Closed form of a multigraph shortest-path round, target side. -/
lemma smRound_eq_pos {nbr : Bool → Node → List Node} {st : SMState}
    (hc : st.t1.length < st.t0.length) :
    smRound nbr st =
      ⟨st.t0, extendAll nbr true st.t1,
        st.found || !(ssYields nbr true (fun _ => true) st.t1 st.t0).isEmpty,
        st.acc ++ ssYields nbr true (fun _ => true) st.t1 st.t0⟩ := by
  unfold smRound
  simp [hc]

/-- Closed form of a multigraph shortest-path round, source side. -/
lemma smRound_eq_neg {nbr : Bool → Node → List Node} {st : SMState}
    (hc : ¬ st.t1.length < st.t0.length) :
    smRound nbr st =
      ⟨extendAll nbr false st.t0, st.t1,
        st.found || !(ssYields nbr false (fun _ => true) st.t0 st.t1).isEmpty,
        st.acc ++ ssYields nbr false (fun _ => true) st.t0 st.t1⟩ := by
  unfold smRound
  simp [hc]

/-- Closed form of a simple-paths round, target side. -/
lemma spRound_eq_pos {nbr : Bool → Node → List Node} {st : SPState}
    (hc : st.t1.length < st.t0.length) :
    spRound nbr st =
      ⟨st.t0, spTemp nbr true st.t1, st.acc ++ spYields nbr true st.t1 st.t0⟩ := by
  unfold spRound
  simp [hc]

/-- Closed form of a simple-paths round, source side. -/
lemma spRound_eq_neg {nbr : Bool → Node → List Node} {st : SPState}
    (hc : ¬ st.t1.length < st.t0.length) :
    spRound nbr st =
      ⟨spTemp nbr false st.t0, st.t1, st.acc ++ spYields nbr false st.t0 st.t1⟩ := by
  unfold spRound
  simp [hc]

lemma ssRound_contain {nbr : Bool → Node → List Node} {st : SSState} {x : Node}
    (h0 : TreeContain x st.t0) (h1 : TreeContain x st.t1)
    (hf : st.found = false) :
    TreeContain x (ssRound nbr st).t0 ∧ TreeContain x (ssRound nbr st).t1 ∧
      (ssRound nbr st).found = false ∧ (ssRound nbr st).acc = st.acc := by
  by_cases hc : st.t1.length < st.t0.length
  · rw [ssRound_eq_pos hc]
    have hys : ssYields nbr true (fun v => decide (v ∈ st.n0)) st.t1 st.t0 = [] :=
      ssYields_eq_nil_of_contain x h1 h0
    refine ⟨h0, ?_, ?_, ?_⟩
    · intro p hp
      rw [List.mem_dedup] at hp
      exact extendAll_contain h1 p hp
    · simp [hys, hf]
    · simp [hys]
  · rw [ssRound_eq_neg hc]
    have hys : ssYields nbr false (fun v => decide (v ∈ st.n1)) st.t0 st.t1 = [] :=
      ssYields_eq_nil_of_contain x h0 h1
    refine ⟨?_, h1, ?_, ?_⟩
    · intro p hp
      rw [List.mem_dedup] at hp
      exact extendAll_contain h0 p hp
    · simp [hys, hf]
    · simp [hys]

lemma ssLoop_contain {nbr : Bool → Node → List Node} {x : Node} :
    ∀ (fuel : Nat) (st : SSState),
      TreeContain x st.t0 → TreeContain x st.t1 →
      st.found = false → st.acc = [] →
      (ssLoop nbr fuel st).found = false ∧ (ssLoop nbr fuel st).acc = [] := by
  intro fuel
  induction fuel with
  | zero => intro st _ _ hf ha; exact ⟨hf, ha⟩
  | succ k ih =>
    intro st h0 h1 hf ha
    unfold ssLoop
    split
    · exact ⟨hf, ha⟩
    · obtain ⟨h0', h1', hf', ha'⟩ := ssRound_contain h0 h1 hf
      exact ih _ h0' h1' hf' (ha'.trans ha)

lemma smRound_contain {nbr : Bool → Node → List Node} {st : SMState} {x : Node}
    (h0 : TreeContain x st.t0) (h1 : TreeContain x st.t1)
    (hf : st.found = false) :
    TreeContain x (smRound nbr st).t0 ∧ TreeContain x (smRound nbr st).t1 ∧
      (smRound nbr st).found = false ∧ (smRound nbr st).acc = st.acc := by
  by_cases hc : st.t1.length < st.t0.length
  · rw [smRound_eq_pos hc]
    have hys : ssYields nbr true (fun _ => true) st.t1 st.t0 = [] :=
      ssYields_eq_nil_of_contain x h1 h0
    exact ⟨h0, extendAll_contain h1, by simp [hys, hf], by simp [hys]⟩
  · rw [smRound_eq_neg hc]
    have hys : ssYields nbr false (fun _ => true) st.t0 st.t1 = [] :=
      ssYields_eq_nil_of_contain x h0 h1
    exact ⟨extendAll_contain h0, h1, by simp [hys, hf], by simp [hys]⟩

lemma smLoop_contain {nbr : Bool → Node → List Node} {x : Node} :
    ∀ (fuel : Nat) (st : SMState),
      TreeContain x st.t0 → TreeContain x st.t1 →
      st.found = false → st.acc = [] →
      (smLoop nbr fuel st).found = false ∧ (smLoop nbr fuel st).acc = [] := by
  intro fuel
  induction fuel with
  | zero => intro st _ _ hf ha; exact ⟨hf, ha⟩
  | succ k ih =>
    intro st h0 h1 hf ha
    unfold smLoop
    split
    · exact ⟨hf, ha⟩
    · obtain ⟨h0', h1', hf', ha'⟩ := smRound_contain h0 h1 hf
      exact ih _ h0' h1' hf' (ha'.trans ha)

lemma spEntries_contain {nbr : Bool → Node → List Node} {m : Bool}
    {ts : Buckets} {x : Node} (h : BContain x ts) :
    ∀ v q, (v, q) ∈ spEntries nbr m ts → x ∈ q := by
  intro v q hq
  rw [mem_spEntries] at hq
  obtain ⟨e, he, p, hp, _, _, rfl⟩ := hq
  exact List.mem_append_left _ (h e he p hp)

lemma spTemp_contain {nbr : Bool → Node → List Node} {m : Bool}
    {ts : Buckets} {x : Node} (h : BContain x ts) :
    BContain x (spTemp nbr m ts) := by
  intro e he p hp
  rcases foldl_bucketAdd_paths he hp with ⟨e0, he0, _⟩ | ⟨k, hk⟩
  · simp at he0
  · exact spEntries_contain h k p hk

lemma spYields_eq_nil_of_contain {nbr : Bool → Node → List Node} {m : Bool}
    {ts tt : Buckets} (x : Node) (hS : BContain x ts) (hT : BContain x tt) :
    spYields nbr m ts tt = [] := by
  rw [List.eq_nil_iff_forall_not_mem]
  intro q hq
  rw [mem_spYields] at hq
  obtain ⟨e, he, v, _, p, hp, _, pts, hl, pt, hpt, hdisj, rfl⟩ := hq
  have hbt := lookupB_some hl
  exact hdisj x (hT _ hbt pt hpt) (hS e he p hp)

lemma spRound_contain {nbr : Bool → Node → List Node} {st : SPState} {x : Node}
    (h0 : BContain x st.t0) (h1 : BContain x st.t1) :
    BContain x (spRound nbr st).t0 ∧ BContain x (spRound nbr st).t1 ∧
      (spRound nbr st).acc = st.acc := by
  by_cases hc : st.t1.length < st.t0.length
  · rw [spRound_eq_pos hc]
    exact ⟨h0, spTemp_contain h1, by simp [spYields_eq_nil_of_contain x h1 h0]⟩
  · rw [spRound_eq_neg hc]
    exact ⟨spTemp_contain h0, h1, by simp [spYields_eq_nil_of_contain x h0 h1]⟩

lemma spLoop_contain {nbr : Bool → Node → List Node} {x : Node} :
    ∀ (c : Nat) (st : SPState),
      BContain x st.t0 → BContain x st.t1 → st.acc = [] →
      (spLoop nbr c st).acc = [] := by
  intro c
  induction c with
  | zero => intro st _ _ ha; exact ha
  | succ k ih =>
    intro st h0 h1 ha
    unfold spLoop
    obtain ⟨h0', h1', ha'⟩ := @spRound_contain nbr st x h0 h1
    exact ih _ h0' h1' (ha'.trans ha)

/-- Claim C10: with source equal to target, neither engine ever produces the
trivial zero-length path `[s]` (or anything else): every candidate meeting is
rejected because both partial paths contain the shared anchor `s`, so both
simple-paths engines yield an empty sequence at every cutoff, both
shortest-path engines finish with `found` unset — making the generator raise
`NetworkXNoPath` — and the public operations observe exactly that. -/
theorem source_eq_target_yields_nothing :
    ∀ (G : Graph) (s : Node) (c : Int) (co : Option Int),
      _bidirectional_all_simple_paths G s s c = [] ∧
      _bidirectional_all_simple_paths_multi G s s c = [] ∧
      _bidirectional_all_shortest_paths G s s = ([], false) ∧
      _bidirectional_all_shortest_paths_multi G s s = ([], false) ∧
      (s ∈ G.nodes →
        bidirectional_all_simple_paths G s s co = .ok [] ∧
        bidirectional_all_shortest_paths G s s = .ok ([], some .noPath)) := by
  intro G s c co
  have hsp : ∀ (nbr : Bool → Node → List Node) (n : Nat),
      (spLoop nbr n (spInit s s)).acc = [] := by
    intro nbr n
    refine spLoop_contain (x := s) n _ ?_ ?_ rfl
    · intro e he p hp
      simp [spInit] at he
      subst he
      simp at hp
      simp [hp]
    · intro e he p hp
      simp [spInit] at he
      subst he
      simp at hp
      simp [hp]
  have hss : _bidirectional_all_shortest_paths G s s = ([], false) := by
    unfold _bidirectional_all_shortest_paths
    have := @ssLoop_contain G.neighbors s (fuelN G s s)
      (ssInit s s) (by intro p hp; simp [ssInit] at hp; simp [hp])
      (by intro p hp; simp [ssInit] at hp; simp [hp]) rfl rfl
    simp only
    rw [Prod.mk.injEq]
    exact ⟨this.2, this.1⟩
  have hsm : _bidirectional_all_shortest_paths_multi G s s = ([], false) := by
    unfold _bidirectional_all_shortest_paths_multi
    have := @smLoop_contain (fun _ v => G.incident v) s
      (fuelN G s s) ⟨[[s]], [[s]], false, []⟩
      (by intro p hp; simp at hp; simp [hp])
      (by intro p hp; simp at hp; simp [hp]) rfl rfl
    simp only
    rw [Prod.mk.injEq]
    exact ⟨this.2, this.1⟩
  have hsp1 : _bidirectional_all_simple_paths G s s c = [] := by
    unfold _bidirectional_all_simple_paths
    split
    · rfl
    · exact hsp _ _
  have hsp2 : _bidirectional_all_simple_paths_multi G s s c = [] := by
    unfold _bidirectional_all_simple_paths_multi
    split
    · rfl
    · exact hsp _ _
  refine ⟨hsp1, hsp2, hss, hsm, ?_⟩
  intro hs
  constructor
  · unfold bidirectional_all_simple_paths
    simp only [hs, not_true_eq_false, if_false]
    have h1 : _bidirectional_all_simple_paths G s s (co.getD ((G.nodes.length : Int) - 1)) = [] := by
      unfold _bidirectional_all_simple_paths
      split
      · rfl
      · exact hsp _ _
    have h2 : _bidirectional_all_simple_paths_multi G s s (co.getD ((G.nodes.length : Int) - 1)) = [] := by
      unfold _bidirectional_all_simple_paths_multi
      split
      · rfl
      · exact hsp _ _
    split <;> simp [h1, h2]
  · unfold bidirectional_all_shortest_paths
    simp only [hs, not_true_eq_false, if_false]
    split <;> simp [hss, hsm]

/-- Witness for the source-equals-target theorem on a concrete two-node
graph, discharging the node-membership hypothesis there. -/
theorem source_eq_target_yields_nothing_witness :
    bidirectional_all_simple_paths ⟨[0, 1], [(0, 1)], false, false⟩ 0 0 none
        = .ok [] ∧
    bidirectional_all_shortest_paths ⟨[0, 1], [(0, 1)], false, false⟩ 0 0
        = .ok ([], some .noPath) := by
  have h := source_eq_target_yields_nothing ⟨[0, 1], [(0, 1)], false, false⟩ 0 1 none
  exact h.2.2.2.2 (by decide)

/-! ## Claim C8: seen sets and re-expansion -/

lemma mem_hpCands {nbr : Bool → Node → List Node} {m : Bool}
    {ls ns : List Node} {v : Node} :
    v ∈ hpCands nbr m ls ns ↔ ∃ u ∈ ls, v ∈ nbr m u ∧ v ∉ ns := by
  unfold hpCands
  rw [List.mem_flatMap]
  constructor
  · rintro ⟨u, hu, hv⟩
    rw [List.mem_filter] at hv
    exact ⟨u, hu, hv.1, of_decide_eq_true hv.2⟩
  · rintro ⟨u, hu, hv, hns⟩
    exact ⟨u, hu, List.mem_filter.mpr ⟨hv, decide_eq_true hns⟩⟩

/-- Closed form of a reachability round expanding the target side. -/
lemma hpRound_eq_pos {nbr : Bool → Node → List Node} {st : HPState}
    (hc : st.l1.length < st.l0.length) :
    hpRound nbr st =
      (if (hpCands nbr true st.l1 st.n1).any (fun v => decide (v ∈ st.l0))
       then none
       else some ⟨st.l0, (hpCands nbr true st.l1 st.n1).dedup, st.n0,
         st.n1 ++ (hpCands nbr true st.l1 st.n1).dedup⟩) := by
  unfold hpRound
  simp [hc]

/-- Closed form of a reachability round expanding the source side. -/
lemma hpRound_eq_neg {nbr : Bool → Node → List Node} {st : HPState}
    (hc : ¬ st.l1.length < st.l0.length) :
    hpRound nbr st =
      (if (hpCands nbr false st.l0 st.n0).any (fun v => decide (v ∈ st.l1))
       then none
       else some ⟨(hpCands nbr false st.l0 st.n0).dedup, st.l1,
         st.n0 ++ (hpCands nbr false st.l0 st.n0).dedup, st.n1⟩) := by
  unfold hpRound
  simp [hc]

/-- One reachability round: the expanded side admits only unseen nodes, the
seen sets grow, and frontiers stay inside the seen sets. -/
lemma hpRound_step {nbr : Bool → Node → List Node} {st st' : HPState}
    (h : hpRound nbr st = some st')
    (hl0 : ∀ v ∈ st.l0, v ∈ st.n0) (hl1 : ∀ v ∈ st.l1, v ∈ st.n1) :
    ((∀ v ∈ st'.l0, v ∈ st'.n0) ∧ (∀ v ∈ st'.l1, v ∈ st'.n1)) ∧
    ((∀ v ∈ st.n0, v ∈ st'.n0) ∧ (∀ v ∈ st.n1, v ∈ st'.n1)) ∧
    ((st'.l0 ≠ st.l0 → ∀ v ∈ st'.l0, v ∉ st.n0) ∧
     (st'.l1 ≠ st.l1 → ∀ v ∈ st'.l1, v ∉ st.n1)) := by
  by_cases hc : st.l1.length < st.l0.length
  · rw [hpRound_eq_pos hc] at h
    by_cases hany : (hpCands nbr true st.l1 st.n1).any (fun v => decide (v ∈ st.l0)) = true
    · rw [if_pos hany] at h
      simp at h
    · rw [if_neg hany] at h
      injection h with h
      subst h
      refine ⟨⟨hl0, ?_⟩, ⟨fun v hv => hv, fun v hv => List.mem_append_left _ hv⟩,
        ⟨fun hne => absurd rfl hne, fun _ => ?_⟩⟩
      · intro v hv
        exact List.mem_append_right _ hv
      · intro v hv
        rw [List.mem_dedup, mem_hpCands] at hv
        obtain ⟨u, _, _, hns⟩ := hv
        exact hns
  · rw [hpRound_eq_neg hc] at h
    by_cases hany : (hpCands nbr false st.l0 st.n0).any (fun v => decide (v ∈ st.l1)) = true
    · rw [if_pos hany] at h
      simp at h
    · rw [if_neg hany] at h
      injection h with h
      subst h
      refine ⟨⟨?_, hl1⟩, ⟨fun v hv => List.mem_append_left _ hv, fun v hv => hv⟩,
        ⟨fun _ => ?_, fun hne => absurd rfl hne⟩⟩
      · intro v hv
        exact List.mem_append_right _ hv
      · intro v hv
        rw [List.mem_dedup, mem_hpCands] at hv
        obtain ⟨u, _, _, hns⟩ := hv
        exact hns

lemma hpIter_leaves_seen {nbr : Bool → Node → List Node} {s t : Node} :
    ∀ (k : Nat) (st : HPState), hpIter nbr (hpInit s t) k = some st →
      (∀ v ∈ st.l0, v ∈ st.n0) ∧ (∀ v ∈ st.l1, v ∈ st.n1) := by
  intro k
  induction k with
  | zero =>
    intro st h
    injection h with h
    subst h
    exact ⟨fun v hv => hv, fun v hv => hv⟩
  | succ j ih =>
    intro st h
    unfold hpIter at h
    cases hj : hpIter nbr (hpInit s t) j with
    | none => rw [hj] at h; simp at h
    | some stj =>
      rw [hj] at h
      simp only at h
      by_cases hstop : stj.l0.isEmpty || stj.l1.isEmpty
      · rw [if_pos hstop] at h
        simp at h
      · rw [if_neg hstop] at h
        obtain ⟨h0, h1⟩ := ih stj hj
        exact (hpRound_step h h0 h1).1

lemma hpIter_seen_mono {nbr : Bool → Node → List Node} {s t : Node} :
    ∀ (k1 k2 : Nat) (st1 st2 : HPState), k1 ≤ k2 →
      hpIter nbr (hpInit s t) k1 = some st1 →
      hpIter nbr (hpInit s t) k2 = some st2 →
      (∀ v ∈ st1.n0, v ∈ st2.n0) ∧ (∀ v ∈ st1.n1, v ∈ st2.n1) := by
  intro k1 k2
  induction k2 with
  | zero =>
    intro st1 st2 hle h1 h2
    have : k1 = 0 := Nat.le_zero.mp hle
    subst this
    rw [h1] at h2
    injection h2 with h2
    subst h2
    exact ⟨fun v hv => hv, fun v hv => hv⟩
  | succ j ih =>
    intro st1 st2 hle h1 h2
    rcases Nat.lt_or_ge k1 (j + 1) with hlt | hge
    · have hle' : k1 ≤ j := Nat.lt_succ_iff.mp hlt
      unfold hpIter at h2
      cases hj : hpIter nbr (hpInit s t) j with
      | none => rw [hj] at h2; simp at h2
      | some stj =>
        rw [hj] at h2
        simp only at h2
        by_cases hstop : stj.l0.isEmpty || stj.l1.isEmpty
        · rw [if_pos hstop] at h2
          simp at h2
        · rw [if_neg hstop] at h2
          obtain ⟨hm0, hm1⟩ := ih st1 stj hle' h1 hj
          obtain ⟨hl0, hl1⟩ := hpIter_leaves_seen j stj hj
          obtain ⟨_, ⟨hn0, hn1⟩, _⟩ := hpRound_step h2 hl0 hl1
          exact ⟨fun v hv => hn0 v (hm0 v hv), fun v hv => hn1 v (hm1 v hv)⟩
    · have : k1 = j + 1 := Nat.le_antisymm hle hge
      subst this
      rw [h1] at h2
      injection h2 with h2
      subst h2
      exact ⟨fun v hv => hv, fun v hv => hv⟩

/-- Claim C8 (amended): in the reachability engine each side's frontier is
always inside that side's seen set, seen sets only grow across rounds, and a
round that replaces a side's frontier admits only nodes not previously seen
on that side — so a node seen on a side is never admitted to that side's
frontier again.  In the all-shortest-paths engine the seen sets accumulate
the endpoint of every admitted partial path and grow monotonically, but they
do not prevent re-expansion (see the counterexample). -/
theorem seen_set_discipline :
    ∀ (nbr : Bool → Node → List Node) (s t : Node),
      (∀ (k : Nat) (st : HPState), hpIter nbr (hpInit s t) k = some st →
        (∀ v ∈ st.l0, v ∈ st.n0) ∧ (∀ v ∈ st.l1, v ∈ st.n1)) ∧
      (∀ (k1 k2 : Nat) (st1 st2 : HPState), k1 ≤ k2 →
        hpIter nbr (hpInit s t) k1 = some st1 →
        hpIter nbr (hpInit s t) k2 = some st2 →
        (∀ v ∈ st1.n0, v ∈ st2.n0) ∧ (∀ v ∈ st1.n1, v ∈ st2.n1)) ∧
      (∀ (k : Nat) (st st' : HPState), hpIter nbr (hpInit s t) k = some st →
        hpIter nbr (hpInit s t) (k + 1) = some st' →
        (st'.l0 ≠ st.l0 → ∀ v ∈ st'.l0, v ∉ st.n0) ∧
        (st'.l1 ≠ st.l1 → ∀ v ∈ st'.l1, v ∉ st.n1)) ∧
      (∀ (st : SSState),
        (∀ v ∈ st.n0, v ∈ (ssRound nbr st).n0) ∧
        (∀ v ∈ st.n1, v ∈ (ssRound nbr st).n1) ∧
        ((∀ p ∈ st.t0, lastD p ∈ st.n0) → (∀ p ∈ st.t1, lastD p ∈ st.n1) →
          (∀ p ∈ (ssRound nbr st).t0, lastD p ∈ (ssRound nbr st).n0) ∧
          (∀ p ∈ (ssRound nbr st).t1, lastD p ∈ (ssRound nbr st).n1))) := by
  intro nbr s t
  refine ⟨hpIter_leaves_seen, hpIter_seen_mono, ?_, ?_⟩
  · intro k st st' h1 h2
    unfold hpIter at h2
    rw [h1] at h2
    simp only at h2
    by_cases hstop : st.l0.isEmpty || st.l1.isEmpty
    · rw [if_pos hstop] at h2
      simp at h2
    · rw [if_neg hstop] at h2
      obtain ⟨hl0, hl1⟩ := hpIter_leaves_seen k st h1
      exact (hpRound_step h2 hl0 hl1).2.2
  · intro st
    by_cases hc : st.t1.length < st.t0.length
    · rw [ssRound_eq_pos hc]
      refine ⟨fun v hv => hv, fun v hv => mem_unionS.mpr (Or.inl hv), ?_⟩
      intro he0 he1
      refine ⟨he0, ?_⟩
      intro p hp
      rw [List.mem_dedup] at hp
      exact mem_unionS.mpr (Or.inr (List.mem_map.mpr ⟨p, hp, rfl⟩))
    · rw [ssRound_eq_neg hc]
      refine ⟨fun v hv => mem_unionS.mpr (Or.inl hv), fun v hv => hv, ?_⟩
      intro he0 he1
      refine ⟨?_, he1⟩
      intro p hp
      rw [List.mem_dedup] at hp
      exact mem_unionS.mpr (Or.inr (List.mem_map.mpr ⟨p, hp, rfl⟩))

/-- Concrete graph exhibiting re-admission in the shortest-path engine: a
triangle 0-1-2 at the source and a separate clique at the target 5. -/
def G8cex : Graph :=
  ⟨[0, 1, 2, 5, 6, 7, 8],
   [(0, 1), (1, 2), (0, 2), (5, 6), (5, 7), (5, 8), (6, 7), (6, 8), (7, 8)],
   false, false⟩

/-- Claim C8 counterexample: in the all-shortest-paths engine, node 2 enters
side 0's seen set in round 1, side 0's frontier is untouched in round 2, and
round 3 replaces side 0's frontier with paths among which `[0, 1, 2]` ends at
node 2 — the seen set did not prevent node 2 from being admitted to the
side-0 frontier again in a later round. -/
theorem seen_set_claim_cex :
    2 ∈ (ssLoop G8cex.neighbors 1 (ssInit 0 5)).n0 ∧
    (ssLoop G8cex.neighbors 2 (ssInit 0 5)).t0 =
      (ssLoop G8cex.neighbors 1 (ssInit 0 5)).t0 ∧
    (ssLoop G8cex.neighbors 3 (ssInit 0 5)).t0 ≠
      (ssLoop G8cex.neighbors 2 (ssInit 0 5)).t0 ∧
    [0, 1, 2] ∈ (ssLoop G8cex.neighbors 3 (ssInit 0 5)).t0 ∧
    lastD [0, 1, 2] = 2 := by
  refine ⟨?_, ?_, ?_, ?_, ?_⟩ <;> decide

/-- Witness for the seen-set discipline theorem on the path graph 0-1-2,
applying the no-re-admission component at round 0 with its successor state
given explicitly. -/
theorem seen_set_discipline_witness :
    (1 : Node) ∉ (hpInit 0 2).n0 := by
  have h := (seen_set_discipline
    (Graph.neighbors ⟨[0, 1, 2], [(0, 1), (1, 2)], false, false⟩) 0 2).2.2.1
  exact (h 0 (hpInit 0 2) ⟨[1], [2], [0, 1], [2]⟩ rfl (by decide)).1
    (by decide) 1 (by decide)

/-! ## Claim C3: form and ordering of simple-paths yields -/

/-- Sound frontier shape of a simple-paths dict: every stored path has the
round's uniform length, starts at the side's anchor, repeats no node, and
ends at its bucket's key. -/
def BFront (anch : Node) (L : Nat) (tb : Buckets) : Prop :=
  ∀ e ∈ tb, ∀ p ∈ e.2,
    p.length = L ∧ p.head? = some anch ∧ p.Nodup ∧ lastD p = e.1

lemma bucketAdd_keyed {t : Buckets} {k : Node} {p : Path}
    (ht : ∀ e ∈ t, ∀ q ∈ e.2, lastD q = e.1) (hk : lastD p = k) :
    ∀ e ∈ bucketAdd t k p, ∀ q ∈ e.2, lastD q = e.1 := by
  induction t with
  | nil =>
    intro e he q hq
    simp [bucketAdd] at he
    subst he
    simp at hq
    subst hq
    exact hk
  | cons hd rest ih =>
    obtain ⟨k', ps⟩ := hd
    intro e he q hq
    unfold bucketAdd at he
    by_cases hkk : (k' == k) = true
    · simp only [hkk, if_true] at he
      rcases List.mem_cons.mp he with rfl | hmem
      · by_cases hps : p ∈ ps
        · simp only [hps, if_true] at hq
          exact ht (k', ps) (List.mem_cons_self _ _) q hq
        · simp only [hps, if_false] at hq
          rcases List.mem_append.mp hq with h | h
          · exact ht (k', ps) (List.mem_cons_self _ _) q h
          · simp at h
            subst h
            simpa [hk] using (beq_iff_eq.mp hkk).symm
      · exact ht e (List.mem_cons_of_mem _ hmem) q hq
    · simp only [hkk, if_false] at he
      rcases List.mem_cons.mp he with rfl | hmem
      · exact ht (k', ps) (List.mem_cons_self _ _) q hq
      · exact ih (fun e' he' => ht e' (List.mem_cons_of_mem _ he')) e hmem q hq

lemma foldl_bucketAdd_keyed {es : List (Node × Path)} :
    ∀ {t : Buckets}, (∀ e ∈ t, ∀ q ∈ e.2, lastD q = e.1) →
      (∀ kp ∈ es, lastD kp.2 = kp.1) →
      ∀ e ∈ es.foldl (fun t e => bucketAdd t e.1 e.2) t,
        ∀ q ∈ e.2, lastD q = e.1 := by
  induction es with
  | nil => intro t ht _ e he q hq; exact ht e he q hq
  | cons hd rest ih =>
    intro t ht hes e he q hq
    simp only [List.foldl_cons] at he
    refine ih ?_ (fun kp hkp => hes kp (List.mem_cons_of_mem _ hkp)) e he q hq
    exact bucketAdd_keyed ht (hes hd (List.mem_cons_self _ _))

lemma spEntries_keyed {nbr : Bool → Node → List Node} {m : Bool} {ts : Buckets} :
    ∀ kp ∈ spEntries nbr m ts, lastD kp.2 = kp.1 := by
  rintro ⟨v, q⟩ hkp
  rw [mem_spEntries] at hkp
  obtain ⟨e, _, p, _, _, _, rfl⟩ := hkp
  exact lastD_append_singleton p v

lemma spTemp_bfront {nbr : Bool → Node → List Node} {m : Bool} {ts : Buckets}
    {anch : Node} {L : Nat} (h : BFront anch L ts) (_hL : 1 ≤ L) :
    BFront anch (L + 1) (spTemp nbr m ts) := by
  intro e he p hp
  have hkey : lastD p = e.1 :=
    foldl_bucketAdd_keyed (by simp) spEntries_keyed e he p hp
  rcases foldl_bucketAdd_paths he hp with ⟨e0, he0, _⟩ | ⟨k, hk⟩
  · simp at he0
  · rw [mem_spEntries] at hk
    obtain ⟨e', he', p0, hp0, hv, hvp, rfl⟩ := hk
    obtain ⟨hlen, hhead, hnd, _⟩ := h e' he' p0 hp0
    refine ⟨by simp [hlen], ?_, ?_, hkey⟩
    · simp [List.head?_append, hhead]
    · rw [List.nodup_append]
      refine ⟨hnd, List.nodup_singleton _, ?_⟩
      intro a ha hak
      simp at hak
      subst hak
      exact hvp ha

lemma spYields_sound {nbr : Bool → Node → List Node} {m : Bool} {ts tt : Buckets}
    {aS aT : Node} {Ls Lt : Nat}
    (hS : BFront aS Ls ts) (hT : BFront aT Lt tt)
    (hLs : 1 ≤ Ls) (hLt : 1 ≤ Lt) :
    ∀ q ∈ spYields nbr m ts tt,
      q.length = Ls + Lt ∧
      q.head? = some (if m then aT else aS) ∧
      q.getLast? = some (if m then aS else aT) ∧ q.Nodup := by
  intro q hq
  rw [mem_spYields] at hq
  obtain ⟨e, he, v, hv, p, hp, hvp, pts, hl, pt, hpt, hdisj, rfl⟩ := hq
  obtain ⟨hlp, hhp, hndp, _⟩ := hS e he p hp
  have hbt := lookupB_some hl
  obtain ⟨hlt, hht, hndt, _⟩ := hT _ hbt pt hpt
  have hpne : p ≠ [] := by
    intro h
    rw [h] at hlp
    simp at hlp
    omega
  have htne : pt ≠ [] := by
    intro h
    rw [h] at hlt
    simp at hlt
    omega
  have htrne : pt.reverse ≠ [] := by simpa using htne
  have hprne : p.reverse ≠ [] := by simpa using hpne
  have hdisj' : p.Disjoint pt.reverse := by
    intro a ha har
    rw [List.mem_reverse] at har
    exact hdisj a har ha
  have hdisj'' : pt.Disjoint p.reverse := by
    intro a ha har
    rw [List.mem_reverse] at har
    exact hdisj a ha har
  cases m with
  | false =>
    simp only [stitch, if_false, Bool.false_eq_true]
    refine ⟨by simp [hlp, hlt], ?_, ?_, ?_⟩
    · simp [List.head?_append, hhp]
    · rw [List.getLast?_append_of_ne_nil _ htrne]
      simpa using hht
    · rw [List.nodup_append]
      exact ⟨hndp, List.nodup_reverse.mpr hndt, hdisj'⟩
  | true =>
    simp only [stitch, if_true]
    refine ⟨by simp [hlp, hlt]; omega, ?_, ?_, ?_⟩
    · simp [List.head?_append, hht]
    · rw [List.getLast?_append_of_ne_nil _ hprne]
      simpa using hhp
    · rw [List.nodup_append]
      exact ⟨hndt, List.nodup_reverse.mpr hndp, hdisj''⟩

lemma spLoop_sound {nbr : Bool → Node → List Node} {s t : Node} :
    ∀ (c : Nat) (st : SPState) (L0 L1 : Nat),
      BFront s L0 st.t0 → BFront t L1 st.t1 → 1 ≤ L0 → 1 ≤ L1 →
      (∀ q ∈ st.acc, q.head? = some s ∧ q.getLast? = some t ∧ q.Nodup ∧
        q.length + 1 ≤ L0 + L1) →
      ((st.acc.map List.length).Pairwise (· ≤ ·)) →
      (∀ q ∈ (spLoop nbr c st).acc,
        q.head? = some s ∧ q.getLast? = some t ∧ q.Nodup ∧
          q.length + 1 ≤ L0 + L1 + c) ∧
      (((spLoop nbr c st).acc.map List.length).Pairwise (· ≤ ·)) := by
  intro c
  induction c with
  | zero =>
    intro st L0 L1 _ _ _ _ hacc hsort
    refine ⟨?_, hsort⟩
    intro q hq
    obtain ⟨h1, h2, h3, h4⟩ := hacc q hq
    exact ⟨h1, h2, h3, by omega⟩
  | succ c ih =>
    intro st L0 L1 h0 h1 hL0 hL1 hacc hsort
    have hstep : spLoop nbr (c + 1) st = spLoop nbr c (spRound nbr st) := rfl
    rw [hstep]
    by_cases hc : st.t1.length < st.t0.length
    · rw [spRound_eq_pos hc]
      have hys := @spYields_sound nbr true _ _ _ _ _ _ h1 h0 hL1 hL0
      have haccN : ∀ q ∈ st.acc ++ spYields nbr true st.t1 st.t0,
          q.head? = some s ∧ q.getLast? = some t ∧ q.Nodup ∧
            q.length + 1 ≤ L0 + (L1 + 1) := by
        intro q hq
        rcases List.mem_append.mp hq with h | h
        · obtain ⟨ha, hb, hcq, hd⟩ := hacc q h
          exact ⟨ha, hb, hcq, by omega⟩
        · obtain ⟨hlen, hb, hcq, hnd⟩ := hys q h
          simp only [if_true] at hb hcq
          exact ⟨hb, hcq, hnd, by omega⟩
      have hsortN : (((st.acc ++ spYields nbr true st.t1 st.t0).map
          List.length).Pairwise (· ≤ ·)) := by
        rw [List.map_append, List.pairwise_append]
        refine ⟨hsort, ?_, ?_⟩
        · refine List.pairwise_of_forall_mem_list ?_
          intro a ha b hb
          rw [List.mem_map] at ha hb
          obtain ⟨qa, hqa, rfl⟩ := ha
          obtain ⟨qb, hqb, rfl⟩ := hb
          rw [(hys qa hqa).1, (hys qb hqb).1]
        · intro a ha b hb
          rw [List.mem_map] at ha hb
          obtain ⟨qa, hqa, rfl⟩ := ha
          obtain ⟨qb, hqb, rfl⟩ := hb
          have h1a := (hacc qa hqa).2.2.2
          have h2b := (hys qb hqb).1
          omega
      have hnext := ih ⟨st.t0, spTemp nbr true st.t1,
          st.acc ++ spYields nbr true st.t1 st.t0⟩ L0 (L1 + 1)
        h0 (spTemp_bfront h1 hL1) hL0 (by omega) haccN hsortN
      refine ⟨?_, hnext.2⟩
      intro q hq
      obtain ⟨ha, hb, hcq, hd⟩ := hnext.1 q hq
      exact ⟨ha, hb, hcq, by omega⟩
    · rw [spRound_eq_neg hc]
      have hys := @spYields_sound nbr false _ _ _ _ _ _ h0 h1 hL0 hL1
      have haccN : ∀ q ∈ st.acc ++ spYields nbr false st.t0 st.t1,
          q.head? = some s ∧ q.getLast? = some t ∧ q.Nodup ∧
            q.length + 1 ≤ (L0 + 1) + L1 := by
        intro q hq
        rcases List.mem_append.mp hq with h | h
        · obtain ⟨ha, hb, hcq, hd⟩ := hacc q h
          exact ⟨ha, hb, hcq, by omega⟩
        · obtain ⟨hlen, hb, hcq, hnd⟩ := hys q h
          simp only [Bool.false_eq_true, if_false] at hb hcq
          exact ⟨hb, hcq, hnd, by omega⟩
      have hsortN : (((st.acc ++ spYields nbr false st.t0 st.t1).map
          List.length).Pairwise (· ≤ ·)) := by
        rw [List.map_append, List.pairwise_append]
        refine ⟨hsort, ?_, ?_⟩
        · refine List.pairwise_of_forall_mem_list ?_
          intro a ha b hb
          rw [List.mem_map] at ha hb
          obtain ⟨qa, hqa, rfl⟩ := ha
          obtain ⟨qb, hqb, rfl⟩ := hb
          rw [(hys qa hqa).1, (hys qb hqb).1]
        · intro a ha b hb
          rw [List.mem_map] at ha hb
          obtain ⟨qa, hqa, rfl⟩ := ha
          obtain ⟨qb, hqb, rfl⟩ := hb
          have h1a := (hacc qa hqa).2.2.2
          have h2b := (hys qb hqb).1
          omega
      have hnext := ih ⟨spTemp nbr false st.t0, st.t1,
          st.acc ++ spYields nbr false st.t0 st.t1⟩ (L0 + 1) L1
        (spTemp_bfront h0 hL0) h1 (by omega) hL1 haccN hsortN
      refine ⟨?_, hnext.2⟩
      intro q hq
      obtain ⟨ha, hb, hcq, hd⟩ := hnext.1 q hq
      exact ⟨ha, hb, hcq, by omega⟩

lemma bfront_init (a : Node) : BFront a 1 [(a, [[a]])] := by
  intro e he p hp
  simp at he
  subst he
  simp at hp
  subst hp
  exact ⟨rfl, rfl, List.nodup_singleton _, by simp [lastD]⟩

/-- Claim C3: for every graph (either kind), nodes present, and cutoff ≥ 1,
every path yielded by `allSimplePaths` is a sequence of distinct nodes
reading source → target with at most `cutoff` edges (at most `cutoff + 1`
nodes), and the yields appear in non-decreasing order of length: each round
emits only paths of that round's exact length, and rounds lengthen. -/
theorem allSimplePaths_form_and_order (G : Graph) (s t : Node) (c : Int)
    (hc : 1 ≤ c) (hs : s ∈ G.nodes) (ht : t ∈ G.nodes) (ys : List Path)
    (h : bidirectional_all_simple_paths G s t (some c) = .ok ys) :
    (∀ q ∈ ys, q.head? = some s ∧ q.getLast? = some t ∧ q.Nodup ∧
      (q.length : Int) ≤ c + 1) ∧
    ((ys.map List.length).Pairwise (· ≤ ·)) := by
  unfold bidirectional_all_simple_paths at h
  rw [if_neg (by simpa using hs), if_neg (by simpa using ht)] at h
  have key : ∀ (nbr : Bool → Node → List Node),
      (spLoop nbr c.toNat (spInit s t)).acc = ys →
      (∀ q ∈ ys, q.head? = some s ∧ q.getLast? = some t ∧ q.Nodup ∧
        (q.length : Int) ≤ c + 1) ∧
      ((ys.map List.length).Pairwise (· ≤ ·)) := by
    intro nbr hys
    have hsound := @spLoop_sound nbr s t c.toNat
      (spInit s t) 1 1 (bfront_init s) (bfront_init t) (le_refl 1) (le_refl 1)
      (by simp [spInit]) (by simp [spInit])
    rw [hys] at hsound
    refine ⟨?_, hsound.2⟩
    intro q hq
    obtain ⟨h1, h2, h3, h4⟩ := hsound.1 q hq
    refine ⟨h1, h2, h3, ?_⟩
    have hct : (c.toNat : Int) = c := Int.toNat_of_nonneg (by omega)
    omega
  simp only [Option.getD] at h
  by_cases hm : G.multi = true
  · rw [if_pos hm] at h
    injection h with h
    unfold _bidirectional_all_simple_paths_multi at h
    rw [if_neg (by omega)] at h
    exact key _ h
  · rw [if_neg hm] at h
    injection h with h
    unfold _bidirectional_all_simple_paths at h
    rw [if_neg (by omega)] at h
    exact key _ h

/-- Witness for the simple-paths form-and-order theorem on the complete
4-node graph with cutoff 2 (the docstring example). -/
theorem allSimplePaths_form_and_order_witness :
    (([[0, 3], [0, 1, 3], [0, 2, 3]] : List Path).map List.length).Pairwise
      (· ≤ ·) := by
  have h := allSimplePaths_form_and_order
    ⟨[0, 1, 2, 3], [(0, 1), (0, 2), (0, 3), (1, 2), (1, 3), (2, 3)],
      false, false⟩ 0 3 2 (by decide) (by decide) (by decide)
    [[0, 3], [0, 1, 3], [0, 2, 3]] rfl
  exact h.2

end BidirSearch

namespace BidirSearch

/-! ## Claim C1: BFS layers of the reachability engine -/

/-- Exact distance: a walk of length `a` exists and none shorter. -/
def DistEq (A : Node → Node → Bool) (s : Node) (a : Nat) (v : Node) : Prop :=
  WalkN A a s v ∧ ∀ m < a, ¬ WalkN A m s v

/-- Distance at most `a`. -/
def DistLe (A : Node → Node → Bool) (s : Node) (a : Nat) (v : Node) : Prop :=
  ∃ m ≤ a, WalkN A m s v

lemma exists_distEq {A : Node → Node → Bool} {s v : Node} {n : Nat}
    (h : WalkN A n s v) : ∃ a ≤ n, DistEq A s a v := by
  classical
  have hex : ∃ m, WalkN A m s v := ⟨n, h⟩
  exact ⟨Nat.find hex, Nat.find_min' hex h,
    Nat.find_spec hex, fun m hm => Nat.find_min hex hm⟩

lemma distLe_succ {A : Node → Node → Bool} {s v : Node} {a : Nat} :
    DistLe A s (a + 1) v ↔ DistLe A s a v ∨ DistEq A s (a + 1) v := by
  constructor
  · rintro ⟨m, hm, hw⟩
    obtain ⟨a', ha'le, ha'⟩ := exists_distEq hw
    rcases Nat.lt_or_ge a' (a + 1) with hlt | hge
    · exact Or.inl ⟨a', by omega, ha'.1⟩
    · have : a' = a + 1 := by omega
      subst this
      exact Or.inr ha'
  · rintro (⟨m, hm, hw⟩ | ⟨hw, _⟩)
    · exact ⟨m, by omega, hw⟩
    · exact ⟨a + 1, le_refl _, hw⟩

/-- BFS layer step: given exact layer `a` and seen set `≤ a`, the round's
candidates are exactly the nodes at distance `a + 1`. -/
lemma cands_layer {nbr : Bool → Node → List Node} {m : Bool}
    {A : Node → Node → Bool} {s : Node} {a : Nat} {ls ns : List Node}
    (hn : ∀ u v, v ∈ nbr m u ↔ A u v = true)
    (hl : ∀ v, v ∈ ls ↔ DistEq A s a v)
    (hns : ∀ v, v ∈ ns ↔ DistLe A s a v) :
    ∀ v, v ∈ hpCands nbr m ls ns ↔ DistEq A s (a + 1) v := by
  intro v
  rw [mem_hpCands]
  constructor
  · rintro ⟨u, hu, hvu, hvns⟩
    rw [hl] at hu
    refine ⟨walkN_snoc.mpr ⟨u, hu.1, (hn u v).mp hvu⟩, ?_⟩
    intro mm hmm hwm
    exact hvns ((hns v).mpr ⟨mm, by omega, hwm⟩)
  · rintro ⟨hw, hmin⟩
    obtain ⟨u, hu, hstep⟩ := walkN_snoc.mp hw
    obtain ⟨a', ha'le, ha'⟩ := exists_distEq hu
    have ha'eq : a' = a := by
      by_contra hne
      have hlt : a' < a := lt_of_le_of_ne ha'le hne
      exact hmin (a' + 1) (by omega) (walkN_snoc.mpr ⟨u, ha'.1, hstep⟩)
    subst ha'eq
    refine ⟨u, (hl u).mpr ha', (hn u v).mpr hstep, ?_⟩
    intro hv
    obtain ⟨mm, hmm, hwm⟩ := (hns v).mp hv
    exact hmin mm (by omega) hwm

/-- Positions along a minimum-length path realize the exact forward
distances. -/
lemma minpath_distEq_forward {A : Node → Node → Bool} {s t : Node} {p : Path}
    {d : Nat} (hp : IsPathTo A s t p) (hlen : p.length = d + 1)
    (hmin : ∀ m, WalkN A m s t → d ≤ m) :
    ∀ i (hi : i < p.length), DistEq A s i (p.get ⟨i, hi⟩) := by
  intro i hi
  obtain ⟨hh, hl, hc⟩ := hp
  have hfwd := walkN_to_get p hc i hi
  rw [headD_of_head? hh] at hfwd
  refine ⟨hfwd, ?_⟩
  intro m hm hw
  have hbwd := walkN_from_get p hc i hi
  rw [lastD_eq_of_getLast? hl] at hbwd
  have htot : WalkN A (m + (p.length - 1 - i)) s t := walkN_trans hw hbwd
  have := hmin _ htot
  omega

/-- Positions along a minimum-length path realize the exact backward
distances. -/
lemma minpath_distEq_backward {A : Node → Node → Bool} {s t : Node} {p : Path}
    {d : Nat} (hp : IsPathTo A s t p) (hlen : p.length = d + 1)
    (hmin : ∀ m, WalkN A m s t → d ≤ m) :
    ∀ i (hi : i < p.length), DistEq (flipB A) t (d - i) (p.get ⟨i, hi⟩) := by
  intro i hi
  obtain ⟨hh, hl, hc⟩ := hp
  have hbwd := walkN_from_get p hc i hi
  rw [lastD_eq_of_getLast? hl] at hbwd
  have hbl : p.length - 1 - i = d - i := by omega
  rw [hbl] at hbwd
  refine ⟨walkN_flip.mpr hbwd, ?_⟩
  intro m hm hw
  have hw' : WalkN A m (p.get ⟨i, hi⟩) t := walkN_flip.mp hw
  have hfwd := walkN_to_get p hc i hi
  rw [headD_of_head? hh] at hfwd
  have htot : WalkN A (i + m) s t := walkN_trans hfwd hw'
  have := hmin _ htot
  omega

end BidirSearch

namespace BidirSearch

/-- The four BFS-layer invariants of the reachability loop state: each leaf
set is an exact distance layer, each seen set the corresponding ball. -/
def HPLayers (A : Node → Node → Bool) (s t : Node) (a b : Nat)
    (st : HPState) : Prop :=
  (∀ v, v ∈ st.l0 ↔ DistEq A s a v) ∧
  (∀ v, v ∈ st.n0 ↔ DistLe A s a v) ∧
  (∀ v, v ∈ st.l1 ↔ DistEq (flipB A) t b v) ∧
  (∀ v, v ∈ st.n1 ↔ DistLe (flipB A) t b v)

lemma hpLayers_init {A : Node → Node → Bool} {s t : Node} :
    HPLayers A s t 0 0 (hpInit s t) := by
  refine ⟨?_, ?_, ?_, ?_⟩ <;> intro v <;> simp [hpInit] <;> constructor
  · rintro rfl
    exact ⟨rfl, by omega⟩
  · rintro ⟨hw, _⟩
    exact hw.symm
  · rintro rfl
    exact ⟨0, le_refl _, rfl⟩
  · rintro ⟨m, hm, hw⟩
    have : m = 0 := by omega
    subst this
    exact hw.symm
  · rintro rfl
    exact ⟨rfl, by omega⟩
  · rintro ⟨hw, _⟩
    exact hw.symm
  · rintro rfl
    exact ⟨0, le_refl _, rfl⟩
  · rintro ⟨m, hm, hw⟩
    have : m = 0 := by omega
    subst this
    exact hw.symm

lemma hpRound_layers {nbr : Bool → Node → List Node} {A : Node → Node → Bool}
    {s t : Node} {a b : Nat} {st st' : HPState}
    (hn0 : ∀ u v, v ∈ nbr false u ↔ A u v = true)
    (hn1 : ∀ u v, v ∈ nbr true u ↔ A v u = true)
    (hinv : HPLayers A s t a b st) (h : hpRound nbr st = some st') :
    HPLayers A s t (a + 1) b st' ∨ HPLayers A s t a (b + 1) st' := by
  obtain ⟨hl0, hn0i, hl1, hn1i⟩ := hinv
  by_cases hc : st.l1.length < st.l0.length
  · rw [hpRound_eq_pos hc] at h
    by_cases hany : (hpCands nbr true st.l1 st.n1).any
        (fun v => decide (v ∈ st.l0)) = true
    · rw [if_pos hany] at h
      simp at h
    · rw [if_neg hany] at h
      injection h with h
      subst h
      have hcl := cands_layer (m := true) (A := flipB A) (s := t)
        (fun u v => hn1 u v) hl1 hn1i
      refine Or.inr ⟨hl0, hn0i, ?_, ?_⟩
      · intro v
        show v ∈ (hpCands nbr true st.l1 st.n1).dedup ↔ _
        rw [List.mem_dedup]
        exact hcl v
      · intro v
        show v ∈ st.n1 ++ (hpCands nbr true st.l1 st.n1).dedup ↔ _
        rw [List.mem_append, List.mem_dedup, hn1i v, hcl v, distLe_succ]
  · rw [hpRound_eq_neg hc] at h
    by_cases hany : (hpCands nbr false st.l0 st.n0).any
        (fun v => decide (v ∈ st.l1)) = true
    · rw [if_pos hany] at h
      simp at h
    · rw [if_neg hany] at h
      injection h with h
      subst h
      have hcl := cands_layer (m := false) (A := A) (s := s) hn0 hl0 hn0i
      refine Or.inl ⟨?_, ?_, hl1, hn1i⟩
      · intro v
        show v ∈ (hpCands nbr false st.l0 st.n0).dedup ↔ _
        rw [List.mem_dedup]
        exact hcl v
      · intro v
        show v ∈ st.n0 ++ (hpCands nbr false st.l0 st.n0).dedup ↔ _
        rw [List.mem_append, List.mem_dedup, hn0i v, hcl v, distLe_succ]

lemma hpRound_none_walk {nbr : Bool → Node → List Node}
    {A : Node → Node → Bool} {s t : Node} {a b : Nat} {st : HPState}
    (hn0 : ∀ u v, v ∈ nbr false u ↔ A u v = true)
    (hn1 : ∀ u v, v ∈ nbr true u ↔ A v u = true)
    (hinv : HPLayers A s t a b st) (h : hpRound nbr st = none) :
    ∃ n, WalkN A n s t := by
  obtain ⟨hl0, hn0i, hl1, hn1i⟩ := hinv
  by_cases hc : st.l1.length < st.l0.length
  · rw [hpRound_eq_pos hc] at h
    by_cases hany : (hpCands nbr true st.l1 st.n1).any
        (fun v => decide (v ∈ st.l0)) = true
    · obtain ⟨v, hv, hvl⟩ := List.any_eq_true.mp hany
      have hvl0 : v ∈ st.l0 := of_decide_eq_true hvl
      have hcl := cands_layer (m := true) (A := flipB A) (s := t)
        (fun u v => hn1 u v) hl1 hn1i
      have hvb : DistEq (flipB A) t (b + 1) v := (hcl v).mp hv
      have hva : DistEq A s a v := (hl0 v).mp hvl0
      exact ⟨a + (b + 1), walkN_trans hva.1 (walkN_flip.mp hvb.1)⟩
    · rw [if_neg hany] at h
      simp at h
  · rw [hpRound_eq_neg hc] at h
    by_cases hany : (hpCands nbr false st.l0 st.n0).any
        (fun v => decide (v ∈ st.l1)) = true
    · obtain ⟨v, hv, hvl⟩ := List.any_eq_true.mp hany
      have hvl1 : v ∈ st.l1 := of_decide_eq_true hvl
      have hcl := cands_layer (m := false) (A := A) (s := s) hn0 hl0 hn0i
      have hva : DistEq A s (a + 1) v := (hcl v).mp hv
      have hvb : DistEq (flipB A) t b v := (hl1 v).mp hvl1
      exact ⟨(a + 1) + b, walkN_trans hva.1 (walkN_flip.mp hvb.1)⟩
    · rw [if_neg hany] at h
      simp at h

lemma hpLoop_sound {nbr : Bool → Node → List Node} {A : Node → Node → Bool}
    {s t : Node}
    (hn0 : ∀ u v, v ∈ nbr false u ↔ A u v = true)
    (hn1 : ∀ u v, v ∈ nbr true u ↔ A v u = true) :
    ∀ (fuel : Nat) (st : HPState) (a b : Nat), HPLayers A s t a b st →
      hpLoop nbr fuel st = true → ∃ n, WalkN A n s t := by
  intro fuel
  induction fuel with
  | zero => intro st a b _ h; simp [hpLoop] at h
  | succ f ih =>
    intro st a b hinv h
    unfold hpLoop at h
    by_cases hstop : (st.l0.isEmpty || st.l1.isEmpty) = true
    · rw [if_pos hstop] at h
      simp at h
    · rw [if_neg hstop] at h
      cases hr : hpRound nbr st with
      | none => exact hpRound_none_walk hn0 hn1 hinv hr
      | some st' =>
        rw [hr] at h
        rcases hpRound_layers hn0 hn1 hinv hr with hup | hup
        · exact ih st' (a + 1) b hup h
        · exact ih st' a (b + 1) hup h

end BidirSearch

namespace BidirSearch

lemma hpLoop_complete {nbr : Bool → Node → List Node} {A : Node → Node → Bool}
    {s t : Node} {p : Path} {d : Nat}
    (hn0 : ∀ u v, v ∈ nbr false u ↔ A u v = true)
    (hn1 : ∀ u v, v ∈ nbr true u ↔ A v u = true)
    (hp : IsPathTo A s t p) (hlen : p.length = d + 1)
    (hmin : ∀ m, WalkN A m s t → d ≤ m) :
    ∀ (fuel : Nat) (a b : Nat) (st : HPState), HPLayers A s t a b st →
      a + b + 1 ≤ d → d - (a + b) ≤ fuel → hpLoop nbr fuel st = true := by
  intro fuel
  induction fuel with
  | zero => intro a b st _ hab hfuel; omega
  | succ f ih =>
    intro a b st hinv hab hfuel
    obtain ⟨hl0, hn0i, hl1, hn1i⟩ := hinv
    have hma : a < p.length := by omega
    have hmb : d - b < p.length := by omega
    have hmem0 : p.get ⟨a, hma⟩ ∈ st.l0 :=
      (hl0 _).mpr (minpath_distEq_forward hp hlen hmin a hma)
    have hmem1 : p.get ⟨d - b, hmb⟩ ∈ st.l1 := by
      refine (hl1 _).mpr ?_
      have := minpath_distEq_backward hp hlen hmin (d - b) hmb
      have hb : d - (d - b) = b := by omega
      rwa [hb] at this
    unfold hpLoop
    have hstop : ¬ (st.l0.isEmpty || st.l1.isEmpty) = true := by
      intro hcontra
      rcases Bool.or_eq_true_iff.mp hcontra with he | he
      · rw [List.isEmpty_iff] at he
        rw [he] at hmem0
        simp at hmem0
      · rw [List.isEmpty_iff] at he
        rw [he] at hmem1
        simp at hmem1
    rw [if_neg hstop]
    cases hr : hpRound nbr st with
    | none => rfl
    | some st' =>
      rcases hpRound_layers hn0 hn1 ⟨hl0, hn0i, hl1, hn1i⟩ hr with hup | hup
      · by_cases hnext : (a + 1) + b + 1 ≤ d
        · exact ih (a + 1) b st' hup hnext (by omega)
        · exfalso
          have habd : a + b + 1 = d := by omega
          by_cases hc : st.l1.length < st.l0.length
          · rw [hpRound_eq_pos hc] at hr
            have hcl := cands_layer (m := true) (A := flipB A) (s := t)
              (fun u v => hn1 u v) hl1 hn1i
            have hidx : a < p.length := by omega
            have hx0 : DistEq A s a (p.get ⟨a, hidx⟩) :=
              minpath_distEq_forward hp hlen hmin a hidx
            have hx1 : DistEq (flipB A) t (b + 1) (p.get ⟨a, hidx⟩) := by
              have := minpath_distEq_backward hp hlen hmin a hidx
              have hb : d - a = b + 1 := by omega
              rwa [hb] at this
            have hany : (hpCands nbr true st.l1 st.n1).any
                (fun v => decide (v ∈ st.l0)) = true := by
              refine List.any_eq_true.mpr ⟨p.get ⟨a, hidx⟩, (hcl _).mpr hx1, ?_⟩
              exact decide_eq_true ((hl0 _).mpr hx0)
            rw [if_pos hany] at hr
            simp at hr
          · rw [hpRound_eq_neg hc] at hr
            have hcl := cands_layer (m := false) (A := A) (s := s) hn0 hl0 hn0i
            have hidx : a + 1 < p.length := by omega
            have hx0 : DistEq A s (a + 1) (p.get ⟨a + 1, hidx⟩) :=
              minpath_distEq_forward hp hlen hmin (a + 1) hidx
            have hx1 : DistEq (flipB A) t b (p.get ⟨a + 1, hidx⟩) := by
              have := minpath_distEq_backward hp hlen hmin (a + 1) hidx
              have hb : d - (a + 1) = b := by omega
              rwa [hb] at this
            have hany : (hpCands nbr false st.l0 st.n0).any
                (fun v => decide (v ∈ st.l1)) = true := by
              refine List.any_eq_true.mpr ⟨p.get ⟨a + 1, hidx⟩, (hcl _).mpr hx0, ?_⟩
              exact decide_eq_true ((hl1 _).mpr hx1)
            rw [if_pos hany] at hr
            simp at hr
      · by_cases hnext : a + (b + 1) + 1 ≤ d
        · exact ih a (b + 1) st' hup hnext (by omega)
        · exfalso
          have habd : a + b + 1 = d := by omega
          by_cases hc : st.l1.length < st.l0.length
          · rw [hpRound_eq_pos hc] at hr
            have hcl := cands_layer (m := true) (A := flipB A) (s := t)
              (fun u v => hn1 u v) hl1 hn1i
            have hidx : a < p.length := by omega
            have hx0 : DistEq A s a (p.get ⟨a, hidx⟩) :=
              minpath_distEq_forward hp hlen hmin a hidx
            have hx1 : DistEq (flipB A) t (b + 1) (p.get ⟨a, hidx⟩) := by
              have := minpath_distEq_backward hp hlen hmin a hidx
              have hb : d - a = b + 1 := by omega
              rwa [hb] at this
            have hany : (hpCands nbr true st.l1 st.n1).any
                (fun v => decide (v ∈ st.l0)) = true := by
              refine List.any_eq_true.mpr ⟨p.get ⟨a, hidx⟩, (hcl _).mpr hx1, ?_⟩
              exact decide_eq_true ((hl0 _).mpr hx0)
            rw [if_pos hany] at hr
            simp at hr
          · rw [hpRound_eq_neg hc] at hr
            have hcl := cands_layer (m := false) (A := A) (s := s) hn0 hl0 hn0i
            have hidx : a + 1 < p.length := by omega
            have hx0 : DistEq A s (a + 1) (p.get ⟨a + 1, hidx⟩) :=
              minpath_distEq_forward hp hlen hmin (a + 1) hidx
            have hx1 : DistEq (flipB A) t b (p.get ⟨a + 1, hidx⟩) := by
              have := minpath_distEq_backward hp hlen hmin (a + 1) hidx
              have hb : d - (a + 1) = b := by omega
              rwa [hb] at this
            have hany : (hpCands nbr false st.l0 st.n0).any
                (fun v => decide (v ∈ st.l1)) = true := by
              refine List.any_eq_true.mpr ⟨p.get ⟨a + 1, hidx⟩, (hcl _).mpr hx0, ?_⟩
              exact decide_eq_true ((hl1 _).mpr hx1)
            rw [if_pos hany] at hr
            simp at hr

end BidirSearch

namespace BidirSearch

/-- From reachability extract a minimum-length duplicate-free path. -/
lemma exists_min_nodup_path {A : Node → Node → Bool} {s t : Node}
    (h : Reachable A s t) :
    ∃ d p, IsPathTo A s t p ∧ p.length = d + 1 ∧ p.Nodup ∧
      ∀ m, WalkN A m s t → d ≤ m := by
  obtain ⟨n0, hw0⟩ := reachable_iff_exists_walkN.mp h
  obtain ⟨d, hwd, hdmin⟩ := exists_minWalk ⟨n0, hw0⟩
  obtain ⟨p0, hp0, hlen0⟩ := isPathTo_iff_walkN.mpr hwd
  obtain ⟨q, hq, hqnd, hql⟩ := exists_nodup_path p0 hp0
  have hqne : q ≠ [] := by
    intro hh
    rw [hh] at hq
    exact absurd hq.1 (by simp)
  have hq1 : 1 ≤ q.length := by
    cases q with
    | nil => exact absurd rfl hqne
    | cons a l => simp
  have hqw : WalkN A (q.length - 1) s t := by
    apply isPathTo_iff_walkN.mp
    exact ⟨q, hq, by omega⟩
  have h1 : d ≤ q.length - 1 := hdmin _ hqw
  have hlq : q.length = d + 1 := by omega
  exact ⟨d, q, hq, hlq, hqnd, hdmin⟩

lemma s_mem_uniL (G : Graph) (s t : Node) : s ∈ uniL G s t := by
  simp [uniL]

lemma t_mem_uniL (G : Graph) (s t : Node) : t ∈ uniL G s t := by
  simp [uniL]

lemma edge_mem_uniL {G : Graph} {s t u v : Node} (h : (u, v) ∈ G.edges) :
    u ∈ uniL G s t ∧ v ∈ uniL G s t := by
  unfold uniL
  constructor
  · rw [List.mem_dedup]
    apply List.mem_cons_of_mem
    apply List.mem_cons_of_mem
    exact List.mem_append_left _ (List.mem_map.mpr ⟨(u, v), h, rfl⟩)
  · rw [List.mem_dedup]
    apply List.mem_cons_of_mem
    apply List.mem_cons_of_mem
    exact List.mem_append_right _ (List.mem_map.mpr ⟨(u, v), h, rfl⟩)

lemma stepB_mem_uniL {G : Graph} {s t u v : Node} (h : G.stepB u v = true) :
    u ∈ uniL G s t ∧ v ∈ uniL G s t := by
  unfold Graph.stepB at h
  split at h
  · have := of_decide_eq_true h
    exact edge_mem_uniL this
  · rw [Bool.or_eq_true] at h
    rcases h with h | h
    · exact edge_mem_uniL (of_decide_eq_true h)
    · have := edge_mem_uniL (s := s) (t := t) (of_decide_eq_true h)
      exact ⟨this.2, this.1⟩

lemma symB_mem_uniL {G : Graph} {s t u v : Node} (h : symB G u v = true) :
    u ∈ uniL G s t ∧ v ∈ uniL G s t := by
  unfold symB at h
  rw [Bool.or_eq_true] at h
  rcases h with h | h
  · exact edge_mem_uniL (of_decide_eq_true h)
  · have := edge_mem_uniL (s := s) (t := t) (of_decide_eq_true h)
    exact ⟨this.2, this.1⟩

/-- Core correctness of the reachability loop with sufficient fuel. -/
lemma hpLoop_iff_reachable {nbr : Bool → Node → List Node}
    {A : Node → Node → Bool} {G : Graph} {s t : Node}
    (hn0 : ∀ u v, v ∈ nbr false u ↔ A u v = true)
    (hn1 : ∀ u v, v ∈ nbr true u ↔ A v u = true)
    (hsupp : ∀ u v, A u v = true → u ∈ uniL G s t ∧ v ∈ uniL G s t)
    (hst : s ≠ t) :
    hpLoop nbr (fuelN G s t) (hpInit s t) = true ↔ Reachable A s t := by
  constructor
  · intro h
    obtain ⟨n, hw⟩ := hpLoop_sound hn0 hn1 _ _ 0 0 hpLayers_init h
    exact reachable_iff_exists_walkN.mpr ⟨n, hw⟩
  · intro h
    obtain ⟨d, p, hp, hlen, hnd, hmin⟩ := exists_min_nodup_path h
    have hd1 : 1 ≤ d := by
      by_contra hd0
      have hdz : d = 0 := by omega
      subst hdz
      have hp1 : p.length = 1 := by omega
      cases p with
      | nil => simp at hp1
      | cons x rest =>
        have : rest = [] := by
          cases rest with
          | nil => rfl
          | cons y l => simp at hp1
        subst this
        have hxs : x = s := by simpa using hp.1
        have hxt : x = t := by simpa using hp.2.1
        exact hst (hxs ▸ hxt ▸ rfl)
    have hsub : ∀ x ∈ p, x ∈ uniL G s t := by
      intro x hx
      rcases chain_mem_support p hp.2.2 x hx with hh | ⟨u, hu⟩
      · rw [hp.1] at hh
        injection hh with hh
        rw [← hh]
        exact s_mem_uniL G s t
      · exact (hsupp u x hu).2
    have hbound : p.length ≤ (uniL G s t).length := nodup_subset_length hnd hsub
    refine hpLoop_complete hn0 hn1 hp hlen hmin (fuelN G s t) 0 0 _
      hpLayers_init (by omega) ?_
    unfold fuelN
    omega

/-- Claim C1 (amended): for source ≠ target, on every well-behaved dispatch
case — directed or undirected simple graphs, and undirected multigraphs —
`bidirectional_has_path` returns `true` exactly when a path from source to
target exists under the graph's step relation (the reference reachability
check); the operation returns only this boolean, never path content.  The
excluded cases are the two the code genuinely breaks: source = target, and
directed multigraphs, whose engine enumerates incident edges ignoring
direction. -/
theorem hasPath_agrees_reachability (G : Graph) (s t : Node) (hst : s ≠ t)
    (hdm : ¬(G.directed = true ∧ G.multi = true))
    (hs : s ∈ G.nodes) (ht : t ∈ G.nodes) (b : Bool)
    (h : bidirectional_has_path G s t = .ok b) :
    b = true ↔ Reachable G.stepB s t := by
  unfold bidirectional_has_path at h
  rw [if_neg (by simpa using hs), if_neg (by simpa using ht)] at h
  injection h with h
  by_cases hm : G.multi = true
  · have hd : G.directed = false := by
      cases hdir : G.directed
      · rfl
      · exact absurd ⟨hdir, hm⟩ hdm
    rw [if_pos hm] at h
    subst h
    unfold _bidirectional_has_path_multi
    rw [stepB_eq_symB hd]
    exact hpLoop_iff_reachable (A := symB G)
      (fun u v => mem_incident_symB)
      (fun u v => by rw [mem_incident_symB, symB_comm])
      (fun u v hsx => symB_mem_uniL hsx) hst
  · rw [if_neg hm] at h
    subst h
    unfold _bidirectional_has_path
    exact hpLoop_iff_reachable (A := G.stepB)
      (fun u v => mem_neighbors_false)
      (fun u v => mem_neighbors_true)
      (fun u v hsx => stepB_mem_uniL hsx) hst

/-- Claim C1 counterexample: the claim fails as stated on two concrete
inputs.  On a one-node graph with source = target, `hasPath` returns `false`
although the trivial path exists; on a directed multigraph with the single
edge 1 → 0, `hasPath(0, 1)` returns `true` although no directed path from 0
to 1 exists, because the multigraph engine enumerates incident edges
direction-agnostically. -/
theorem hasPath_claim_cex :
    (bidirectional_has_path ⟨[0], [], false, false⟩ 0 0 = .ok false ∧
      Reachable (Graph.stepB ⟨[0], [], false, false⟩) 0 0) ∧
    (bidirectional_has_path ⟨[0, 1], [(1, 0)], true, true⟩ 0 1 = .ok true ∧
      ¬ Reachable (Graph.stepB ⟨[0, 1], [(1, 0)], true, true⟩) 0 1) := by
  refine ⟨⟨by rfl, ⟨[0], rfl, rfl, List.chain'_singleton 0⟩⟩,
    ⟨by rfl, ?_⟩⟩
  rintro ⟨p, hh, hl, hc⟩
  cases p with
  | nil => simp at hh
  | cons x rest =>
    have hx : x = 0 := by simpa using hh
    subst hx
    cases rest with
    | nil => simp at hl
    | cons y rest2 =>
      have hstep := (List.chain'_cons.mp hc).1
      simp [Graph.stepB] at hstep

/-- Witness for the amended reachability theorem on the single-edge graph
0 — 1, discharging every hypothesis at concrete inputs. -/
theorem hasPath_agrees_reachability_witness :
    Reachable (Graph.stepB ⟨[0, 1], [(0, 1)], false, false⟩) 0 1 := by
  exact (hasPath_agrees_reachability ⟨[0, 1], [(0, 1)], false, false⟩ 0 1
    (by decide) (by simp) (by decide) (by decide) true (by rfl)).mp rfl

end BidirSearch

namespace BidirSearch

/-! ## Claims C2 and C4: shortest-path frontiers are exact simple-path sets -/

/-- Exact frontier of the shortest-path engines: membership is exactly the
duplicate-free anchored chains of the round's uniform length.  (The source
never prunes by seen set — the pruning line is commented out — so frontiers
hold all simple paths of the current length.) -/
def FrontExact (A : Node → Node → Bool) (anch : Node) (L : Nat)
    (l : List Path) : Prop :=
  ∀ p, p ∈ l ↔ (p.length = L ∧ p.head? = some anch ∧ p.Nodup ∧ IsChain A p)

/-- A full source-to-target simple chain of a given node count. -/
def SPathLen (A : Node → Node → Bool) (s t : Node) (n : Nat) (q : Path) :
    Prop :=
  q.length = n ∧ q.head? = some s ∧ q.getLast? = some t ∧ q.Nodup ∧ IsChain A q

lemma head?_take {l : List Node} {n : Nat} (hn : 1 ≤ n) :
    (l.take n).head? = l.head? := by
  cases l with
  | nil => simp
  | cons x xs =>
    cases n with
    | zero => omega
    | succ k => simp

lemma chain_append_singleton {A : Node → Node → Bool} {p : Path} {v : Node}
    (hpne : p ≠ []) :
    IsChain A (p ++ [v]) ↔ (IsChain A p ∧ A (lastD p) v = true) := by
  unfold IsChain
  rw [List.chain'_append]
  constructor
  · rintro ⟨h1, _, h3⟩
    refine ⟨h1, h3 (lastD p) ?_ v (by simp)⟩
    rw [getLast?_eq_lastD hpne]
    simp
  · rintro ⟨h1, h2⟩
    refine ⟨h1, List.chain'_singleton _, ?_⟩
    intro y hy z hz
    rw [getLast?_eq_lastD hpne] at hy
    simp at hy hz
    subst hy
    subst hz
    exact h2

lemma extendAll_exact {nbr : Bool → Node → List Node} {m : Bool}
    {A : Node → Node → Bool} {anch : Node} {L : Nat} {l : List Path}
    (hn : ∀ u v, v ∈ nbr m u ↔ A u v = true)
    (h : FrontExact A anch L l) (hL : 1 ≤ L) :
    ∀ p', p' ∈ extendAll nbr m l ↔
      (p'.length = L + 1 ∧ p'.head? = some anch ∧ p'.Nodup ∧ IsChain A p') := by
  intro p'
  rw [mem_extendAll]
  constructor
  · rintro ⟨p, hp, v, hv, hvp, rfl⟩
    obtain ⟨hlen, hh, hnd, hcp⟩ := (h p).mp hp
    have hpne : p ≠ [] := by
      intro hh'
      rw [hh'] at hlen
      simp at hlen
      omega
    refine ⟨by simp [hlen], by simp [List.head?_append, hh], ?_, ?_⟩
    · rw [List.nodup_append]
      refine ⟨hnd, List.nodup_singleton _, ?_⟩
      intro a ha hav
      simp at hav
      subst hav
      exact hvp ha
    · exact (chain_append_singleton hpne).mpr ⟨hcp, (hn _ v).mp hv⟩
  · rintro ⟨hlen, hh, hnd, hcp⟩
    have hne : p' ≠ [] := by
      intro hh'
      rw [hh'] at hlen
      simp at hlen
    have hdecomp : p'.dropLast ++ [p'.getLast hne] = p' :=
      List.dropLast_append_getLast hne
    have hqlen : p'.dropLast.length = L := by
      have := List.length_dropLast p'
      omega
    have hqne : p'.dropLast ≠ [] := by
      intro hh'
      rw [hh'] at hqlen
      simp at hqlen
      omega
    have hchain2 : IsChain A (p'.dropLast ++ [p'.getLast hne]) := by
      rwa [hdecomp]
    rw [chain_append_singleton hqne] at hchain2
    have hnd2 : (p'.dropLast ++ [p'.getLast hne]).Nodup := by
      rwa [hdecomp]
    rw [List.nodup_append] at hnd2
    refine ⟨p'.dropLast, (h _).mpr ⟨hqlen, ?_, hnd2.1, hchain2.1⟩,
      p'.getLast hne, (hn _ _).mpr hchain2.2, ?_, hdecomp.symm⟩
    · rw [List.head?_dropLast]
      rw [if_pos (by omega)]
      exact hh
    · intro hmem
      exact hnd2.2.2 hmem (by simp)

end BidirSearch

namespace BidirSearch

lemma isChain_reverse {A : Node → Node → Bool} {p : Path} :
    IsChain A p.reverse ↔ IsChain (flipB A) p := by
  unfold IsChain flipB
  rw [List.chain'_reverse]
  rfl

lemma mem_of_head? {l : List Node} {x : Node} (h : l.head? = some x) : x ∈ l := by
  cases l with
  | nil => simp at h
  | cons a as =>
    simp at h
    simp [h]

lemma mem_of_getLast? {l : List Node} {x : Node} (h : l.getLast? = some x) :
    x ∈ l := by
  cases hl : l with
  | nil => subst hl; simp at h
  | cons a as =>
    subst hl
    have hne : a :: as ≠ [] := by simp
    have h2 := List.getLast?_eq_getLast (a :: as) hne
    rw [h2] at h
    injection h with h
    rw [← h]
    exact List.getLast_mem hne

/-- Yields of a source-side expansion round are exactly the full simple
source-to-target chains of the two frontiers' combined length. -/
lemma ssYields_exact_false {nbr : Bool → Node → List Node}
    {A : Node → Node → Bool} {gate : Node → Bool} {s t : Node}
    {Ls Lt : Nat} {ts tt : List Path}
    (hn : ∀ u v, v ∈ nbr false u ↔ A u v = true)
    (hS : FrontExact A s Ls ts) (hT : FrontExact (flipB A) t Lt tt)
    (hgate : ∀ pt ∈ tt, gate (lastD pt) = true)
    (hLs : 1 ≤ Ls) (hLt : 1 ≤ Lt) :
    ∀ q, q ∈ ssYields nbr false gate ts tt ↔ SPathLen A s t (Ls + Lt) q := by
  intro q
  rw [mem_ssYields]
  constructor
  · rintro ⟨ps, hps, v, hv, hvp, _, pt, hpt, hlastpt, hdisj, rfl⟩
    obtain ⟨hlps, hhps, hndps, hcps⟩ := (hS ps).mp hps
    obtain ⟨hlpt, hhpt, hndpt, hcpt⟩ := (hT pt).mp hpt
    have hpsne : ps ≠ [] := by
      intro hh
      rw [hh] at hlps
      simp at hlps
      omega
    have hptne : pt ≠ [] := by
      intro hh
      rw [hh] at hlpt
      simp at hlpt
      omega
    have hptr : pt.reverse ≠ [] := by simpa using hptne
    show SPathLen A s t (Ls + Lt) (stitch false ps pt)
    unfold stitch
    simp only [Bool.false_eq_true, if_false]
    refine ⟨by simp [hlps, hlpt], by simp [List.head?_append, hhps], ?_, ?_, ?_⟩
    · rw [List.getLast?_append_of_ne_nil _ hptr]
      simpa using hhpt
    · rw [List.nodup_append]
      refine ⟨hndps, List.nodup_reverse.mpr hndpt, ?_⟩
      intro a ha har
      rw [List.mem_reverse] at har
      exact hdisj a har ha
    · unfold IsChain
      rw [List.chain'_append]
      refine ⟨hcps, isChain_reverse.mpr hcpt, ?_⟩
      intro y hy z hz
      rw [getLast?_eq_lastD hpsne] at hy
      rw [List.head?_reverse, getLast?_eq_lastD hptne] at hz
      simp at hy hz
      subst hy
      subst hz
      rw [hlastpt]
      exact (hn _ _).mp hv
  · rintro ⟨hlen, hh, hl, hnd, hch⟩
    have hq : q.take Ls ++ q.drop Ls = q := List.take_append_drop Ls q
    have hlps : (q.take Ls).length = Ls := by
      rw [List.length_take]
      omega
    have hlrest : (q.drop Ls).length = Lt := by
      rw [List.length_drop]
      omega
    have hrestne : q.drop Ls ≠ [] := by
      intro hh'
      rw [hh'] at hlrest
      simp at hlrest
      omega
    have hpsne : q.take Ls ≠ [] := by
      intro hh'
      rw [hh'] at hlps
      simp at hlps
      omega
    have hch2 : IsChain A (q.take Ls ++ q.drop Ls) := by
      unfold IsChain
      rw [hq]
      exact hch
    unfold IsChain at hch2
    rw [List.chain'_append] at hch2
    obtain ⟨hcps, hcrest, hlink⟩ := hch2
    have hnd2 : (q.take Ls ++ q.drop Ls).Nodup := by rwa [hq]
    rw [List.nodup_append] at hnd2
    obtain ⟨hndps, hndrest, hdisj⟩ := hnd2
    have hhps : (q.take Ls).head? = some s := by
      rw [head?_take hLs]
      exact hh
    have hlrest' : (q.drop Ls).getLast? = some t := by
      have hl2 : (q.take Ls ++ q.drop Ls).getLast? = some t := by rwa [hq]
      rwa [List.getLast?_append_of_ne_nil _ hrestne] at hl2
    have hpsmem : q.take Ls ∈ ts :=
      (hS _).mpr ⟨hlps, hhps, hndps, hcps⟩
    have hptmem : (q.drop Ls).reverse ∈ tt := by
      refine (hT _).mpr ⟨by simp [hlrest], ?_, List.nodup_reverse.mpr hndrest, ?_⟩
      · rw [List.head?_reverse]
        exact hlrest'
      · exact isChain_reverse.mpr hcrest
    have hvhead : (q.drop Ls).head? = some (lastD ((q.drop Ls).reverse)) := by
      have := getLast?_eq_lastD (p := (q.drop Ls).reverse) (by simpa using hrestne)
      rwa [List.getLast?_reverse] at this
    have hvmem : lastD ((q.drop Ls).reverse) ∈ q.drop Ls := mem_of_head? hvhead
    refine ⟨q.take Ls, hpsmem, lastD ((q.drop Ls).reverse), ?_, ?_, ?_,
      (q.drop Ls).reverse, hptmem, rfl, ?_, ?_⟩
    · refine (hn _ _).mpr ?_
      refine hlink (lastD (q.take Ls)) ?_ _ hvhead
      rw [getLast?_eq_lastD hpsne]
      simp
    · intro hmem
      exact hdisj hmem hvmem
    · exact hgate _ hptmem
    · intro x hx
      rw [List.mem_reverse] at hx
      intro hxp
      exact hdisj hxp hx
    · unfold stitch
      simp only [Bool.false_eq_true, if_false]
      rw [List.reverse_reverse]
      exact hq.symm

/-- Yields of a target-side expansion round are exactly the full simple
source-to-target chains of the two frontiers' combined length. -/
lemma ssYields_exact_true {nbr : Bool → Node → List Node}
    {A : Node → Node → Bool} {gate : Node → Bool} {s t : Node}
    {Ls Lt : Nat} {ts tt : List Path}
    (hn : ∀ u v, v ∈ nbr true u ↔ A v u = true)
    (hS : FrontExact (flipB A) t Ls ts) (hT : FrontExact A s Lt tt)
    (hgate : ∀ pt ∈ tt, gate (lastD pt) = true)
    (hLs : 1 ≤ Ls) (hLt : 1 ≤ Lt) :
    ∀ q, q ∈ ssYields nbr true gate ts tt ↔ SPathLen A s t (Lt + Ls) q := by
  intro q
  rw [mem_ssYields]
  constructor
  · rintro ⟨ps, hps, v, hv, hvp, _, pt, hpt, hlastpt, hdisj, rfl⟩
    obtain ⟨hlps, hhps, hndps, hcps⟩ := (hS ps).mp hps
    obtain ⟨hlpt, hhpt, hndpt, hcpt⟩ := (hT pt).mp hpt
    have hpsne : ps ≠ [] := by
      intro hh
      rw [hh] at hlps
      simp at hlps
      omega
    have hptne : pt ≠ [] := by
      intro hh
      rw [hh] at hlpt
      simp at hlpt
      omega
    have hpsr : ps.reverse ≠ [] := by simpa using hpsne
    show SPathLen A s t (Lt + Ls) (stitch true ps pt)
    unfold stitch
    simp only [if_true]
    refine ⟨by simp [hlps, hlpt], by simp [List.head?_append, hhpt], ?_, ?_, ?_⟩
    · rw [List.getLast?_append_of_ne_nil _ hpsr]
      simpa using hhps
    · rw [List.nodup_append]
      refine ⟨hndpt, List.nodup_reverse.mpr hndps, ?_⟩
      intro a ha har
      rw [List.mem_reverse] at har
      exact hdisj a ha har
    · unfold IsChain
      rw [List.chain'_append]
      refine ⟨hcpt, isChain_reverse.mpr hcps, ?_⟩
      intro y hy z hz
      rw [getLast?_eq_lastD hptne] at hy
      rw [List.head?_reverse, getLast?_eq_lastD hpsne] at hz
      simp at hy hz
      subst hy
      subst hz
      rw [hlastpt]
      exact (hn _ _).mp hv
  · rintro ⟨hlen, hh, hl, hnd, hch⟩
    have hq : q.take Lt ++ q.drop Lt = q := List.take_append_drop Lt q
    have hlpt : (q.take Lt).length = Lt := by
      rw [List.length_take]
      omega
    have hlrest : (q.drop Lt).length = Ls := by
      rw [List.length_drop]
      omega
    have hrestne : q.drop Lt ≠ [] := by
      intro hh'
      rw [hh'] at hlrest
      simp at hlrest
      omega
    have hptne : q.take Lt ≠ [] := by
      intro hh'
      rw [hh'] at hlpt
      simp at hlpt
      omega
    have hch2 : IsChain A (q.take Lt ++ q.drop Lt) := by
      unfold IsChain
      rw [hq]
      exact hch
    unfold IsChain at hch2
    rw [List.chain'_append] at hch2
    obtain ⟨hcpt, hcrest, hlink⟩ := hch2
    have hnd2 : (q.take Lt ++ q.drop Lt).Nodup := by rwa [hq]
    rw [List.nodup_append] at hnd2
    obtain ⟨hndpt, hndrest, hdisj⟩ := hnd2
    have hhpt : (q.take Lt).head? = some s := by
      rw [head?_take hLt]
      exact hh
    have hlrest' : (q.drop Lt).getLast? = some t := by
      have hl2 : (q.take Lt ++ q.drop Lt).getLast? = some t := by rwa [hq]
      rwa [List.getLast?_append_of_ne_nil _ hrestne] at hl2
    have hptmem : q.take Lt ∈ tt :=
      (hT _).mpr ⟨hlpt, hhpt, hndpt, hcpt⟩
    have hpsmem : (q.drop Lt).reverse ∈ ts := by
      refine (hS _).mpr ⟨by simp [hlrest], ?_, List.nodup_reverse.mpr hndrest, ?_⟩
      · rw [List.head?_reverse]
        exact hlrest'
      · exact isChain_reverse.mpr hcrest
    have hresthead : (q.drop Lt).head? = some (lastD ((q.drop Lt).reverse)) := by
      have := getLast?_eq_lastD (p := (q.drop Lt).reverse) (by simpa using hrestne)
      rwa [List.getLast?_reverse] at this
    have hrestmem : lastD ((q.drop Lt).reverse) ∈ q.drop Lt := mem_of_head? hresthead
    have hvlast : lastD (q.take Lt) ∈ q.take Lt :=
      mem_of_getLast? (getLast?_eq_lastD hptne)
    refine ⟨(q.drop Lt).reverse, hpsmem, lastD (q.take Lt), ?_, ?_, ?_,
      q.take Lt, hptmem, rfl, ?_, ?_⟩
    · refine (hn _ _).mpr ?_
      refine hlink (lastD (q.take Lt)) ?_ _ hresthead
      rw [getLast?_eq_lastD hptne]
      simp
    · intro hmem
      rw [List.mem_reverse] at hmem
      exact hdisj hvlast hmem
    · exact hgate _ hptmem
    · intro x hx hxr
      rw [List.mem_reverse] at hxr
      exact hdisj hx hxr
    · unfold stitch
      simp only [if_true]
      rw [List.reverse_reverse]
      exact hq.symm

end BidirSearch

namespace BidirSearch

/-- Shape of a member of the per-neighbor yield list inside `ssYields`. -/
lemma ssYields_inner_shape {gate : Node → Bool} {tt : List Path}
    {m : Bool} {ps : Path} {v : Node} {q : Path}
    (hq : q ∈ (if v ∈ ps then []
      else if gate v then
        (tt.filter (fun pt =>
          lastD pt == v && pt.all (fun x => decide (x ∉ ps)))).map (stitch m ps)
      else [])) :
    ∃ pt ∈ tt, lastD pt = v ∧ q = stitch m ps pt := by
  by_cases hvp : v ∈ ps
  · simp [hvp] at hq
  · rw [if_neg hvp] at hq
    by_cases hg : gate v = true
    · rw [if_pos hg] at hq
      rw [List.mem_map] at hq
      obtain ⟨pt, hpt, rfl⟩ := hq
      rw [List.mem_filter] at hpt
      obtain ⟨hpt, hcond⟩ := hpt
      rw [Bool.and_eq_true] at hcond
      exact ⟨pt, hpt, beq_iff_eq.mp hcond.1, rfl⟩
    · rw [if_neg hg] at hq
      simp at hq

/-- Yields of a source-side round repeat no path: the expanding frontier, the
neighbor lists and the opposite frontier are duplicate-free, and a stitched
path determines its three generators. -/
lemma ssYields_nodup_false {nbr : Bool → Node → List Node}
    {A : Node → Node → Bool} {gate : Node → Bool} {s : Node}
    {Ls : Nat} {ts tt : List Path}
    (hS : FrontExact A s Ls ts) (hts : ts.Nodup) (htt : tt.Nodup)
    (hnbr : ∀ u, (nbr false u).Nodup) :
    (ssYields nbr false gate ts tt).Nodup := by
  unfold ssYields
  rw [List.nodup_flatMap]
  constructor
  · intro ps _
    rw [List.nodup_flatMap]
    constructor
    · intro v _
      by_cases hvp : v ∈ ps
      · simp [hvp]
      · rw [if_neg hvp]
        by_cases hg : gate v = true
        · rw [if_pos hg]
          refine (htt.filter _).map ?_
          intro a b hab
          unfold stitch at hab
          simp only [Bool.false_eq_true, if_false] at hab
          have := List.append_cancel_left hab
          exact List.reverse_injective this
        · rw [if_neg hg]
          exact List.nodup_nil
    · refine (hnbr (lastD ps)).pairwise_of_forall_ne ?_
      intro v hv v' hv' hne q hqv hqv'
      obtain ⟨pt, hpt, hlv, rfl⟩ := ssYields_inner_shape hqv
      obtain ⟨pt', hpt', hlv', heq⟩ := ssYields_inner_shape hqv'
      unfold stitch at heq
      simp only [Bool.false_eq_true, if_false] at heq
      have h2 := List.append_cancel_left heq
      have h3 := List.reverse_injective h2
      subst h3
      exact hne (hlv.symm.trans hlv')
  · refine hts.pairwise_of_forall_ne ?_
    intro ps hps ps' hps' hne q hq hq'
    rw [List.mem_flatMap] at hq hq'
    obtain ⟨v, _, hqv⟩ := hq
    obtain ⟨v', _, hqv'⟩ := hq'
    obtain ⟨pt, _, _, rfl⟩ := ssYields_inner_shape hqv
    obtain ⟨pt', _, _, heq⟩ := ssYields_inner_shape hqv'
    unfold stitch at heq
    simp only [Bool.false_eq_true, if_false] at heq
    have hlen : ps.length = ps'.length := by
      have h1 := ((hS ps).mp hps).1
      have h2 := ((hS ps').mp hps').1
      omega
    have := List.append_inj heq hlen
    exact hne this.1

/-- Yields of a target-side round repeat no path. -/
lemma ssYields_nodup_true {nbr : Bool → Node → List Node}
    {A : Node → Node → Bool} {gate : Node → Bool} {s : Node}
    {Lt : Nat} {ts tt : List Path}
    (hT : FrontExact A s Lt tt) (hts : ts.Nodup) (htt : tt.Nodup)
    (hnbr : ∀ u, (nbr true u).Nodup) :
    (ssYields nbr true gate ts tt).Nodup := by
  unfold ssYields
  rw [List.nodup_flatMap]
  constructor
  · intro ps _
    rw [List.nodup_flatMap]
    constructor
    · intro v _
      by_cases hvp : v ∈ ps
      · simp [hvp]
      · rw [if_neg hvp]
        by_cases hg : gate v = true
        · rw [if_pos hg]
          refine (htt.filter _).map ?_
          intro a b hab
          unfold stitch at hab
          simp only [if_true] at hab
          exact List.append_cancel_right hab
        · rw [if_neg hg]
          exact List.nodup_nil
    · refine (hnbr (lastD ps)).pairwise_of_forall_ne ?_
      intro v hv v' hv' hne q hqv hqv'
      obtain ⟨pt, hpt, hlv, rfl⟩ := ssYields_inner_shape hqv
      obtain ⟨pt', hpt', hlv', heq⟩ := ssYields_inner_shape hqv'
      unfold stitch at heq
      simp only [if_true] at heq
      have hlen : pt.length = pt'.length := by
        have h1 := ((hT pt).mp hpt).1
        have h2 := ((hT pt').mp hpt').1
        omega
      have := List.append_inj heq hlen
      have h3 := this.1
      subst h3
      exact hne (hlv.symm.trans hlv')
  · refine hts.pairwise_of_forall_ne ?_
    intro ps hps ps' hps' hne q hq hq'
    rw [List.mem_flatMap] at hq hq'
    obtain ⟨v, _, hqv⟩ := hq
    obtain ⟨v', _, hqv'⟩ := hq'
    obtain ⟨pt, hpt, _, rfl⟩ := ssYields_inner_shape hqv
    obtain ⟨pt', hpt', _, heq⟩ := ssYields_inner_shape hqv'
    unfold stitch at heq
    simp only [if_true] at heq
    have hlen : pt.length = pt'.length := by
      have h1 := ((hT pt).mp hpt).1
      have h2 := ((hT pt').mp hpt').1
      omega
    have h2 := List.append_inj heq hlen
    have h3 := h2.2
    have h4 := List.reverse_injective h3
    exact hne h4

end BidirSearch

namespace BidirSearch

lemma frontExact_init {A : Node → Node → Bool} (a : Node) :
    FrontExact A a 1 [[a]] := by
  intro p
  constructor
  · intro hp
    simp at hp
    subst hp
    exact ⟨rfl, rfl, List.nodup_singleton _, List.chain'_singleton _⟩
  · rintro ⟨hlen, hh, _, _⟩
    cases p with
    | nil => simp at hlen
    | cons x rest =>
      have hr : rest = [] := by
        cases rest with
        | nil => rfl
        | cons y l => simp at hlen
      subst hr
      have hx : x = a := by simpa using hh
      subst hx
      simp

/-- Invariant of the simple-graph shortest-path loop. -/
def SSInv (A : Node → Node → Bool) (s t : Node) (L0 L1 : Nat)
    (st : SSState) : Prop :=
  FrontExact A s L0 st.t0 ∧ FrontExact (flipB A) t L1 st.t1 ∧
  (∀ p ∈ st.t0, lastD p ∈ st.n0) ∧ (∀ p ∈ st.t1, lastD p ∈ st.n1) ∧
  st.t0.Nodup ∧ st.t1.Nodup ∧ 1 ≤ L0 ∧ 1 ≤ L1

lemma ssRound_exact {nbr : Bool → Node → List Node} {A : Node → Node → Bool}
    {s t : Node} {L0 L1 : Nat} {st : SSState}
    (hn0 : ∀ u v, v ∈ nbr false u ↔ A u v = true)
    (hn1 : ∀ u v, v ∈ nbr true u ↔ A v u = true)
    (hnbr : ∀ m u, (nbr m u).Nodup)
    (hinv : SSInv A s t L0 L1 st) :
    ∃ L0' L1' ys, L0' + L1' = L0 + L1 + 1 ∧
      SSInv A s t L0' L1' (ssRound nbr st) ∧
      (ssRound nbr st).acc = st.acc ++ ys ∧
      (∀ q, q ∈ ys ↔ SPathLen A s t (L0 + L1) q) ∧
      ys.Nodup ∧
      (ssRound nbr st).found = (st.found || !ys.isEmpty) := by
  obtain ⟨h0, h1, he0, he1, hnd0, hnd1, hL0, hL1⟩ := hinv
  by_cases hc : st.t1.length < st.t0.length
  · rw [ssRound_eq_pos hc]
    refine ⟨L0, L1 + 1,
      ssYields nbr true (fun v => decide (v ∈ st.n0)) st.t1 st.t0,
      by omega, ?_, rfl, ?_, ?_, rfl⟩
    · refine ⟨h0, ?_, he0, ?_, hnd0, List.nodup_dedup _, hL0, by omega⟩
      · intro p
        rw [List.mem_dedup]
        exact extendAll_exact (m := true) (fun u v => hn1 u v) h1 hL1 p
      · intro p hp
        rw [List.mem_dedup] at hp
        exact mem_unionS.mpr (Or.inr (List.mem_map.mpr ⟨p, hp, rfl⟩))
    · intro q
      rw [ssYields_exact_true (A := A) (fun u v => hn1 u v) h1 h0
        (fun pt hpt => decide_eq_true (he0 pt hpt)) hL1 hL0 q]
    · exact ssYields_nodup_true (A := A) h0 hnd1 hnd0 (fun u => hnbr true u)
  · rw [ssRound_eq_neg hc]
    refine ⟨L0 + 1, L1,
      ssYields nbr false (fun v => decide (v ∈ st.n1)) st.t0 st.t1,
      by omega, ?_, rfl, ?_, ?_, rfl⟩
    · refine ⟨?_, h1, ?_, he1, List.nodup_dedup _, hnd1, by omega, hL1⟩
      · intro p
        rw [List.mem_dedup]
        exact extendAll_exact (m := false) hn0 h0 hL0 p
      · intro p hp
        rw [List.mem_dedup] at hp
        exact mem_unionS.mpr (Or.inr (List.mem_map.mpr ⟨p, hp, rfl⟩))
    · intro q
      rw [ssYields_exact_false (A := A) hn0 h0 h1
        (fun pt hpt => decide_eq_true (he1 pt hpt)) hL0 hL1 q]
    · exact ssYields_nodup_false (A := A) h0 hnd0 hnd1 (fun u => hnbr false u)

lemma ssLoop_found_stop {nbr : Bool → Node → List Node} {fuel : Nat}
    {st : SSState} (hf : st.found = true) : ssLoop nbr fuel st = st := by
  cases fuel with
  | zero => rfl
  | succ f =>
    unfold ssLoop
    rw [if_pos (by simp [hf])]

lemma ssLoop_unreach {nbr : Bool → Node → List Node} {A : Node → Node → Bool}
    {s t : Node}
    (hn0 : ∀ u v, v ∈ nbr false u ↔ A u v = true)
    (hn1 : ∀ u v, v ∈ nbr true u ↔ A v u = true)
    (hnbr : ∀ m u, (nbr m u).Nodup)
    (hur : ¬ Reachable A s t) :
    ∀ (fuel : Nat) (st : SSState) (L0 L1 : Nat), SSInv A s t L0 L1 st →
      (ssLoop nbr fuel st).found = st.found ∧
      (ssLoop nbr fuel st).acc = st.acc := by
  intro fuel
  induction fuel with
  | zero => intro st _ _ _; exact ⟨rfl, rfl⟩
  | succ f ih =>
    intro st L0 L1 hinv
    unfold ssLoop
    split
    · exact ⟨rfl, rfl⟩
    · obtain ⟨L0', L1', ys, hsum, hinv', hacc, hmem, hnd, hfound⟩ :=
        ssRound_exact hn0 hn1 hnbr hinv
      have hys : ys = [] := by
        rw [List.eq_nil_iff_forall_not_mem]
        intro q hq
        obtain ⟨_, hh, hl, _, hqch⟩ := (hmem q).mp hq
        exact hur ⟨q, hh, hl, hqch⟩
      obtain ⟨hf', ha'⟩ := ih (ssRound nbr st) L0' L1' hinv'
      rw [hf', ha', hacc, hfound, hys]
      exact ⟨by simp, by simp⟩

lemma ssLoop_meet {nbr : Bool → Node → List Node} {A : Node → Node → Bool}
    {s t : Node} {d : Nat} {p0 : Path}
    (hn0 : ∀ u v, v ∈ nbr false u ↔ A u v = true)
    (hn1 : ∀ u v, v ∈ nbr true u ↔ A v u = true)
    (hnbr : ∀ m u, (nbr m u).Nodup)
    (hp0 : IsPathTo A s t p0) (hlen0 : p0.length = d + 1) (hnd0 : p0.Nodup)
    (hmin : ∀ m, WalkN A m s t → d ≤ m) :
    ∀ (fuel : Nat) (st : SSState) (L0 L1 : Nat), SSInv A s t L0 L1 st →
      st.found = false → L0 + L1 ≤ d + 1 → d + 2 - (L0 + L1) ≤ fuel →
      ∃ Y, (ssLoop nbr fuel st).acc = st.acc ++ Y ∧
        (∀ q, q ∈ Y ↔ SPathLen A s t (d + 1) q) ∧ Y.Nodup ∧
        (ssLoop nbr fuel st).found = true := by
  intro fuel
  induction fuel with
  | zero => intro st L0 L1 _ _ hsum hfuel; omega
  | succ f ih =>
    intro st L0 L1 hinv hf hsum hfuel
    obtain ⟨h0, h1, he0, he1, hnd0t, hnd1t, hL0, hL1⟩ := hinv
    have hm0 : p0.take L0 ∈ st.t0 := by
      refine (h0 _).mpr ⟨?_, ?_, ?_, ?_⟩
      · rw [List.length_take]
        omega
      · rw [head?_take hL0]
        exact hp0.1
      · exact List.Nodup.sublist (List.take_sublist _ _) hnd0
      · exact List.Chain'.take hp0.2.2 _
    have hdne : p0.drop (d + 1 - L1) ≠ [] := by
      intro hh
      have := congrArg List.length hh
      simp [List.length_drop] at this
      omega
    have hm1 : (p0.drop (d + 1 - L1)).reverse ∈ st.t1 := by
      refine (h1 _).mpr ⟨?_, ?_, ?_, ?_⟩
      · simp [List.length_drop]
        omega
      · rw [List.head?_reverse]
        have hq : p0.take (d + 1 - L1) ++ p0.drop (d + 1 - L1) = p0 :=
          List.take_append_drop _ _
        have hl2 : (p0.take (d + 1 - L1) ++ p0.drop (d + 1 - L1)).getLast?
            = some t := by
          rw [hq]
          exact hp0.2.1
        rwa [List.getLast?_append_of_ne_nil _ hdne] at hl2
      · exact List.nodup_reverse.mpr
          (List.Nodup.sublist (List.drop_sublist _ _) hnd0)
      · exact isChain_reverse.mpr (List.Chain'.drop hp0.2.2 _)
    unfold ssLoop
    rw [if_neg ?hguard]
    case hguard =>
      intro hcontra
      rw [hf] at hcontra
      simp at hcontra
      rcases hcontra with he | he
      · rw [he] at hm0
        simp at hm0
      · rw [he] at hm1
        simp at hm1
    obtain ⟨L0', L1', ys, hsum', hinv', hacc, hmem, hndys, hfound⟩ :=
      ssRound_exact hn0 hn1 hnbr
        ⟨h0, h1, he0, he1, hnd0t, hnd1t, hL0, hL1⟩
    by_cases hcase : L0 + L1 ≤ d
    · have hys : ys = [] := by
        rw [List.eq_nil_iff_forall_not_mem]
        intro q hq
        obtain ⟨hlen, hh, hl, _, hqch⟩ := (hmem q).mp hq
        have hqw : WalkN A (L0 + L1 - 1) s t :=
          isPathTo_iff_walkN.mp ⟨q, ⟨hh, hl, hqch⟩, by omega⟩
        have := hmin _ hqw
        omega
      have hf' : (ssRound nbr st).found = false := by
        rw [hfound, hf, hys]
        simp
      obtain ⟨Y, hY1, hY2, hY3, hY4⟩ :=
        ih (ssRound nbr st) L0' L1' hinv' hf' (by omega) (by omega)
      refine ⟨Y, ?_, hY2, hY3, hY4⟩
      rw [hY1, hacc, hys]
      simp
    · have hsum_eq : L0 + L1 = d + 1 := by omega
      have hp0mem : p0 ∈ ys :=
        (hmem p0).mpr ⟨by omega, hp0.1, hp0.2.1, hnd0, hp0.2.2⟩
      have hysne : ys ≠ [] := by
        intro hh
        rw [hh] at hp0mem
        simp at hp0mem
      have hf' : (ssRound nbr st).found = true := by
        rw [hfound, hf]
        cases hemp : ys.isEmpty
        · simp
        · rw [List.isEmpty_iff] at hemp
          exact absurd hemp hysne
      rw [ssLoop_found_stop hf']
      refine ⟨ys, hacc, ?_, hndys, hf'⟩
      intro q
      rw [hmem q, hsum_eq]

end BidirSearch

namespace BidirSearch

/-- Invariant of the multigraph shortest-path loop: no seen sets, duplicate
paths possible, so only membership in the trees is characterized. -/
def SMInv (A : Node → Node → Bool) (s t : Node) (L0 L1 : Nat)
    (st : SMState) : Prop :=
  FrontExact A s L0 st.t0 ∧ FrontExact (flipB A) t L1 st.t1 ∧
  1 ≤ L0 ∧ 1 ≤ L1

lemma smRound_exact {nbr : Bool → Node → List Node} {A : Node → Node → Bool}
    {s t : Node} {L0 L1 : Nat} {st : SMState}
    (hn0 : ∀ u v, v ∈ nbr false u ↔ A u v = true)
    (hn1 : ∀ u v, v ∈ nbr true u ↔ A v u = true)
    (hinv : SMInv A s t L0 L1 st) :
    ∃ L0' L1' ys, L0' + L1' = L0 + L1 + 1 ∧
      SMInv A s t L0' L1' (smRound nbr st) ∧
      (smRound nbr st).acc = st.acc ++ ys ∧
      (∀ q, q ∈ ys ↔ SPathLen A s t (L0 + L1) q) ∧
      (smRound nbr st).found = (st.found || !ys.isEmpty) := by
  obtain ⟨h0, h1, hL0, hL1⟩ := hinv
  by_cases hc : st.t1.length < st.t0.length
  · rw [smRound_eq_pos hc]
    refine ⟨L0, L1 + 1, ssYields nbr true (fun _ => true) st.t1 st.t0,
      by omega, ?_, rfl, ?_, rfl⟩
    · refine ⟨h0, ?_, hL0, by omega⟩
      intro p
      exact extendAll_exact (m := true) (fun u v => hn1 u v) h1 hL1 p
    · intro q
      rw [ssYields_exact_true (A := A) (fun u v => hn1 u v) h1 h0
        (fun pt _ => rfl) hL1 hL0 q]
  · rw [smRound_eq_neg hc]
    refine ⟨L0 + 1, L1, ssYields nbr false (fun _ => true) st.t0 st.t1,
      by omega, ?_, rfl, ?_, rfl⟩
    · refine ⟨?_, h1, by omega, hL1⟩
      intro p
      exact extendAll_exact (m := false) hn0 h0 hL0 p
    · intro q
      rw [ssYields_exact_false (A := A) hn0 h0 h1 (fun pt _ => rfl)
        hL0 hL1 q]

lemma smLoop_found_stop {nbr : Bool → Node → List Node} {fuel : Nat}
    {st : SMState} (hf : st.found = true) : smLoop nbr fuel st = st := by
  cases fuel with
  | zero => rfl
  | succ f =>
    unfold smLoop
    rw [if_pos (by simp [hf])]

lemma smLoop_unreach {nbr : Bool → Node → List Node} {A : Node → Node → Bool}
    {s t : Node}
    (hn0 : ∀ u v, v ∈ nbr false u ↔ A u v = true)
    (hn1 : ∀ u v, v ∈ nbr true u ↔ A v u = true)
    (hur : ¬ Reachable A s t) :
    ∀ (fuel : Nat) (st : SMState) (L0 L1 : Nat), SMInv A s t L0 L1 st →
      (smLoop nbr fuel st).found = st.found ∧
      (smLoop nbr fuel st).acc = st.acc := by
  intro fuel
  induction fuel with
  | zero => intro st _ _ _; exact ⟨rfl, rfl⟩
  | succ f ih =>
    intro st L0 L1 hinv
    unfold smLoop
    split
    · exact ⟨rfl, rfl⟩
    · obtain ⟨L0', L1', ys, hsum, hinv', hacc, hmem, hfound⟩ :=
        smRound_exact hn0 hn1 hinv
      have hys : ys = [] := by
        rw [List.eq_nil_iff_forall_not_mem]
        intro q hq
        obtain ⟨_, hh, hl, _, hqch⟩ := (hmem q).mp hq
        exact hur ⟨q, hh, hl, hqch⟩
      obtain ⟨hf', ha'⟩ := ih (smRound nbr st) L0' L1' hinv'
      rw [hf', ha', hacc, hfound, hys]
      exact ⟨by simp, by simp⟩

lemma smLoop_meet {nbr : Bool → Node → List Node} {A : Node → Node → Bool}
    {s t : Node} {d : Nat} {p0 : Path}
    (hn0 : ∀ u v, v ∈ nbr false u ↔ A u v = true)
    (hn1 : ∀ u v, v ∈ nbr true u ↔ A v u = true)
    (hp0 : IsPathTo A s t p0) (hlen0 : p0.length = d + 1) (hnd0 : p0.Nodup)
    (hmin : ∀ m, WalkN A m s t → d ≤ m) :
    ∀ (fuel : Nat) (st : SMState) (L0 L1 : Nat), SMInv A s t L0 L1 st →
      st.found = false → L0 + L1 ≤ d + 1 → d + 2 - (L0 + L1) ≤ fuel →
      ∃ Y, (smLoop nbr fuel st).acc = st.acc ++ Y ∧
        (∀ q, q ∈ Y ↔ SPathLen A s t (d + 1) q) ∧
        (smLoop nbr fuel st).found = true := by
  intro fuel
  induction fuel with
  | zero => intro st L0 L1 _ _ hsum hfuel; omega
  | succ f ih =>
    intro st L0 L1 hinv hf hsum hfuel
    obtain ⟨h0, h1, hL0, hL1⟩ := hinv
    have hm0 : p0.take L0 ∈ st.t0 := by
      refine (h0 _).mpr ⟨?_, ?_, ?_, ?_⟩
      · rw [List.length_take]
        omega
      · rw [head?_take hL0]
        exact hp0.1
      · exact List.Nodup.sublist (List.take_sublist _ _) hnd0
      · exact List.Chain'.take hp0.2.2 _
    have hdne : p0.drop (d + 1 - L1) ≠ [] := by
      intro hh
      have := congrArg List.length hh
      simp [List.length_drop] at this
      omega
    have hm1 : (p0.drop (d + 1 - L1)).reverse ∈ st.t1 := by
      refine (h1 _).mpr ⟨?_, ?_, ?_, ?_⟩
      · simp [List.length_drop]
        omega
      · rw [List.head?_reverse]
        have hq : p0.take (d + 1 - L1) ++ p0.drop (d + 1 - L1) = p0 :=
          List.take_append_drop _ _
        have hl2 : (p0.take (d + 1 - L1) ++ p0.drop (d + 1 - L1)).getLast?
            = some t := by
          rw [hq]
          exact hp0.2.1
        rwa [List.getLast?_append_of_ne_nil _ hdne] at hl2
      · exact List.nodup_reverse.mpr
          (List.Nodup.sublist (List.drop_sublist _ _) hnd0)
      · exact isChain_reverse.mpr (List.Chain'.drop hp0.2.2 _)
    unfold smLoop
    rw [if_neg ?hguard]
    case hguard =>
      intro hcontra
      rw [hf] at hcontra
      simp at hcontra
      rcases hcontra with he | he
      · rw [he] at hm0
        simp at hm0
      · rw [he] at hm1
        simp at hm1
    obtain ⟨L0', L1', ys, hsum', hinv', hacc, hmem, hfound⟩ :=
      smRound_exact hn0 hn1 ⟨h0, h1, hL0, hL1⟩
    by_cases hcase : L0 + L1 ≤ d
    · have hys : ys = [] := by
        rw [List.eq_nil_iff_forall_not_mem]
        intro q hq
        obtain ⟨hlen, hh, hl, _, hqch⟩ := (hmem q).mp hq
        have hqw : WalkN A (L0 + L1 - 1) s t :=
          isPathTo_iff_walkN.mp ⟨q, ⟨hh, hl, hqch⟩, by omega⟩
        have := hmin _ hqw
        omega
      have hf' : (smRound nbr st).found = false := by
        rw [hfound, hf, hys]
        simp
      obtain ⟨Y, hY1, hY2, hY4⟩ :=
        ih (smRound nbr st) L0' L1' hinv' hf' (by omega) (by omega)
      refine ⟨Y, ?_, hY2, hY4⟩
      rw [hY1, hacc, hys]
      simp
    · have hsum_eq : L0 + L1 = d + 1 := by omega
      have hp0mem : p0 ∈ ys :=
        (hmem p0).mpr ⟨by omega, hp0.1, hp0.2.1, hnd0, hp0.2.2⟩
      have hysne : ys ≠ [] := by
        intro hh
        rw [hh] at hp0mem
        simp at hp0mem
      have hf' : (smRound nbr st).found = true := by
        rw [hfound, hf]
        cases hemp : ys.isEmpty
        · simp
        · rw [List.isEmpty_iff] at hemp
          exact absurd hemp hysne
      rw [smLoop_found_stop hf']
      refine ⟨ys, hacc, ?_, hf'⟩
      intro q
      rw [hmem q, hsum_eq]

end BidirSearch

namespace BidirSearch

lemma pathTo_ne_length_ge_two {A : Node → Node → Bool} {s t : Node} {p : Path}
    (hst : s ≠ t) (hp : IsPathTo A s t p) : 2 ≤ p.length := by
  cases p with
  | nil => exact absurd hp.1 (by simp)
  | cons x rest =>
    cases rest with
    | nil =>
      have hxs : x = s := by simpa using hp.1
      have hxt : x = t := by simpa using hp.2.1
      exact absurd (hxs ▸ hxt ▸ rfl) hst
    | cons y l => simp

/-- With `d` the minimum walk length, the full simple chains of node count
`d + 1` are exactly the minimum-length source-to-target paths. -/
lemma spathLen_iff_min {A : Node → Node → Bool} {s t : Node} {d : Nat}
    {p0 : Path} (hp0 : IsPathTo A s t p0) (hlen0 : p0.length = d + 1)
    (hmin : ∀ m, WalkN A m s t → d ≤ m) :
    ∀ q, SPathLen A s t (d + 1) q ↔
      (IsPathTo A s t q ∧ ∀ p, IsPathTo A s t p → q.length ≤ p.length) := by
  intro q
  constructor
  · rintro ⟨hlen, hh, hl, hnd, hch⟩
    refine ⟨⟨hh, hl, hch⟩, ?_⟩
    intro p hp
    have hpne : p ≠ [] := by
      intro hh'
      rw [hh'] at hp
      exact absurd hp.1 (by simp)
    have hp1 : 1 ≤ p.length := by
      cases p with
      | nil => exact absurd rfl hpne
      | cons a l => simp
    have hw : WalkN A (p.length - 1) s t :=
      isPathTo_iff_walkN.mp ⟨p, hp, by omega⟩
    have := hmin _ hw
    omega
  · rintro ⟨hq, hminq⟩
    have h1 : q.length ≤ d + 1 := hlen0 ▸ hminq p0 hp0
    have hqne : q ≠ [] := by
      intro hh'
      rw [hh'] at hq
      exact absurd hq.1 (by simp)
    have hq1 : 1 ≤ q.length := by
      cases q with
      | nil => exact absurd rfl hqne
      | cons a l => simp
    have hw : WalkN A (q.length - 1) s t :=
      isPathTo_iff_walkN.mp ⟨q, hq, by omega⟩
    have h2 : d ≤ q.length - 1 := hmin _ hw
    have hnd : q.Nodup := by
      by_contra hnd
      obtain ⟨x, l₁, l₂, l₃, hdecomp⟩ := not_nodup_decomp hnd
      have hshort : IsPathTo A s t (l₁ ++ x :: l₃) :=
        isPathTo_shortcut (hdecomp ▸ hq)
      have hlc := hminq _ hshort
      rw [hdecomp] at hlc
      simp [List.length_append] at hlc
      omega
    exact ⟨by omega, hq.1, hq.2.1, hnd, hq.2.2⟩

/-- Full run of the simple-graph shortest-path loop from the initial state
with the standard fuel: `found` decides reachability, the yields are
duplicate-free, and they are exactly the minimum-length paths. -/
lemma ssLoop_run {nbr : Bool → Node → List Node} {A : Node → Node → Bool}
    {G : Graph} {s t : Node}
    (hn0 : ∀ u v, v ∈ nbr false u ↔ A u v = true)
    (hn1 : ∀ u v, v ∈ nbr true u ↔ A v u = true)
    (hnbr : ∀ m u, (nbr m u).Nodup)
    (hsupp : ∀ u v, A u v = true → u ∈ uniL G s t ∧ v ∈ uniL G s t)
    (hst : s ≠ t) :
    ((ssLoop nbr (fuelN G s t) (ssInit s t)).found = true ↔ Reachable A s t) ∧
    (ssLoop nbr (fuelN G s t) (ssInit s t)).acc.Nodup ∧
    (∀ q, q ∈ (ssLoop nbr (fuelN G s t) (ssInit s t)).acc ↔
      (IsPathTo A s t q ∧ ∀ p, IsPathTo A s t p → q.length ≤ p.length)) := by
  have hinv : SSInv A s t 1 1 (ssInit s t) := by
    refine ⟨frontExact_init s, frontExact_init t, ?_, ?_, ?_, ?_,
      le_refl 1, le_refl 1⟩
    · intro p hp
      simp [ssInit] at hp
      subst hp
      simp [ssInit, lastD]
    · intro p hp
      simp [ssInit] at hp
      subst hp
      simp [ssInit, lastD]
    · exact List.nodup_singleton _
    · exact List.nodup_singleton _
  by_cases hre : Reachable A s t
  · obtain ⟨d, p0, hp0, hlen0, hnd0, hmin⟩ := exists_min_nodup_path hre
    have hd1 : 1 ≤ d := by
      have := pathTo_ne_length_ge_two hst hp0
      omega
    have hsub : ∀ x ∈ p0, x ∈ uniL G s t := by
      intro x hx
      rcases chain_mem_support p0 hp0.2.2 x hx with hh | ⟨u, hu⟩
      · rw [hp0.1] at hh
        injection hh with hh
        rw [← hh]
        exact s_mem_uniL G s t
      · exact (hsupp u x hu).2
    have hbound : p0.length ≤ (uniL G s t).length :=
      nodup_subset_length hnd0 hsub
    obtain ⟨Y, hacc, hmemY, hndY, hfinF⟩ :=
      ssLoop_meet hn0 hn1 hnbr hp0 hlen0 hnd0 hmin (fuelN G s t)
        (ssInit s t) 1 1 hinv rfl (by omega)
        (by unfold fuelN; omega)
    have hacc' : (ssLoop nbr (fuelN G s t) (ssInit s t)).acc = Y := by
      rw [hacc]
      simp [ssInit]
    refine ⟨by rw [hfinF]; simp [hre], by rw [hacc']; exact hndY, ?_⟩
    intro q
    rw [hacc', hmemY q]
    exact spathLen_iff_min hp0 hlen0 hmin q
  · obtain ⟨hfF, haccF⟩ :=
      ssLoop_unreach hn0 hn1 hnbr hre (fuelN G s t) (ssInit s t) 1 1 hinv
    refine ⟨by rw [hfF]; simp [ssInit, hre], ?_, ?_⟩
    · rw [haccF]
      simp [ssInit]
    intro q
    rw [haccF]
    simp only [ssInit, List.not_mem_nil, false_iff]
    rintro ⟨hq, _⟩
    exact hre ⟨q, hq⟩

/-- Full run of the multigraph shortest-path loop: `found` decides
reachability and the yields are exactly the minimum-length paths by
membership (duplicates may remain, list frontiers are never deduplicated). -/
lemma smLoop_run (nbr : Bool → Node → List Node) {A : Node → Node → Bool}
    {G : Graph} {s t : Node}
    (hn0 : ∀ u v, v ∈ nbr false u ↔ A u v = true)
    (hn1 : ∀ u v, v ∈ nbr true u ↔ A v u = true)
    (hsupp : ∀ u v, A u v = true → u ∈ uniL G s t ∧ v ∈ uniL G s t)
    (hst : s ≠ t) :
    ((smLoop nbr (fuelN G s t) ⟨[[s]], [[t]], false, []⟩).found = true ↔
      Reachable A s t) ∧
    (∀ q, q ∈ (smLoop nbr (fuelN G s t) ⟨[[s]], [[t]], false, []⟩).acc ↔
      (IsPathTo A s t q ∧ ∀ p, IsPathTo A s t p → q.length ≤ p.length)) := by
  have hinv : SMInv A s t 1 1 ⟨[[s]], [[t]], false, []⟩ :=
    ⟨frontExact_init s, frontExact_init t, le_refl 1, le_refl 1⟩
  by_cases hre : Reachable A s t
  · obtain ⟨d, p0, hp0, hlen0, hnd0, hmin⟩ := exists_min_nodup_path hre
    have hd1 : 1 ≤ d := by
      have := pathTo_ne_length_ge_two hst hp0
      omega
    have hsub : ∀ x ∈ p0, x ∈ uniL G s t := by
      intro x hx
      rcases chain_mem_support p0 hp0.2.2 x hx with hh | ⟨u, hu⟩
      · rw [hp0.1] at hh
        injection hh with hh
        rw [← hh]
        exact s_mem_uniL G s t
      · exact (hsupp u x hu).2
    have hbound : p0.length ≤ (uniL G s t).length :=
      nodup_subset_length hnd0 hsub
    obtain ⟨Y, hacc, hmemY, hfinF⟩ :=
      smLoop_meet hn0 hn1 hp0 hlen0 hnd0 hmin (fuelN G s t)
        ⟨[[s]], [[t]], false, []⟩ 1 1 hinv rfl (by omega)
        (by unfold fuelN; omega)
    simp only [List.nil_append] at hacc
    refine ⟨by rw [hfinF]; simp [hre], ?_⟩
    intro q
    rw [hacc, hmemY q]
    exact spathLen_iff_min hp0 hlen0 hmin q
  · obtain ⟨hfF, haccF⟩ :=
      smLoop_unreach hn0 hn1 hre (fuelN G s t) ⟨[[s]], [[t]], false, []⟩
        1 1 hinv
    refine ⟨by rw [hfF]; simp [hre], ?_⟩
    intro q
    rw [haccF]
    simp only [List.not_mem_nil, false_iff]
    rintro ⟨hq, _⟩
    exact hre ⟨q, hq⟩

end BidirSearch

namespace BidirSearch

/-- Claim C2 (amended): for source ≠ target, on directed or undirected
simple graphs and on undirected multigraphs, every yield of
`bidirectional_all_shortest_paths` is a minimum-length source-to-target
path and every minimum-length path appears among the yields; on simple
graphs the yield list is additionally duplicate-free.  The excluded parts
of the claim are genuinely false: the multigraph engine keeps duplicate
partial paths (parallel edges make it yield the same node sequence twice),
and with source = target no yield is ever produced. -/
theorem allShortestPaths_correct (G : Graph) (s t : Node) (hst : s ≠ t)
    (hdm : ¬(G.directed = true ∧ G.multi = true))
    (hs : s ∈ G.nodes) (ht : t ∈ G.nodes)
    (r : List Path × Option Err)
    (h : bidirectional_all_shortest_paths G s t = .ok r) :
    (∀ q, q ∈ r.1 ↔ (IsPathTo G.stepB s t q ∧
      ∀ p, IsPathTo G.stepB s t p → q.length ≤ p.length)) ∧
    (G.multi = false → r.1.Nodup) := by
  unfold bidirectional_all_shortest_paths at h
  rw [if_neg (by simpa using hs), if_neg (by simpa using ht)] at h
  injection h with h
  by_cases hm : G.multi = true
  · have hd : G.directed = false := by
      cases hdir : G.directed
      · rfl
      · exact absurd ⟨hdir, hm⟩ hdm
    rw [if_pos hm] at h
    subst h
    obtain ⟨hiff, hmem⟩ := smLoop_run (fun _ v => G.incident v)
      (A := symB G) (G := G) (s := s) (t := t)
      (fun u v => mem_incident_symB)
      (fun u v => by rw [mem_incident_symB, symB_comm])
      (fun u v hsx => symB_mem_uniL hsx) hst
    constructor
    · intro q
      rw [stepB_eq_symB hd]
      exact hmem q
    · intro hmf
      rw [hmf] at hm
      exact absurd hm (by simp)
  · rw [if_neg hm] at h
    subst h
    obtain ⟨hiff, hnd, hmem⟩ := ssLoop_run (A := G.stepB) (G := G)
      (s := s) (t := t)
      (fun u v => mem_neighbors_false)
      (fun u v => mem_neighbors_true)
      (neighbors_nodup G)
      (fun u v hsx => stepB_mem_uniL hsx) hst
    exact ⟨hmem, fun _ => hnd⟩

/-- Claim C2 counterexample: on the undirected multigraph with a doubled
edge 0 — 1 and an edge 1 — 2 the operation yields the shortest path
[0, 1, 2] twice, so the yielded sequence has duplicate node sequences
although a path from 0 to 2 exists; and with source = target on a one-node
graph it yields nothing and raises `NetworkXNoPath` although the trivial
shortest path [0] exists. -/
theorem allShortestPaths_claim_cex :
    (bidirectional_all_shortest_paths
        ⟨[0, 1, 2], [(0, 1), (0, 1), (1, 2)], false, true⟩ 0 2
        = .ok ([[0, 1, 2], [0, 1, 2]], none) ∧
      Reachable (Graph.stepB ⟨[0, 1, 2], [(0, 1), (0, 1), (1, 2)], false,
        true⟩) 0 2 ∧
      ¬ ([[0, 1, 2], [0, 1, 2]] : List Path).Nodup) ∧
    (bidirectional_all_shortest_paths ⟨[0], [], false, false⟩ 0 0
        = .ok ([], some .noPath) ∧
      Reachable (Graph.stepB ⟨[0], [], false, false⟩) 0 0) := by
  exact ⟨⟨by rfl, ⟨[0, 1, 2], rfl, rfl, List.chain'_cons.mpr ⟨by decide,
      List.chain'_cons.mpr ⟨by decide, List.chain'_singleton _⟩⟩⟩, by decide⟩,
    ⟨by rfl, ⟨[0], rfl, rfl, List.chain'_singleton 0⟩⟩⟩

/-- Witness for the amended all-shortest-paths theorem on the single-edge
graph 0 — 1: the hypotheses hold concretely and the returned yield list is
duplicate-free. -/
theorem allShortestPaths_correct_witness :
    ([[0, 1]] : List Path).Nodup :=
  (allShortestPaths_correct ⟨[0, 1], [(0, 1)], false, false⟩ 0 1
    (by decide) (by simp) (by decide) (by decide) ([[0, 1]], none)
    (by rfl)).2 rfl

end BidirSearch

namespace BidirSearch

/-- Claim C4 (amended): for source ≠ target, on directed or undirected
simple graphs and on undirected multigraphs, `bidirectional_all_shortest_paths`
ends its yield sequence with `NetworkXNoPath` exactly when no source-to-target
path exists, and in that case it has yielded nothing; `bidirectional_has_path`
and `bidirectional_all_simple_paths` never produce this error on any input.
Excluded cases the code genuinely breaks: with source = target the error is
raised although the trivial path exists, and on directed multigraphs the
direction-agnostic neighbor enumeration can find a meeting although no
directed path exists. -/
theorem noPath_iff_unreachable (G : Graph) (s t : Node) (hst : s ≠ t)
    (hdm : ¬(G.directed = true ∧ G.multi = true))
    (hs : s ∈ G.nodes) (ht : t ∈ G.nodes)
    (r : List Path × Option Err)
    (h : bidirectional_all_shortest_paths G s t = .ok r) :
    ((r.2 = some .noPath ↔ ¬ Reachable G.stepB s t) ∧
      (r.2 = some .noPath → r.1 = [])) ∧
    (∀ (G' : Graph) (s' t' : Node) (c : Option Int),
      bidirectional_has_path G' s' t' ≠ .error .noPath ∧
      bidirectional_all_simple_paths G' s' t' c ≠ .error .noPath) := by
  have hC : ∀ (G' : Graph) (s' t' : Node) (c : Option Int),
      bidirectional_has_path G' s' t' ≠ .error .noPath ∧
      bidirectional_all_simple_paths G' s' t' c ≠ .error .noPath := by
    intro G' s' t' c
    constructor
    · unfold bidirectional_has_path
      split
      · simp
      · split
        · simp
        · simp
    · unfold bidirectional_all_simple_paths
      split
      · simp
      · split
        · simp
        · simp
  refine ⟨?_, hC⟩
  unfold bidirectional_all_shortest_paths at h
  rw [if_neg (by simpa using hs), if_neg (by simpa using ht)] at h
  injection h with h
  by_cases hm : G.multi = true
  · have hd : G.directed = false := by
      cases hdir : G.directed
      · rfl
      · exact absurd ⟨hdir, hm⟩ hdm
    rw [if_pos hm] at h
    obtain ⟨hiff, hmem⟩ := smLoop_run (fun _ v => G.incident v)
      (A := symB G) (G := G) (s := s) (t := t)
      (fun u v => mem_incident_symB)
      (fun u v => by rw [mem_incident_symB, symB_comm])
      (fun u v hsx => symB_mem_uniL hsx) hst
    have h1 : r.1 = (smLoop (fun _ v => G.incident v) (fuelN G s t)
        ⟨[[s]], [[t]], false, []⟩).acc := by
      rw [← h]
      rfl
    have h2 : r.2 = if (smLoop (fun _ v => G.incident v) (fuelN G s t)
        ⟨[[s]], [[t]], false, []⟩).found = true then none
        else some Err.noPath := by
      rw [← h]
      rfl
    rw [stepB_eq_symB hd]
    by_cases hre : Reachable (symB G) s t
    · have hfound := hiff.mpr hre
      rw [h2, if_pos hfound]
      exact ⟨by simp [hre], by simp⟩
    · have hfound : ¬ ((smLoop (fun _ v => G.incident v) (fuelN G s t)
          ⟨[[s]], [[t]], false, []⟩).found = true) :=
        fun hfx => hre (hiff.mp hfx)
      rw [h2, if_neg hfound]
      refine ⟨by simp [hre], ?_⟩
      intro _
      rw [h1, List.eq_nil_iff_forall_not_mem]
      intro q hq
      exact hre ⟨q, ((hmem q).mp hq).1⟩
  · rw [if_neg hm] at h
    obtain ⟨hiff, hnd, hmem⟩ := ssLoop_run (A := G.stepB) (G := G)
      (s := s) (t := t)
      (fun u v => mem_neighbors_false)
      (fun u v => mem_neighbors_true)
      (neighbors_nodup G)
      (fun u v hsx => stepB_mem_uniL hsx) hst
    have h1 : r.1 = (ssLoop G.neighbors (fuelN G s t) (ssInit s t)).acc := by
      rw [← h]
      rfl
    have h2 : r.2 = if (ssLoop G.neighbors (fuelN G s t)
        (ssInit s t)).found = true then none else some Err.noPath := by
      rw [← h]
      rfl
    by_cases hre : Reachable G.stepB s t
    · have hfound := hiff.mpr hre
      rw [h2, if_pos hfound]
      exact ⟨by simp [hre], by simp⟩
    · have hfound : ¬ ((ssLoop G.neighbors (fuelN G s t)
          (ssInit s t)).found = true) :=
        fun hfx => hre (hiff.mp hfx)
      rw [h2, if_neg hfound]
      refine ⟨by simp [hre], ?_⟩
      intro _
      rw [h1, List.eq_nil_iff_forall_not_mem]
      intro q hq
      exact hre ⟨q, ((hmem q).mp hq).1⟩

/-- Claim C4 counterexample: on the directed multigraph with the single edge
1 → 0 the operation ends with no error and even yields [0, 1] although no
directed path from 0 to 1 exists; and with source = target on a one-node
graph it raises `NetworkXNoPath` although the trivial path exists.  So the
raise is not equivalent to nonexistence of a path. -/
theorem noPath_claim_cex :
    (bidirectional_all_shortest_paths ⟨[0, 1], [(1, 0)], true, true⟩ 0 1
        = .ok ([[0, 1]], none) ∧
      ¬ Reachable (Graph.stepB ⟨[0, 1], [(1, 0)], true, true⟩) 0 1) ∧
    (bidirectional_all_shortest_paths ⟨[0], [], false, false⟩ 0 0
        = .ok ([], some .noPath) ∧
      Reachable (Graph.stepB ⟨[0], [], false, false⟩) 0 0) := by
  refine ⟨⟨by rfl, ?_⟩, ⟨by rfl, ⟨[0], rfl, rfl, List.chain'_singleton 0⟩⟩⟩
  rintro ⟨p, hh, hl, hc⟩
  cases p with
  | nil => simp at hh
  | cons x rest =>
    have hx : x = 0 := by simpa using hh
    subst hx
    cases rest with
    | nil => simp at hl
    | cons y rest2 =>
      have hstep := (List.chain'_cons.mp hc).1
      simp [Graph.stepB] at hstep

/-- Witness for the amended no-path theorem on the edgeless two-node graph:
the trace ends with `NetworkXNoPath` and indeed no path exists. -/
theorem noPath_iff_unreachable_witness :
    ¬ Reachable (Graph.stepB ⟨[0, 1], [], false, false⟩) 0 1 :=
  (noPath_iff_unreachable ⟨[0, 1], [], false, false⟩ 0 1
    (by decide) (by simp) (by decide) (by decide) ([], some .noPath)
    (by rfl)).1.1.mp rfl

end BidirSearch

namespace BidirSearch

/-! ## Claim C5: exhaustiveness of the simple-paths engine -/

/-- All paths stored in a frontier dict, in bucket order. -/
def bPaths (tb : Buckets) : List Path := tb.flatMap (fun e => e.2)

lemma mem_bPaths {tb : Buckets} {p : Path} :
    p ∈ bPaths tb ↔ ∃ e ∈ tb, p ∈ e.2 := by
  unfold bPaths
  rw [List.mem_flatMap]

/-- Key consistency of a frontier dict: every stored path ends at its
bucket's key. -/
def KeyedB (tb : Buckets) : Prop := ∀ e ∈ tb, ∀ p ∈ e.2, lastD p = e.1

lemma lookupB_eq_of_mem {tb : Buckets} {e : Node × List Path}
    (hknd : (tb.map Prod.fst).Nodup) (he : e ∈ tb) :
    lookupB tb e.1 = some e.2 := by
  induction tb with
  | nil => simp at he
  | cons hd rest ih =>
    simp only [List.map_cons, List.nodup_cons] at hknd
    rcases List.mem_cons.mp he with rfl | hmem
    · unfold lookupB
      rw [List.find?_cons_of_pos _ (by simp)]
      rfl
    · have hne : ¬ (hd.1 == e.1) = true := by
        intro hc
        exact hknd.1 (by
          rw [beq_iff_eq.mp hc]
          exact List.mem_map.mpr ⟨e, hmem, rfl⟩)
      have hne' : (hd.1 == e.1) = false := by
        cases hb : (hd.1 == e.1)
        · rfl
        · exact absurd hb hne
      unfold lookupB
      rw [List.find?_cons, hne']
      exact ih hknd.2 hmem

lemma mem_bPaths_bucketAdd {t : Buckets} {k : Node} {p q : Path} :
    q ∈ bPaths (bucketAdd t k p) ↔ q ∈ bPaths t ∨ q = p := by
  induction t with
  | nil => simp [bucketAdd, bPaths]
  | cons hd rest ih =>
    obtain ⟨k', ps⟩ := hd
    unfold bucketAdd
    by_cases hkk : (k' == k) = true
    · simp only [hkk, if_true]
      by_cases hps : p ∈ ps
      · simp only [hps, if_true]
        constructor
        · exact Or.inl
        · rintro (h | rfl)
          · exact h
          · exact mem_bPaths.mpr ⟨(k', ps), List.mem_cons_self _ _,
              by simpa using hps⟩
      · simp only [hps, if_false]
        simp only [bPaths, List.flatMap_cons, List.mem_append,
          List.mem_flatMap, List.mem_singleton]
        constructor
        · rintro ((h | rfl) | h)
          · exact Or.inl (Or.inl h)
          · exact Or.inr rfl
          · exact Or.inl (Or.inr h)
        · rintro ((h | h) | rfl)
          · exact Or.inl (Or.inl h)
          · exact Or.inr h
          · exact Or.inl (Or.inr rfl)
    · rw [if_neg (by simpa using hkk)]
      constructor
      · intro h
        rcases mem_bPaths.mp h with ⟨e, he, hpe⟩
        rcases List.mem_cons.mp he with rfl | hmem
        · exact Or.inl (mem_bPaths.mpr ⟨(k', ps), List.mem_cons_self _ _, hpe⟩)
        · rcases ih.mp (mem_bPaths.mpr ⟨e, hmem, hpe⟩) with h' | h'
          · rcases mem_bPaths.mp h' with ⟨e', he', hpe'⟩
            exact Or.inl (mem_bPaths.mpr ⟨e', List.mem_cons_of_mem _ he', hpe'⟩)
          · exact Or.inr h'
      · rintro (h | rfl)
        · rcases mem_bPaths.mp h with ⟨e, he, hpe⟩
          rcases List.mem_cons.mp he with rfl | hmem
          · exact mem_bPaths.mpr ⟨(k', ps), List.mem_cons_self _ _, hpe⟩
          · rcases mem_bPaths.mp (ih.mpr (Or.inl (mem_bPaths.mpr
              ⟨e, hmem, hpe⟩))) with ⟨e', he', hpe'⟩
            exact mem_bPaths.mpr ⟨e', List.mem_cons_of_mem _ he', hpe'⟩
        · rcases mem_bPaths.mp (ih.mpr (Or.inr rfl)) with ⟨e', he', hpe'⟩
          exact mem_bPaths.mpr ⟨e', List.mem_cons_of_mem _ he', hpe'⟩

lemma mem_bPaths_foldl {es : List (Node × Path)} :
    ∀ {t : Buckets} {q : Path},
      q ∈ bPaths (es.foldl (fun t e => bucketAdd t e.1 e.2) t) ↔
        q ∈ bPaths t ∨ ∃ k, (k, q) ∈ es := by
  induction es with
  | nil => intro t q; simp
  | cons hd rest ih =>
    intro t q
    simp only [List.foldl_cons]
    rw [ih, mem_bPaths_bucketAdd]
    constructor
    · rintro ((h | rfl) | ⟨k, hk⟩)
      · exact Or.inl h
      · exact Or.inr ⟨hd.1, by simp⟩
      · exact Or.inr ⟨k, List.mem_cons_of_mem _ hk⟩
    · rintro (h | ⟨k, hk⟩)
      · exact Or.inl (Or.inl h)
      · rcases List.mem_cons.mp hk with heq | hmem
        · exact Or.inl (Or.inr (congrArg Prod.snd heq))
        · exact Or.inr ⟨k, hmem⟩

lemma bucketAdd_keys' {t : Buckets} {k : Node} {p : Path} :
    (bucketAdd t k p).map Prod.fst = t.map Prod.fst ∨
    ((bucketAdd t k p).map Prod.fst = t.map Prod.fst ++ [k] ∧
      k ∉ t.map Prod.fst) := by
  induction t with
  | nil =>
    right
    exact ⟨by simp [bucketAdd], by simp⟩
  | cons hd rest ih =>
    obtain ⟨k', ps⟩ := hd
    unfold bucketAdd
    by_cases hkk : (k' == k) = true
    · left
      simp [hkk]
    · rcases ih with h | ⟨h, hk⟩
      · left
        simp [hkk, h]
      · right
        refine ⟨by simp [hkk, h], ?_⟩
        simp only [List.map_cons, List.mem_cons]
        rintro (rfl | hm)
        · exact hkk (by simp)
        · exact hk hm

lemma bucketAdd_keys_nodup {t : Buckets} {k : Node} {p : Path}
    (h : (t.map Prod.fst).Nodup) :
    ((bucketAdd t k p).map Prod.fst).Nodup := by
  rcases bucketAdd_keys' (t := t) (k := k) (p := p) with heq | ⟨heq, hk⟩
  · rwa [heq]
  · rw [heq, List.nodup_append]
    refine ⟨h, List.nodup_singleton _, ?_⟩
    intro a ha hak
    simp at hak
    subst hak
    exact hk ha

lemma foldl_bucketAdd_keys_nodup {es : List (Node × Path)} :
    ∀ {t : Buckets}, (t.map Prod.fst).Nodup →
      ((es.foldl (fun t e => bucketAdd t e.1 e.2) t).map Prod.fst).Nodup := by
  induction es with
  | nil => intro t h; exact h
  | cons hd rest ih => intro t h; exact ih (bucketAdd_keys_nodup h)

lemma spTemp_keys_nodup {nbr : Bool → Node → List Node} {m : Bool}
    {ts : Buckets} : ((spTemp nbr m ts).map Prod.fst).Nodup :=
  foldl_bucketAdd_keys_nodup (by simp)

lemma spTemp_keyed {nbr : Bool → Node → List Node} {m : Bool}
    {ts : Buckets} : KeyedB (spTemp nbr m ts) :=
  fun e he p hp => foldl_bucketAdd_keyed (by simp) spEntries_keyed e he p hp

lemma mem_bPaths_spTemp {nbr : Bool → Node → List Node} {m : Bool}
    {ts : Buckets} (hkey : KeyedB ts) {q : Path} :
    q ∈ bPaths (spTemp nbr m ts) ↔ q ∈ extendAll nbr m (bPaths ts) := by
  unfold spTemp
  rw [mem_bPaths_foldl, mem_extendAll]
  constructor
  · rintro (h | ⟨k, hk⟩)
    · simp [bPaths] at h
    · rw [mem_spEntries] at hk
      obtain ⟨e, he, p, hp, hv, hvp, rfl⟩ := hk
      rw [← hkey e he p hp] at hv
      exact ⟨p, mem_bPaths.mpr ⟨e, he, hp⟩, k, hv, hvp, rfl⟩
  · rintro ⟨p, hp, v, hv, hvp, rfl⟩
    obtain ⟨e, he, hpe⟩ := mem_bPaths.mp hp
    right
    refine ⟨v, mem_spEntries.mpr ⟨e, he, p, hpe, ?_, hvp, rfl⟩⟩
    rw [← hkey e he p hpe]
    exact hv

lemma mem_spYields_iff {nbr : Bool → Node → List Node} {m : Bool}
    {ts tt : Buckets} (hkS : KeyedB ts) (hkT : KeyedB tt)
    (hknd : (tt.map Prod.fst).Nodup) {q : Path} :
    q ∈ spYields nbr m ts tt ↔
      q ∈ ssYields nbr m (fun _ => true) (bPaths ts) (bPaths tt) := by
  rw [mem_spYields, mem_ssYields]
  constructor
  · rintro ⟨e, he, v, hv, p, hp, hvp, pts, hl, pt, hpt, hdisj, rfl⟩
    have hepts : (v, pts) ∈ tt := lookupB_some hl
    rw [← hkS e he p hp] at hv
    exact ⟨p, mem_bPaths.mpr ⟨e, he, hp⟩, v, hv, hvp, rfl, pt,
      mem_bPaths.mpr ⟨(v, pts), hepts, hpt⟩, hkT _ hepts pt hpt, hdisj, rfl⟩
  · rintro ⟨p, hp, v, hv, hvp, _, pt, hpt, hlast, hdisj, rfl⟩
    obtain ⟨e, he, hpe⟩ := mem_bPaths.mp hp
    obtain ⟨et, het, hpte⟩ := mem_bPaths.mp hpt
    have het1 : et.1 = v := (hkT et het pt hpte).symm.trans hlast
    refine ⟨e, he, v, ?_, p, hpe, hvp, et.2, ?_, pt, hpte, hdisj, rfl⟩
    · rw [← hkS e he p hpe]
      exact hv
    · rw [← het1]
      exact lookupB_eq_of_mem hknd het

end BidirSearch

namespace BidirSearch

/-- Exactness invariant of the simple-paths loop: both dicts are key
consistent with duplicate-free keys, and their stored paths are exactly the
simple anchored chains of the round's uniform length. -/
def SPInv (A : Node → Node → Bool) (s t : Node) (L0 L1 : Nat)
    (st : SPState) : Prop :=
  KeyedB st.t0 ∧ KeyedB st.t1 ∧
  (st.t0.map Prod.fst).Nodup ∧ (st.t1.map Prod.fst).Nodup ∧
  FrontExact A s L0 (bPaths st.t0) ∧
  FrontExact (flipB A) t L1 (bPaths st.t1) ∧
  1 ≤ L0 ∧ 1 ≤ L1

lemma spRound_exact {nbr : Bool → Node → List Node} {A : Node → Node → Bool}
    {s t : Node} {L0 L1 : Nat} {st : SPState}
    (hn0 : ∀ u v, v ∈ nbr false u ↔ A u v = true)
    (hn1 : ∀ u v, v ∈ nbr true u ↔ A v u = true)
    (hinv : SPInv A s t L0 L1 st) :
    ∃ L0' L1', L0' + L1' = L0 + L1 + 1 ∧
      SPInv A s t L0' L1' (spRound nbr st) ∧
      ∃ ys, (spRound nbr st).acc = st.acc ++ ys ∧
        (∀ q, q ∈ ys ↔ SPathLen A s t (L0 + L1) q) := by
  obtain ⟨hk0, hk1, hnd0, hnd1, h0, h1, hL0, hL1⟩ := hinv
  by_cases hc : st.t1.length < st.t0.length
  · rw [spRound_eq_pos hc]
    refine ⟨L0, L1 + 1, by omega,
      ⟨hk0, spTemp_keyed, hnd0, spTemp_keys_nodup, h0, ?_, hL0, by omega⟩,
      spYields nbr true st.t1 st.t0, rfl, ?_⟩
    · intro p
      show p ∈ bPaths (spTemp nbr true st.t1) ↔ _
      rw [mem_bPaths_spTemp hk1]
      exact extendAll_exact (m := true) (fun u v => hn1 u v) h1 hL1 p
    · intro q
      rw [mem_spYields_iff hk1 hk0 hnd0,
        ssYields_exact_true (A := A) (fun u v => hn1 u v) h1 h0
          (fun pt _ => rfl) hL1 hL0 q]
  · rw [spRound_eq_neg hc]
    refine ⟨L0 + 1, L1, by omega,
      ⟨spTemp_keyed, hk1, spTemp_keys_nodup, hnd1, ?_, h1, by omega, hL1⟩,
      spYields nbr false st.t0 st.t1, rfl, ?_⟩
    · intro p
      show p ∈ bPaths (spTemp nbr false st.t0) ↔ _
      rw [mem_bPaths_spTemp hk0]
      exact extendAll_exact (m := false) hn0 h0 hL0 p
    · intro q
      rw [mem_spYields_iff hk0 hk1 hnd1,
        ssYields_exact_false (A := A) hn0 h0 h1
          (fun pt _ => rfl) hL0 hL1 q]

lemma spLoop_exact {nbr : Bool → Node → List Node} {A : Node → Node → Bool}
    {s t : Node}
    (hn0 : ∀ u v, v ∈ nbr false u ↔ A u v = true)
    (hn1 : ∀ u v, v ∈ nbr true u ↔ A v u = true) :
    ∀ (c : Nat) (st : SPState) (L0 L1 : Nat), SPInv A s t L0 L1 st →
      ∀ q, q ∈ (spLoop nbr c st).acc ↔
        (q ∈ st.acc ∨ ∃ j < c, SPathLen A s t (L0 + L1 + j) q) := by
  intro c
  induction c with
  | zero =>
    intro st L0 L1 _ q
    rw [show spLoop nbr 0 st = st from rfl]
    simp
  | succ cc ih =>
    intro st L0 L1 hinv q
    obtain ⟨L0', L1', hsum, hinv', ys, hacc, hys⟩ := spRound_exact hn0 hn1 hinv
    have hstep : spLoop nbr (cc + 1) st = spLoop nbr cc (spRound nbr st) := rfl
    rw [hstep, ih (spRound nbr st) L0' L1' hinv' q, hacc]
    constructor
    · rintro (hm | ⟨j, hj, hsp⟩)
      · rcases List.mem_append.mp hm with h | h
        · exact Or.inl h
        · exact Or.inr ⟨0, by omega, by simpa using (hys q).mp h⟩
      · refine Or.inr ⟨j + 1, by omega, ?_⟩
        rw [show L0 + L1 + (j + 1) = L0' + L1' + j by omega]
        exact hsp
    · rintro (h | ⟨j, hj, hsp⟩)
      · exact Or.inl (List.mem_append.mpr (Or.inl h))
      · cases j with
        | zero =>
          exact Or.inl (List.mem_append.mpr (Or.inr ((hys q).mpr
            (by simpa using hsp))))
        | succ jj =>
          refine Or.inr ⟨jj, by omega, ?_⟩
          rw [show L0' + L1' + jj = L0 + L1 + (jj + 1) by omega]
          exact hsp

lemma spInv_init {A : Node → Node → Bool} (s t : Node) :
    SPInv A s t 1 1 (spInit s t) := by
  refine ⟨?_, ?_, ?_, ?_, ?_, ?_, le_refl 1, le_refl 1⟩
  · intro e he p hp
    simp [spInit] at he
    subst he
    simp at hp
    subst hp
    rfl
  · intro e he p hp
    simp [spInit] at he
    subst he
    simp at hp
    subst hp
    rfl
  · simp [spInit]
  · simp [spInit]
  · exact frontExact_init s
  · exact frontExact_init t

/-- The simple-paths loop from the initial state yields exactly the simple
source-to-target paths with at most `c` edges (source ≠ target). -/
lemma spLoop_iff_simple {nbr : Bool → Node → List Node}
    {A : Node → Node → Bool} {s t : Node}
    (hn0 : ∀ u v, v ∈ nbr false u ↔ A u v = true)
    (hn1 : ∀ u v, v ∈ nbr true u ↔ A v u = true)
    (hst : s ≠ t) (c : Nat) :
    ∀ q, q ∈ (spLoop nbr c (spInit s t)).acc ↔
      (IsSimplePathTo A s t q ∧ q.length ≤ c + 1) := by
  intro q
  rw [spLoop_exact hn0 hn1 c (spInit s t) 1 1 (spInv_init s t) q]
  constructor
  · rintro (h | ⟨j, hj, hlen, hh, hl, hnd, hch⟩)
    · simp [spInit] at h
    · exact ⟨⟨⟨hh, hl, hch⟩, hnd⟩, by omega⟩
  · rintro ⟨⟨⟨hh, hl, hch⟩, hnd⟩, hle⟩
    right
    have h2 : 2 ≤ q.length := pathTo_ne_length_ge_two hst ⟨hh, hl, hch⟩
    refine ⟨q.length - 2, by omega, ?_⟩
    rw [show 1 + 1 + (q.length - 2) = q.length by omega]
    exact ⟨rfl, hh, hl, hnd, hch⟩

lemma stepB_right_mem {G : Graph} (hwf : G.WF) {u v : Node}
    (h : G.stepB u v = true) : v ∈ G.nodes := by
  unfold Graph.stepB at h
  split at h
  · exact (hwf.2 _ (of_decide_eq_true h)).2
  · rcases Bool.or_eq_true_iff.mp h with h | h
    · exact (hwf.2 _ (of_decide_eq_true h)).2
    · exact (hwf.2 _ (of_decide_eq_true h)).1

/-- A simple path under a step relation whose targets lie in the node list
has at most as many nodes as the graph. -/
lemma simplePath_length_le {A : Node → Node → Bool} {G : Graph} {s t : Node}
    (hs : s ∈ G.nodes) (hA : ∀ u v, A u v = true → v ∈ G.nodes) {q : Path}
    (hq : IsSimplePathTo A s t q) : q.length ≤ G.nodes.length := by
  refine nodup_subset_length hq.2 ?_
  intro x hx
  rcases chain_mem_support q hq.1.2.2 x hx with hh | ⟨u, hu⟩
  · rw [hq.1.1] at hh
    injection hh with hh
    rw [← hh]
    exact hs
  · exact hA u x hu

lemma two_le_length_of_mem_ne {l : List Node} {a b : Node}
    (ha : a ∈ l) (hb : b ∈ l) (hab : a ≠ b) : 2 ≤ l.length := by
  cases l with
  | nil => simp at ha
  | cons x rest =>
    cases rest with
    | nil =>
      simp at ha hb
      subst ha
      subst hb
      exact absurd rfl hab
    | cons y r2 => simp

end BidirSearch

namespace BidirSearch

lemma symB_right_mem {G : Graph} (hwf : G.WF) {u v : Node}
    (h : symB G u v = true) : v ∈ G.nodes := by
  unfold symB at h
  rcases Bool.or_eq_true_iff.mp h with h | h
  · exact (hwf.2 _ (of_decide_eq_true h)).2
  · exact (hwf.2 _ (of_decide_eq_true h)).1

/-- Claim C5 (amended): for source ≠ target, on well-formed directed or
undirected simple graphs and undirected multigraphs, the yields of
`bidirectional_all_simple_paths` with the default cutoff (node count − 1)
are exactly the simple source-to-target paths of the graph: without
seen-set pruning each side's dict holds every simple anchored chain of the
round's length, and a simple path can have at most node-count nodes.
Excluded cases the code genuinely breaks: with source = target the trivial
path `[s]` is in the reference set but never yielded, and directed
multigraphs yield node sequences that are not directed paths. -/
theorem allSimplePaths_exhaustive (G : Graph) (s t : Node) (hwf : G.WF)
    (hst : s ≠ t) (hdm : ¬(G.directed = true ∧ G.multi = true))
    (hs : s ∈ G.nodes) (ht : t ∈ G.nodes)
    (l : List Path) (h : bidirectional_all_simple_paths G s t none = .ok l) :
    ∀ q, q ∈ l ↔ IsSimplePathTo G.stepB s t q := by
  have hn2 : 2 ≤ G.nodes.length := two_le_length_of_mem_ne hs ht hst
  unfold bidirectional_all_simple_paths at h
  rw [if_neg (by simpa using hs), if_neg (by simpa using ht)] at h
  injection h with h
  rw [Option.getD_none] at h
  have hlt : ¬ (((G.nodes.length : Int) - 1) < 1) := by omega
  by_cases hm : G.multi = true
  · have hd : G.directed = false := by
      cases hdir : G.directed
      · rfl
      · exact absurd ⟨hdir, hm⟩ hdm
    rw [if_pos hm] at h
    subst h
    intro q
    unfold _bidirectional_all_simple_paths_multi
    rw [if_neg hlt, stepB_eq_symB hd,
      spLoop_iff_simple (A := symB G) (fun u v => mem_incident_symB)
        (fun u v => by rw [mem_incident_symB, symB_comm]) hst _ q]
    constructor
    · rintro ⟨hsp, _⟩
      exact hsp
    · intro hsp
      refine ⟨hsp, ?_⟩
      have hle := simplePath_length_le hs
        (fun u v hx => symB_right_mem hwf hx) hsp
      omega
  · rw [if_neg hm] at h
    subst h
    intro q
    unfold _bidirectional_all_simple_paths
    rw [if_neg hlt,
      spLoop_iff_simple (A := G.stepB) (fun u v => mem_neighbors_false)
        (fun u v => mem_neighbors_true) hst _ q]
    constructor
    · rintro ⟨hsp, _⟩
      exact hsp
    · intro hsp
      refine ⟨hsp, ?_⟩
      have hle := simplePath_length_le hs
        (fun u v hx => stepB_right_mem hwf hx) hsp
      omega

/-- Claim C5 counterexample: with source = target on a one-node graph the
trivial simple path [0] is in the reference set but the operation yields
nothing; on a directed multigraph with the single edge 1 → 0 the operation
yields [0, 1], which is not a directed path at all. -/
theorem allSimplePaths_claim_cex :
    (bidirectional_all_simple_paths ⟨[0], [], false, false⟩ 0 0 none
        = .ok [] ∧
      IsSimplePathTo (Graph.stepB ⟨[0], [], false, false⟩) 0 0 [0]) ∧
    (bidirectional_all_simple_paths ⟨[0, 1], [(1, 0)], true, true⟩ 0 1 none
        = .ok [[0, 1]] ∧
      ¬ IsSimplePathTo (Graph.stepB ⟨[0, 1], [(1, 0)], true, true⟩) 0 1
        [0, 1]) := by
  refine ⟨⟨by rfl,
    ⟨⟨rfl, rfl, List.chain'_singleton 0⟩, List.nodup_singleton 0⟩⟩,
    ⟨by rfl, ?_⟩⟩
  rintro ⟨⟨hh, hl, hc⟩, hnd⟩
  have hstep := (List.chain'_cons.mp hc).1
  simp [Graph.stepB] at hstep

/-- Witness for the amended exhaustiveness theorem on the single-edge graph
0 — 1: the yielded path [0, 1] is indeed a simple path. -/
theorem allSimplePaths_exhaustive_witness :
    IsSimplePathTo (Graph.stepB ⟨[0, 1], [(0, 1)], false, false⟩) 0 1
      [0, 1] :=
  (allSimplePaths_exhaustive ⟨[0, 1], [(0, 1)], false, false⟩ 0 1
    ⟨by decide, by decide⟩ (by decide) (by simp) (by decide) (by decide)
    [[0, 1]] (by rfl) [0, 1]).mp (by decide)

end BidirSearch

namespace BidirSearch

/-! ## Claim C6: multigraph vs simple-graph variants on collapsed graphs -/

/-- An edge list with all parallel edges collapsed: no two stored edges
form the same unordered pair (this is what "a multigraph whose parallel
edges have been collapsed to single edges" leaves behind). -/
def CollapsedE (es : List (Node × Node)) : Prop :=
  (es.map (fun x => (min x.1 x.2, max x.1 x.2))).Nodup

lemma incident_some_collapse {e : Node × Node} {v w : Node}
    (h : (if e.1 == v then some e.2
          else if e.2 == v then some e.1 else none) = some w) :
    (min e.1 e.2, max e.1 e.2) = (min v w, max v w) := by
  by_cases h1 : (e.1 == v) = true
  · rw [if_pos h1] at h
    injection h with h
    rw [beq_iff_eq.mp h1, h]
  · rw [if_neg h1] at h
    by_cases h2 : (e.2 == v) = true
    · rw [if_pos h2] at h
      injection h with h
      rw [beq_iff_eq.mp h2, h, min_comm, max_comm]
    · rw [if_neg h2] at h
      simp at h

lemma nodup_filterMap_of_pairwise {α β : Type} {f : α → Option β} :
    ∀ {l : List α},
      List.Pairwise (fun a a' => ∀ b, f a = some b → f a' ≠ some b) l →
      (l.filterMap f).Nodup := by
  intro l
  induction l with
  | nil => intro _; simp
  | cons a rest ih =>
    intro hp
    rw [List.pairwise_cons] at hp
    rw [List.filterMap_cons]
    cases hfa : f a with
    | none => exact ih hp.2
    | some b =>
      refine List.nodup_cons.mpr ⟨?_, ih hp.2⟩
      intro hb
      rw [List.mem_filterMap] at hb
      obtain ⟨a', ha', hfa'⟩ := hb
      exact hp.1 a' ha' b hfa hfa'

lemma collapsed_incident_nodup {G : Graph} (hcol : CollapsedE G.edges)
    (v : Node) : (G.incident v).Nodup := by
  unfold Graph.incident
  apply nodup_filterMap_of_pairwise
  have hp := List.pairwise_map.mp hcol
  refine hp.imp ?_
  intro e e' hne b hb hb'
  exact hne ((incident_some_collapse hb).trans
    (incident_some_collapse hb').symm)

lemma collapsed_neighbors_eq {n : List Node} {e : List (Node × Node)}
    (hcol : CollapsedE e) :
    (Graph.neighbors ⟨n, e, false, false⟩) =
      (fun _ v => Graph.incident ⟨n, e, false, true⟩ v) := by
  funext m v
  show Graph.nbrs ⟨n, e, false, false⟩ v = _
  unfold Graph.nbrs
  exact List.dedup_eq_self.mpr (collapsed_incident_nodup (G := ⟨n, e, false, true⟩) hcol v)

lemma flatMap_congr {α β : Type} {l : List α} {f g : α → List β}
    (h : ∀ a ∈ l, f a = g a) : l.flatMap f = l.flatMap g := by
  induction l with
  | nil => rfl
  | cons a rest ih =>
    simp only [List.flatMap_cons]
    rw [h a (List.mem_cons_self _ _),
      ih (fun a ha => h a (List.mem_cons_of_mem _ ha))]

lemma extendAll_nodup {nbr : Bool → Node → List Node} {m : Bool}
    {l : List Path} (hl : l.Nodup) (hn : ∀ u, (nbr m u).Nodup) :
    (extendAll nbr m l).Nodup := by
  unfold extendAll
  rw [List.nodup_flatMap]
  constructor
  · intro p _
    refine List.Nodup.filterMap ?_ (hn (lastD p))
    intro v v' b hb hb'
    by_cases hv : v ∈ p
    · simp [hv] at hb
    · by_cases hv' : v' ∈ p
      · simp [hv'] at hb'
      · simp only [hv, hv', if_false, Option.mem_def, Option.some.injEq] at hb hb'
        have h2 := List.append_cancel_left (hb.trans hb'.symm)
        simpa using h2
  · refine hl.imp ?_
    intro p p' hne b hb hb'
    rw [List.mem_filterMap] at hb hb'
    obtain ⟨v, _, hv⟩ := hb
    obtain ⟨v', _, hv'⟩ := hb'
    by_cases hvp : v ∈ p
    · simp [hvp] at hv
    · by_cases hvp' : v' ∈ p'
      · simp [hvp'] at hv'
      · simp only [hvp, hvp', if_false, Option.some.injEq] at hv hv'
        have heq : p ++ [v] = p' ++ [v'] := hv.trans hv'.symm
        exact hne (List.append_inj' heq (by simp)).1

lemma ssYields_gate_eq {nbr : Bool → Node → List Node} {m : Bool}
    {gate : Node → Bool} {ts tt : List Path}
    (hg : ∀ pt ∈ tt, gate (lastD pt) = true) :
    ssYields nbr m gate ts tt = ssYields nbr m (fun _ => true) ts tt := by
  unfold ssYields
  apply flatMap_congr
  intro ps _
  apply flatMap_congr
  intro v _
  by_cases hvp : v ∈ ps
  · rw [if_pos hvp, if_pos hvp]
  · rw [if_neg hvp, if_neg hvp]
    by_cases hgv : gate v = true
    · rw [if_pos hgv, if_pos rfl]
    · rw [if_neg hgv, if_pos rfl]
      have hfil : tt.filter (fun pt =>
          lastD pt == v && pt.all (fun x => decide (x ∉ ps))) = [] := by
        rw [List.filter_eq_nil_iff]
        intro pt hpt hcond
        rw [Bool.and_eq_true] at hcond
        have hlv : lastD pt = v := beq_iff_eq.mp hcond.1
        exact hgv (hlv ▸ hg pt hpt)
      rw [hfil]
      rfl

/-- The forgetful map from the simple-graph shortest-path state to the
multigraph one (drop the seen sets). -/
def toSM (st : SSState) : SMState := ⟨st.t0, st.t1, st.found, st.acc⟩

/-- State conditions under which one simple-graph round coincides with one
multigraph round: endpoints recorded in the seen sets and duplicate-free
trees. -/
def SimInv (st : SSState) : Prop :=
  (∀ p ∈ st.t0, lastD p ∈ st.n0) ∧ (∀ p ∈ st.t1, lastD p ∈ st.n1) ∧
  st.t0.Nodup ∧ st.t1.Nodup

lemma ssRound_toSM {nbr : Bool → Node → List Node}
    (hnbr : ∀ m u, (nbr m u).Nodup) {st : SSState} (hinv : SimInv st) :
    toSM (ssRound nbr st) = smRound nbr (toSM st) ∧
      SimInv (ssRound nbr st) := by
  obtain ⟨he0, he1, hnd0, hnd1⟩ := hinv
  by_cases hc : st.t1.length < st.t0.length
  · have hc' : (toSM st).t1.length < (toSM st).t0.length := hc
    rw [ssRound_eq_pos hc, smRound_eq_pos hc']
    have hdd : (extendAll nbr true st.t1).dedup = extendAll nbr true st.t1 :=
      List.dedup_eq_self.mpr (extendAll_nodup hnd1 (hnbr true))
    have hys : ssYields nbr true (fun v => decide (v ∈ st.n0)) st.t1 st.t0 =
        ssYields nbr true (fun _ => true) st.t1 st.t0 :=
      ssYields_gate_eq (fun pt hpt => decide_eq_true (he0 pt hpt))
    refine ⟨?_, ?_⟩
    · unfold toSM
      rw [show (⟨st.t0, (extendAll nbr true st.t1).dedup, st.n0, _, _, _⟩ :
        SSState).t1 = (extendAll nbr true st.t1).dedup from rfl]
      rw [hdd, hys]
    · refine ⟨he0, ?_, hnd0, ?_⟩
      · intro p hp
        rw [show (⟨st.t0, (extendAll nbr true st.t1).dedup, st.n0, _, _, _⟩ :
          SSState).t1 = (extendAll nbr true st.t1).dedup from rfl] at hp
        rw [List.mem_dedup] at hp
        exact mem_unionS.mpr (Or.inr (List.mem_map.mpr ⟨p, hp, rfl⟩))
      · exact List.nodup_dedup _
  · have hc' : ¬ (toSM st).t1.length < (toSM st).t0.length := hc
    rw [ssRound_eq_neg hc, smRound_eq_neg hc']
    have hdd : (extendAll nbr false st.t0).dedup = extendAll nbr false st.t0 :=
      List.dedup_eq_self.mpr (extendAll_nodup hnd0 (hnbr false))
    have hys : ssYields nbr false (fun v => decide (v ∈ st.n1)) st.t0 st.t1 =
        ssYields nbr false (fun _ => true) st.t0 st.t1 :=
      ssYields_gate_eq (fun pt hpt => decide_eq_true (he1 pt hpt))
    refine ⟨?_, ?_⟩
    · unfold toSM
      rw [show (⟨(extendAll nbr false st.t0).dedup, st.t1, _, st.n1, _, _⟩ :
        SSState).t0 = (extendAll nbr false st.t0).dedup from rfl]
      rw [hdd, hys]
    · refine ⟨?_, he1, ?_, hnd1⟩
      · intro p hp
        rw [show (⟨(extendAll nbr false st.t0).dedup, st.t1, _, st.n1, _, _⟩ :
          SSState).t0 = (extendAll nbr false st.t0).dedup from rfl] at hp
        rw [List.mem_dedup] at hp
        exact mem_unionS.mpr (Or.inr (List.mem_map.mpr ⟨p, hp, rfl⟩))
      · exact List.nodup_dedup _

lemma ssLoop_toSM {nbr : Bool → Node → List Node}
    (hnbr : ∀ m u, (nbr m u).Nodup) :
    ∀ (fuel : Nat) (st : SSState), SimInv st →
      toSM (ssLoop nbr fuel st) = smLoop nbr fuel (toSM st) := by
  intro fuel
  induction fuel with
  | zero => intro st _; rfl
  | succ f ih =>
    intro st hinv
    unfold ssLoop smLoop
    by_cases hstop : (st.found || st.t0.isEmpty || st.t1.isEmpty) = true
    · rw [if_pos hstop, if_pos (show ((toSM st).found || (toSM st).t0.isEmpty
        || (toSM st).t1.isEmpty) = true from hstop)]
    · rw [if_neg hstop, if_neg (show ¬ ((toSM st).found || (toSM st).t0.isEmpty
        || (toSM st).t1.isEmpty) = true from hstop)]
      obtain ⟨heq, hinv'⟩ := ssRound_toSM hnbr hinv
      rw [ih (ssRound nbr st) hinv', heq]

end BidirSearch

namespace BidirSearch

/-- Claim C6 (amended): on an undirected multigraph whose parallel edges
have been collapsed to single edges, all three public operations return
exactly what the simple-graph variant returns on the same nodes and edges;
the variants differ only in neighbor resolution, and on a collapsed
undirected graph incident-edge enumeration already lists each distinct
neighbor once.  For directed graphs the claim is false: the multigraph
variants resolve neighbors ignoring direction. -/
theorem variants_agree_collapsed (n : List Node) (e : List (Node × Node))
    (hcol : CollapsedE e) (s t : Node) (c : Option Int) :
    bidirectional_has_path ⟨n, e, false, true⟩ s t =
      bidirectional_has_path ⟨n, e, false, false⟩ s t ∧
    bidirectional_all_shortest_paths ⟨n, e, false, true⟩ s t =
      bidirectional_all_shortest_paths ⟨n, e, false, false⟩ s t ∧
    bidirectional_all_simple_paths ⟨n, e, false, true⟩ s t c =
      bidirectional_all_simple_paths ⟨n, e, false, false⟩ s t c := by
  have hnb := collapsed_neighbors_eq (n := n) hcol
  have h1 : _bidirectional_has_path_multi ⟨n, e, false, true⟩ s t =
      _bidirectional_has_path ⟨n, e, false, false⟩ s t := by
    unfold _bidirectional_has_path_multi _bidirectional_has_path
    rw [← hnb]
    rfl
  have hsim := ssLoop_toSM (neighbors_nodup ⟨n, e, false, false⟩)
    (fuelN ⟨n, e, false, false⟩ s t) (ssInit s t)
    ⟨fun p hp => by simp [ssInit] at hp; subst hp; simp [ssInit, lastD],
     fun p hp => by simp [ssInit] at hp; subst hp; simp [ssInit, lastD],
     List.nodup_singleton _, List.nodup_singleton _⟩
  have hs2 : smLoop (fun _ v => Graph.incident ⟨n, e, false, true⟩ v)
      (fuelN ⟨n, e, false, true⟩ s t) ⟨[[s]], [[t]], false, []⟩ =
      toSM (ssLoop (Graph.neighbors ⟨n, e, false, false⟩)
        (fuelN ⟨n, e, false, false⟩ s t) (ssInit s t)) := by
    rw [← hnb]
    exact hsim.symm
  have h2 : _bidirectional_all_shortest_paths_multi ⟨n, e, false, true⟩ s t =
      _bidirectional_all_shortest_paths ⟨n, e, false, false⟩ s t :=
    congrArg (fun st => (st.acc, st.found)) hs2
  have h3 : ∀ ci : Int,
      _bidirectional_all_simple_paths_multi ⟨n, e, false, true⟩ s t ci =
      _bidirectional_all_simple_paths ⟨n, e, false, false⟩ s t ci := by
    intro ci
    unfold _bidirectional_all_simple_paths_multi _bidirectional_all_simple_paths
    rw [← hnb]
  by_cases hsm : s ∈ n
  · by_cases htm : t ∈ n
    · have w1 : bidirectional_has_path ⟨n, e, false, true⟩ s t =
          .ok (_bidirectional_has_path_multi ⟨n, e, false, true⟩ s t) := by
        unfold bidirectional_has_path
        rw [if_neg (by simpa using hsm), if_neg (by simpa using htm)]
        try rfl
      have w2 : bidirectional_has_path ⟨n, e, false, false⟩ s t =
          .ok (_bidirectional_has_path ⟨n, e, false, false⟩ s t) := by
        unfold bidirectional_has_path
        rw [if_neg (by simpa using hsm), if_neg (by simpa using htm)]
        try rfl
      have w3 : bidirectional_all_shortest_paths ⟨n, e, false, true⟩ s t =
          .ok ((_bidirectional_all_shortest_paths_multi ⟨n, e, false, true⟩
              s t).1,
            if (_bidirectional_all_shortest_paths_multi ⟨n, e, false, true⟩
              s t).2 then none else some Err.noPath) := by
        unfold bidirectional_all_shortest_paths
        rw [if_neg (by simpa using hsm), if_neg (by simpa using htm)]
        try rfl
      have w4 : bidirectional_all_shortest_paths ⟨n, e, false, false⟩ s t =
          .ok ((_bidirectional_all_shortest_paths ⟨n, e, false, false⟩
              s t).1,
            if (_bidirectional_all_shortest_paths ⟨n, e, false, false⟩
              s t).2 then none else some Err.noPath) := by
        unfold bidirectional_all_shortest_paths
        rw [if_neg (by simpa using hsm), if_neg (by simpa using htm)]
        try rfl
      have w5 : bidirectional_all_simple_paths ⟨n, e, false, true⟩ s t c =
          .ok (_bidirectional_all_simple_paths_multi ⟨n, e, false, true⟩ s t
            (c.getD ((n.length : Int) - 1))) := by
        unfold bidirectional_all_simple_paths
        rw [if_neg (by simpa using hsm), if_neg (by simpa using htm)]
        try rfl
      have w6 : bidirectional_all_simple_paths ⟨n, e, false, false⟩ s t c =
          .ok (_bidirectional_all_simple_paths ⟨n, e, false, false⟩ s t
            (c.getD ((n.length : Int) - 1))) := by
        unfold bidirectional_all_simple_paths
        rw [if_neg (by simpa using hsm), if_neg (by simpa using htm)]
        try rfl
      refine ⟨?_, ?_, ?_⟩
      · rw [w1, w2, h1]
      · rw [w3, w4, h2]
      · rw [w5, w6, h3]
    · have hterr : ∀ (G : Graph), G.nodes = n →
          (bidirectional_has_path G s t = .error .nodeNotFound ∧
           bidirectional_all_shortest_paths G s t = .error .nodeNotFound ∧
           bidirectional_all_simple_paths G s t c =
             .error .nodeNotFound) := by
        intro G hGn
        refine ⟨?_, ?_, ?_⟩
        · unfold bidirectional_has_path
          rw [if_neg (by simp [hGn, hsm]), if_pos (by simp [hGn, htm])]
        · unfold bidirectional_all_shortest_paths
          rw [if_neg (by simp [hGn, hsm]), if_pos (by simp [hGn, htm])]
        · unfold bidirectional_all_simple_paths
          rw [if_neg (by simp [hGn, hsm]), if_pos (by simp [hGn, htm])]
      obtain ⟨a1, a2, a3⟩ := hterr ⟨n, e, false, true⟩ rfl
      obtain ⟨b1, b2, b3⟩ := hterr ⟨n, e, false, false⟩ rfl
      exact ⟨a1.trans b1.symm, a2.trans b2.symm, a3.trans b3.symm⟩
  · have hserr : ∀ (G : Graph), G.nodes = n →
        (bidirectional_has_path G s t = .error .nodeNotFound ∧
         bidirectional_all_shortest_paths G s t = .error .nodeNotFound ∧
         bidirectional_all_simple_paths G s t c = .error .nodeNotFound) := by
      intro G hGn
      refine ⟨?_, ?_, ?_⟩
      · unfold bidirectional_has_path
        rw [if_pos (by simp [hGn, hsm])]
      · unfold bidirectional_all_shortest_paths
        rw [if_pos (by simp [hGn, hsm])]
      · unfold bidirectional_all_simple_paths
        rw [if_pos (by simp [hGn, hsm])]
    obtain ⟨a1, a2, a3⟩ := hserr ⟨n, e, false, true⟩ rfl
    obtain ⟨b1, b2, b3⟩ := hserr ⟨n, e, false, false⟩ rfl
    exact ⟨a1.trans b1.symm, a2.trans b2.symm, a3.trans b3.symm⟩

/-- Claim C6 counterexample: the directed multigraph with the single edge
1 → 0 is already collapsed (no parallel edges), yet the multigraph variant
of `hasPath` answers `true` for 0 → 1 while the simple-graph variant on the
same nodes and edges answers `false` — the variants disagree on directed
graphs because incident-edge enumeration ignores direction. -/
theorem variants_claim_cex :
    CollapsedE [(1, 0)] ∧
    bidirectional_has_path ⟨[0, 1], [(1, 0)], true, true⟩ 0 1 = .ok true ∧
    bidirectional_has_path ⟨[0, 1], [(1, 0)], true, false⟩ 0 1 =
      .ok false := by
  refine ⟨?_, by rfl, by rfl⟩
  unfold CollapsedE
  decide

/-- Witness for the collapsed-variants theorem on the one-edge undirected
graph: both variants return the same `hasPath` answer. -/
theorem variants_agree_collapsed_witness :
    bidirectional_has_path ⟨[0, 1], [(0, 1)], false, true⟩ 0 1 =
      bidirectional_has_path ⟨[0, 1], [(0, 1)], false, false⟩ 0 1 :=
  (variants_agree_collapsed [0, 1] [(0, 1)]
    (by unfold CollapsedE; decide) 0 1 none).1

end BidirSearch

namespace BidirSearch

/-- Claim C9 (amended): with any cutoff below 1 `bidirectional_all_simple_paths`
returns an empty yield sequence at once; the operation never produces
`NetworkXNoPath` on any input; and on every dispatch case except directed
multigraphs it yields nothing when no source-to-target path exists.  On
directed multigraphs the last part is false: the direction-agnostic
incident-edge enumeration can yield sequences although the target is
unreachable. -/
theorem allSimplePaths_no_error (G : Graph) (s t : Node) :
    (∀ c : Int, c < 1 → s ∈ G.nodes → t ∈ G.nodes →
      bidirectional_all_simple_paths G s t (some c) = .ok []) ∧
    (∀ c : Option Int,
      bidirectional_all_simple_paths G s t c ≠ .error .noPath) ∧
    (¬(G.directed = true ∧ G.multi = true) → ¬ Reachable G.stepB s t →
      ∀ (c : Option Int) (l : List Path),
        bidirectional_all_simple_paths G s t c = .ok l → l = []) := by
  refine ⟨?_, ?_, ?_⟩
  · intro c hc hs ht
    unfold bidirectional_all_simple_paths
    rw [if_neg (by simpa using hs), if_neg (by simpa using ht),
      Option.getD_some]
    show Except.ok (if G.multi = true
        then _bidirectional_all_simple_paths_multi G s t c
        else _bidirectional_all_simple_paths G s t c) = Except.ok []
    by_cases hm : G.multi = true
    · rw [if_pos hm]
      unfold _bidirectional_all_simple_paths_multi
      rw [if_pos hc]
    · rw [if_neg hm]
      unfold _bidirectional_all_simple_paths
      rw [if_pos hc]
  · intro c
    unfold bidirectional_all_simple_paths
    split
    · simp
    · split
      · simp
      · simp
  · intro hdm hur c l h
    unfold bidirectional_all_simple_paths at h
    by_cases hs : s ∉ G.nodes
    · rw [if_pos hs] at h
      exact absurd h (by simp)
    · rw [if_neg hs] at h
      by_cases ht' : t ∉ G.nodes
      · rw [if_pos ht'] at h
        exact absurd h (by simp)
      · rw [if_neg ht'] at h
        injection h with h
        by_cases hm : G.multi = true
        · have hd : G.directed = false := by
            cases hdir : G.directed
            · rfl
            · exact absurd ⟨hdir, hm⟩ hdm
          rw [if_pos hm] at h
          subst h
          unfold _bidirectional_all_simple_paths_multi
          by_cases hlt : (c.getD ((G.nodes.length : Int) - 1)) < 1
          · rw [if_pos hlt]
          · rw [if_neg hlt]
            rw [List.eq_nil_iff_forall_not_mem]
            intro q hq
            rcases (spLoop_exact (A := symB G)
                (fun u v => mem_incident_symB)
                (fun u v => by rw [mem_incident_symB, symB_comm])
                (c.getD ((G.nodes.length : Int) - 1)).toNat (spInit s t)
                1 1 (spInv_init s t) q).mp hq with hacc | hsp
            · simp [spInit] at hacc
            · obtain ⟨j, _, _, hh, hl2, _, hch⟩ := hsp
              refine hur ?_
              rw [stepB_eq_symB hd]
              exact ⟨q, hh, hl2, hch⟩
        · rw [if_neg hm] at h
          subst h
          unfold _bidirectional_all_simple_paths
          by_cases hlt : (c.getD ((G.nodes.length : Int) - 1)) < 1
          · rw [if_pos hlt]
          · rw [if_neg hlt]
            rw [List.eq_nil_iff_forall_not_mem]
            intro q hq
            rcases (spLoop_exact (A := G.stepB)
                (fun u v => mem_neighbors_false)
                (fun u v => mem_neighbors_true)
                (c.getD ((G.nodes.length : Int) - 1)).toNat (spInit s t)
                1 1 (spInv_init s t) q).mp hq with hacc | hsp
            · simp [spInit] at hacc
            · obtain ⟨j, _, _, hh, hl2, _, hch⟩ := hsp
              exact hur ⟨q, hh, hl2, hch⟩

/-- Claim C9 counterexample: on the directed multigraph with the single edge
1 → 0 the target 1 is unreachable from 0, yet the operation yields [0, 1]
instead of nothing — the unreachability part of the claim fails on directed
multigraphs. -/
theorem allSimplePaths_unreach_cex :
    bidirectional_all_simple_paths ⟨[0, 1], [(1, 0)], true, true⟩ 0 1 none
      = .ok [[0, 1]] ∧
    ¬ Reachable (Graph.stepB ⟨[0, 1], [(1, 0)], true, true⟩) 0 1 := by
  refine ⟨by rfl, ?_⟩
  rintro ⟨p, hh, hl, hc⟩
  cases p with
  | nil => simp at hh
  | cons x rest =>
    have hx : x = 0 := by simpa using hh
    subst hx
    cases rest with
    | nil => simp at hl
    | cons y rest2 =>
      have hstep := (List.chain'_cons.mp hc).1
      simp [Graph.stepB] at hstep

/-- Witness for the amended no-error theorem: cutoff 0 on the edgeless
two-node graph returns the empty yield list. -/
theorem allSimplePaths_no_error_witness :
    bidirectional_all_simple_paths ⟨[0, 1], [], false, false⟩ 0 1 (some 0)
      = .ok [] :=
  (allSimplePaths_no_error ⟨[0, 1], [], false, false⟩ 0 1).1 0
    (by decide) (by decide) (by decide)

end BidirSearch
